import Mathlib

/-!
Verification development for the groups.js permutation-group engine.

This file contains a shallow embedding of the engine's core:

* `PermutationRepository` (permutation-repository.js): a global interner for
  permutations backed by two flat `Int32Array` arenas — a dense image table
  (`permBuffer`) and a radix-trie arena (`trieBuffer`).  The JS typed arrays
  are modelled as total functions `Nat → Int` / `Nat → Nat`: a fresh
  `Int32Array` is zero-initialised, and the capacity-doubling reallocation
  steps (`_expandTrieBuffer`, `_expandPermCapacity`) copy all existing content
  verbatim, so they are invisible at this level of abstraction and are not
  modelled as separate state changes.

* `PermutationSet` and `generateGroup` (group-engine.js).

* `parseCycles` / `decomposeToCycles` (group-utils.js).

* `getQuotientStructure` (group-structural-utils.js).

Stateful JS methods become explicit state-passing functions `Repo → ... → α × Repo`.
Unbounded `while` loops become fuel recursion; in each case the fuel supplied by
the embedding is proved sufficient.
-/

namespace GroupsJs

/-- Pointwise store into an `Int` buffer (one 32-bit write into a typed array). -/
def updI (f : Nat → Int) (i : Nat) (v : Int) : Nat → Int :=
  fun j => if j = i then v else f j

/-- Pointwise store into a `Nat`-valued buffer. -/
def updN (f : Nat → Nat) (i : Nat) (v : Nat) : Nat → Nat :=
  fun j => if j = i then v else f j

/-- State of a `PermutationRepository` instance (permutation-repository.js).
`permBuffer` is the dense image table (stride `globalDegree`), `trieBuffer` the
flat trie arena (node layout `[ID, child_0, …, child_{N-1}]`, stride
`trieNodeSize = globalDegree + 1`), `trieFreePtr` the arena's bump pointer.
`identity` is the `this.identity` field (always the ID returned by
`register([])` in the constructor). -/
structure Repo where
  globalDegree : Nat
  count : Nat
  permBuffer : Nat → Nat
  trieNodeSize : Nat
  trieBuffer : Nat → Int
  trieFreePtr : Nat
  identity : Nat

/-- `_allocateNode`: bump-allocate one trie node and initialise all of its
`trieNodeSize` slots to `-1`. -/
def Repo.allocateNode (s : Repo) : Nat × Repo :=
  let ptr := s.trieFreePtr
  let tb : Nat → Int := fun j => if ptr ≤ j ∧ j < ptr + s.trieNodeSize then -1 else s.trieBuffer j
  (ptr, { s with trieBuffer := tb, trieFreePtr := ptr + s.trieNodeSize })

/-- One iteration of the trie walk in `register`: read the child slot
`currNodePtr + 1 + val`; if it is `-1`, allocate a fresh node and link it. -/
def Repo.trieStep (s : Repo) (curr val : Nat) : Nat × Repo :=
  let childSlotIdx := curr + 1 + val
  let next := s.trieBuffer childSlotIdx
  if next = -1 then
    let pr := s.allocateNode
    (pr.1, { pr.2 with trieBuffer := updI pr.2.trieBuffer childSlotIdx (Int.ofNat pr.1) })
  else
    (next.toNat, s)

/-- The trie-walk `for` loop of `register`, position `i` of `n`, spending one
`trieStep` per position on `rawPerm[i]` (or the identity padding `i` beyond the
input's length).  The last argument is the number of remaining positions. -/
def Repo.walkFrom (s : Repo) (raw : List Nat) (curr i : Nat) : Nat → Nat × Repo
  | 0 => (curr, s)
  | steps+1 =>
    let val := if i < raw.length then raw.getD i 0 else i
    let pr := s.trieStep curr val
    pr.2.walkFrom raw pr.1 (i+1) steps

/-- `_writeToPermBuffer`: write `inputArr[0..validLen)` at offset
`id * globalDegree`, padding positions `validLen ≤ i < globalDegree` with the
fixed point `i`.  The two write loops are rendered as their joint effect. -/
def Repo.writeToPermBuffer (s : Repo) (id : Nat) (inputArr : List Nat) (validLen : Nat) : Repo :=
  let n := s.globalDegree
  let offset := id * n
  let pb : Nat → Nat := fun j =>
    if offset ≤ j ∧ j < offset + n then
      (if j - offset < validLen then inputArr.getD (j - offset) 0 else j - offset)
    else s.permBuffer j
  { s with permBuffer := pb }

/-- The trie walk performed for one existing ID inside `_upgradeDegree`'s
re-insertion loop; values are read from the (already migrated) `permBuffer`. -/
def Repo.reinsertWalk (s : Repo) (permOffset curr i : Nat) : Nat → Nat × Repo
  | 0 => (curr, s)
  | steps+1 =>
    let val := s.permBuffer (permOffset + i)
    let pr := s.trieStep curr val
    pr.2.reinsertWalk permOffset pr.1 (i+1) steps

/-- The `for (let id = 0; id < totalPerms; id++)` re-insertion loop of
`_upgradeDegree`: walk the trie along the migrated image of `idStart` and store
`idStart` at the leaf; the last argument counts the IDs still to insert. -/
def Repo.reinsertLoop (s : Repo) (idStart : Nat) : Nat → Repo
  | 0 => s
  | remaining+1 =>
    let newDegree := s.globalDegree
    let permOffset := idStart * newDegree
    let pr := s.reinsertWalk permOffset 0 0 newDegree
    let s1 := { pr.2 with trieBuffer := updI pr.2.trieBuffer pr.1 (Int.ofNat idStart) }
    s1.reinsertLoop (idStart + 1) remaining

/-- `_upgradeDegree`: raise `globalDegree`, migrate the image table (copy the
old `oldDegree` entries of every stored ID and pad with fixed points), reset
the trie arena and re-insert every stored permutation at the new depth. -/
def Repo.upgradeDegree (s : Repo) (newDegree : Nat) : Repo :=
  let oldDegree := s.globalDegree
  let oldPermBuffer := s.permBuffer
  let totalPerms := s.count
  let pb : Nat → Nat := fun j =>
    if j / newDegree < totalPerms then
      (if j % newDegree < oldDegree then oldPermBuffer ((j / newDegree) * oldDegree + j % newDegree)
       else j % newDegree)
    else 0
  let s1 : Repo := { s with globalDegree := newDegree, trieNodeSize := newDegree + 1,
                            permBuffer := pb, trieFreePtr := 0 }
  let pr := s1.allocateNode
  pr.2.reinsertLoop 0 totalPerms

/-- `register(rawPerm)`: upgrade the degree if the input is longer than it,
walk/extend the trie spending one edge per position, then return the ID stored
at the leaf, or assign the next ID (writing the padded image into the image
table) when the leaf is empty. -/
def Repo.register (s : Repo) (rawPerm : List Nat) : Nat × Repo :=
  let inputLen := rawPerm.length
  let s1 := if s.globalDegree < inputLen then s.upgradeDegree inputLen else s
  let n := s1.globalDegree
  let pr := s1.walkFrom rawPerm 0 0 n
  let idSlot := pr.2.trieBuffer pr.1
  if idSlot = -1 then
    let newId := pr.2.count
    let s2 := { pr.2 with count := pr.2.count + 1,
                          trieBuffer := updI pr.2.trieBuffer pr.1 (Int.ofNat newId) }
    (newId, s2.writeToPermBuffer newId rawPerm inputLen)
  else
    (idSlot.toNat, pr.2)

/-- `get(id)`: the `globalDegree` image values of `id` as a list (the source
returns a zero-copy subarray view of `permBuffer`). -/
def Repo.get (s : Repo) (id : Nat) : List Nat :=
  (List.range s.globalDegree).map (fun k => s.permBuffer (id * s.globalDegree + k))

/-- The `res` array built by `inverse`'s loop `res[buf[off + k]] = k` for
`k = 0 … n-1`, starting from a zero-initialised `Int32Array`; later iterations
overwrite earlier ones, as in the source. -/
def invFillLoop (buf : Nat → Nat) (off : Nat) : Nat → (Nat → Nat)
  | 0 => fun _ => 0
  | k+1 => updN (invFillLoop buf off k) (buf (off + k)) k

/-- `inverse(id)`: identity fast path, else build the inverse image array and
register it. -/
def Repo.inverse (s : Repo) (id : Nat) : Nat × Repo :=
  if id = s.identity then (s.identity, s)
  else
    let N := s.globalDegree
    let off := id * N
    let res := invFillLoop s.permBuffer off N
    s.register ((List.range N).map res)

/-- `multiply(idA, idB)`: identity fast paths, else register the composition
`res[k] = A[B[k]]` (convention `(A·B)(x) = A(B(x))`). -/
def Repo.multiply (s : Repo) (idA idB : Nat) : Nat × Repo :=
  if idA = s.identity then (idB, s)
  else if idB = s.identity then (idA, s)
  else
    let N := s.globalDegree
    let offA := idA * N
    let offB := idB * N
    let res := (List.range N).map (fun k => s.permBuffer (offA + s.permBuffer (offB + k)))
    s.register res

/-- The `PermutationRepository(initialDegree)` constructor: zero-initialised
arenas, allocate the root node, then register the empty sequence (the identity)
and record its ID in the `identity` field. -/
def mkRepo (initialDegree : Nat) : Repo :=
  let s0 : Repo := { globalDegree := initialDegree, count := 0,
                     permBuffer := fun _ => 0, trieNodeSize := initialDegree + 1,
                     trieBuffer := fun _ => 0, trieFreePtr := 0, identity := 0 }
  let pr0 := s0.allocateNode
  let pr1 := pr0.2.register []
  { pr1.2 with identity := pr1.1 }

/-- Pure (effect-free) trie walk from node `curr` along a value list: follow
child slots, stopping with `none` on a `-1` edge. -/
def Repo.trieFind (s : Repo) : Nat → List Nat → Option Nat
  | curr, [] => some curr
  | curr, v :: vs =>
    let c := s.trieBuffer (curr + 1 + v)
    if c = -1 then none else s.trieFind c.toNat vs

/-- Pure lookup of a full image path from the root: the ID stored at the leaf
reached by `path`, if the path exists and the leaf's ID slot is not `-1`. -/
def Repo.trieLookup (s : Repo) (path : List Nat) : Option Nat :=
  match s.trieFind 0 path with
  | none => none
  | some p => let idSlot := s.trieBuffer p; if idSlot = -1 then none else some idSlot.toNat

/-- Image path of length `n` that `register` effectively walks for input
`raw`: position `i` carries `raw[i]` below the input length and the fixed
point `i` beyond it. -/
def padTo (n : Nat) (raw : List Nat) : List Nat :=
  (List.range n).map (fun i => if i < raw.length then raw.getD i 0 else i)

/-- All lists of length `k` with entries `< n` (the candidate trie paths). -/
def allLists (n : Nat) : Nat → List (List Nat)
  | 0 => [[]]
  | k+1 => (List.range n).flatMap (fun v => (allLists n k).map (fun t => v :: t))

theorem mem_allLists {n k : Nat} {Y : List Nat} :
    Y ∈ allLists n k ↔ Y.length = k ∧ ∀ v ∈ Y, v < n := by
  induction k generalizing Y with
  | zero =>
    simp only [allLists, List.mem_singleton]
    constructor
    · rintro rfl; exact ⟨rfl, by simp⟩
    · rintro ⟨h, -⟩; exact List.length_eq_zero.mp h
  | succ k ih =>
    cases Y with
    | nil =>
      constructor
      · intro h
        simp only [allLists, List.mem_flatMap, List.mem_map] at h
        obtain ⟨v, -, t, -, heq⟩ := h
        exact absurd heq (by simp)
      · rintro ⟨h, -⟩; simp at h
    | cons y ys =>
      constructor
      · intro h
        simp only [allLists, List.mem_flatMap, List.mem_map, List.mem_range] at h
        obtain ⟨v, hv, t, ht, heq⟩ := h
        simp only [List.cons.injEq] at heq
        obtain ⟨rfl, rfl⟩ := heq
        obtain ⟨hlen, hall⟩ := ih.mp ht
        refine ⟨by simp [hlen], ?_⟩
        intro w hw
        rcases List.mem_cons.mp hw with rfl | hw2
        · exact hv
        · exact hall w hw2
      · rintro ⟨hlen, hall⟩
        simp only [allLists, List.mem_flatMap, List.mem_map, List.mem_range]
        refine ⟨y, hall y (List.mem_cons_self _ _), ys, ih.mpr ⟨by simpa using hlen, ?_⟩, rfl⟩
        intro w hw
        exact hall w (List.mem_cons_of_mem _ hw)

/-- Well-formedness invariant of a repository state: arena layout soundness of
the trie (aligned, acyclic, unaliased child pointers), in-range stored images,
and the correspondence between trie lookups and the interned ID table, with
the identity interned as ID 0. -/
structure Wf (s : Repo) : Prop where
  nodeSize_eq : s.trieNodeSize = s.globalDegree + 1
  root_le : s.trieNodeSize ≤ s.trieFreePtr
  free_dvd : s.trieNodeSize ∣ s.trieFreePtr
  child_ok : ∀ p ∈ List.range s.trieFreePtr, s.trieNodeSize ∣ p →
      ∀ v ∈ List.range s.globalDegree,
      s.trieBuffer (p+1+v) = -1 ∨
      (0 ≤ s.trieBuffer (p+1+v) ∧ (s.trieBuffer (p+1+v)).toNat < s.trieFreePtr ∧
       s.trieNodeSize ∣ (s.trieBuffer (p+1+v)).toNat ∧ p < (s.trieBuffer (p+1+v)).toNat)
  child_inj : ∀ p₁ ∈ List.range s.trieFreePtr, s.trieNodeSize ∣ p₁ →
      ∀ v₁ ∈ List.range s.globalDegree,
      ∀ p₂ ∈ List.range s.trieFreePtr, s.trieNodeSize ∣ p₂ →
      ∀ v₂ ∈ List.range s.globalDegree,
      s.trieBuffer (p₁+1+v₁) = s.trieBuffer (p₂+1+v₂) → s.trieBuffer (p₁+1+v₁) ≠ -1 →
      p₁ = p₂ ∧ v₁ = v₂
  perm_range : ∀ i ∈ List.range s.count, ∀ k ∈ List.range s.globalDegree,
      s.permBuffer (i * s.globalDegree + k) < s.globalDegree
  lookup_complete : ∀ i ∈ List.range s.count, s.trieLookup (s.get i) = some i
  lookup_sound : ∀ Y ∈ allLists s.globalDegree s.globalDegree, ∀ i,
      s.trieLookup Y = some i → i < s.count ∧ s.get i = Y
  identity_eq : s.identity = 0
  count_pos : 0 < s.count
  get_zero : s.get 0 = List.range s.globalDegree

/-- Decidability helper: a universally quantified property of the value of a
concrete `Option Nat`. -/
instance instDecidableOptionForall (o : Option Nat) (P : Nat → Prop) [DecidablePred P] :
    Decidable (∀ i, o = some i → P i) :=
  match o with
  | none => isTrue (by simp)
  | some j => if h : P j then isTrue (by simpa using h) else isFalse (by simp [h])

instance instDecidableWf (s : Repo) : Decidable (Wf s) :=
  decidable_of_iff
    (s.trieNodeSize = s.globalDegree + 1 ∧
     s.trieNodeSize ≤ s.trieFreePtr ∧
     s.trieNodeSize ∣ s.trieFreePtr ∧
     (∀ p ∈ List.range s.trieFreePtr, s.trieNodeSize ∣ p →
        ∀ v ∈ List.range s.globalDegree,
        s.trieBuffer (p+1+v) = -1 ∨
        (0 ≤ s.trieBuffer (p+1+v) ∧ (s.trieBuffer (p+1+v)).toNat < s.trieFreePtr ∧
         s.trieNodeSize ∣ (s.trieBuffer (p+1+v)).toNat ∧ p < (s.trieBuffer (p+1+v)).toNat)) ∧
     (∀ p₁ ∈ List.range s.trieFreePtr, s.trieNodeSize ∣ p₁ →
        ∀ v₁ ∈ List.range s.globalDegree,
        ∀ p₂ ∈ List.range s.trieFreePtr, s.trieNodeSize ∣ p₂ →
        ∀ v₂ ∈ List.range s.globalDegree,
        s.trieBuffer (p₁+1+v₁) = s.trieBuffer (p₂+1+v₂) → s.trieBuffer (p₁+1+v₁) ≠ -1 →
        p₁ = p₂ ∧ v₁ = v₂) ∧
     (∀ i ∈ List.range s.count, ∀ k ∈ List.range s.globalDegree,
        s.permBuffer (i * s.globalDegree + k) < s.globalDegree) ∧
     (∀ i ∈ List.range s.count, s.trieLookup (s.get i) = some i) ∧
     (∀ Y ∈ allLists s.globalDegree s.globalDegree, ∀ i,
        s.trieLookup Y = some i → i < s.count ∧ s.get i = Y) ∧
     s.identity = 0 ∧ 0 < s.count ∧ s.get 0 = List.range s.globalDegree)
    ⟨fun ⟨a, b, c, d, e, f, g, h, i, j, k⟩ => ⟨a, b, c, d, e, f, g, h, i, j, k⟩,
     fun ⟨a, b, c, d, e, f, g, h, i, j, k⟩ => ⟨a, b, c, d, e, f, g, h, i, j, k⟩⟩

theorem Wf.child_ok' {s : Repo} (hs : Wf s) {p : Nat} (hp : p < s.trieFreePtr)
    (hdvd : s.trieNodeSize ∣ p) {v : Nat} (hv : v < s.globalDegree) :
    s.trieBuffer (p+1+v) = -1 ∨
    (0 ≤ s.trieBuffer (p+1+v) ∧ (s.trieBuffer (p+1+v)).toNat < s.trieFreePtr ∧
     s.trieNodeSize ∣ (s.trieBuffer (p+1+v)).toNat ∧ p < (s.trieBuffer (p+1+v)).toNat) :=
  hs.child_ok p (List.mem_range.mpr hp) hdvd v (List.mem_range.mpr hv)

theorem Wf.child_inj' {s : Repo} (hs : Wf s) {p₁ v₁ p₂ v₂ : Nat}
    (hp₁ : p₁ < s.trieFreePtr) (hd₁ : s.trieNodeSize ∣ p₁) (hv₁ : v₁ < s.globalDegree)
    (hp₂ : p₂ < s.trieFreePtr) (hd₂ : s.trieNodeSize ∣ p₂) (hv₂ : v₂ < s.globalDegree)
    (heq : s.trieBuffer (p₁+1+v₁) = s.trieBuffer (p₂+1+v₂))
    (hne : s.trieBuffer (p₁+1+v₁) ≠ -1) : p₁ = p₂ ∧ v₁ = v₂ :=
  hs.child_inj p₁ (List.mem_range.mpr hp₁) hd₁ v₁ (List.mem_range.mpr hv₁)
    p₂ (List.mem_range.mpr hp₂) hd₂ v₂ (List.mem_range.mpr hv₂) heq hne

theorem Wf.perm_range' {s : Repo} (hs : Wf s) {i : Nat} (hi : i < s.count)
    {k : Nat} (hk : k < s.globalDegree) :
    s.permBuffer (i * s.globalDegree + k) < s.globalDegree :=
  hs.perm_range i (List.mem_range.mpr hi) k (List.mem_range.mpr hk)

theorem Wf.lookup_complete' {s : Repo} (hs : Wf s) {i : Nat} (hi : i < s.count) :
    s.trieLookup (s.get i) = some i :=
  hs.lookup_complete i (List.mem_range.mpr hi)

theorem Wf.lookup_sound' {s : Repo} (hs : Wf s) {Y : List Nat}
    (hlen : Y.length = s.globalDegree) (hvals : ∀ v ∈ Y, v < s.globalDegree)
    {i : Nat} (h : s.trieLookup Y = some i) : i < s.count ∧ s.get i = Y :=
  hs.lookup_sound Y (mem_allLists.mpr ⟨hlen, hvals⟩) i h

/-! Structural part of the invariant, used for intermediate states during a
trie walk (where the lookup/ID correspondence is temporarily broken). -/

/-- Structural well-formedness of the trie arena alone. -/
structure SWf (s : Repo) : Prop where
  nodeSize_eq : s.trieNodeSize = s.globalDegree + 1
  root_le : s.trieNodeSize ≤ s.trieFreePtr
  free_dvd : s.trieNodeSize ∣ s.trieFreePtr
  child_ok : ∀ p, p < s.trieFreePtr → s.trieNodeSize ∣ p → ∀ v, v < s.globalDegree →
      s.trieBuffer (p+1+v) = -1 ∨
      (0 ≤ s.trieBuffer (p+1+v) ∧ (s.trieBuffer (p+1+v)).toNat < s.trieFreePtr ∧
       s.trieNodeSize ∣ (s.trieBuffer (p+1+v)).toNat ∧ p < (s.trieBuffer (p+1+v)).toNat)
  child_inj : ∀ p₁ v₁ p₂ v₂, p₁ < s.trieFreePtr → s.trieNodeSize ∣ p₁ → v₁ < s.globalDegree →
      p₂ < s.trieFreePtr → s.trieNodeSize ∣ p₂ → v₂ < s.globalDegree →
      s.trieBuffer (p₁+1+v₁) = s.trieBuffer (p₂+1+v₂) → s.trieBuffer (p₁+1+v₁) ≠ -1 →
      p₁ = p₂ ∧ v₁ = v₂

theorem Wf.toSWf {s : Repo} (hs : Wf s) : SWf s where
  nodeSize_eq := hs.nodeSize_eq
  root_le := hs.root_le
  free_dvd := hs.free_dvd
  child_ok := fun p hp hd v hv => hs.child_ok' hp hd hv
  child_inj := fun _ _ _ _ hp₁ hd₁ hv₁ hp₂ hd₂ hv₂ heq hne =>
    hs.child_inj' hp₁ hd₁ hv₁ hp₂ hd₂ hv₂ heq hne

/-- A child slot `p + 1 + v` of an aligned node is never an aligned (ID) slot. -/
theorem slot_ne_aligned {m N p v q : Nat} (hm : m = N + 1) (hp : m ∣ p) (hv : v < N)
    (hq : m ∣ q) : p + 1 + v ≠ q := by
  intro h
  obtain ⟨a, rfl⟩ := hp
  obtain ⟨b, rfl⟩ := hq
  have hmod : (m * a + (1 + v)) % m = (m * b) % m := by rw [← Nat.add_assoc, h]
  rw [Nat.mul_add_mod, Nat.mul_mod_right] at hmod
  have he : (1 + v) % m = 1 + v := Nat.mod_eq_of_lt (by omega)
  omega

/-- Distinct (node, value) pairs give distinct child-slot indices. -/
theorem slot_inj {m N p₁ v₁ p₂ v₂ : Nat} (hm : m = N + 1) (hp₁ : m ∣ p₁) (hv₁ : v₁ < N)
    (hp₂ : m ∣ p₂) (hv₂ : v₂ < N) (h : p₁ + 1 + v₁ = p₂ + 1 + v₂) : p₁ = p₂ ∧ v₁ = v₂ := by
  obtain ⟨a, rfl⟩ := hp₁
  obtain ⟨b, rfl⟩ := hp₂
  have hmod : (m * a + (1 + v₁)) % m = (m * b + (1 + v₂)) % m := by
    rw [← Nat.add_assoc, ← Nat.add_assoc, h]
  rw [Nat.mul_add_mod, Nat.mul_add_mod] at hmod
  have e1 : (1 + v₁) % m = 1 + v₁ := Nat.mod_eq_of_lt (by omega)
  have e2 : (1 + v₂) % m = 1 + v₂ := Nat.mod_eq_of_lt (by omega)
  have hv : v₁ = v₂ := by omega
  subst hv
  exact ⟨by omega, rfl⟩

/-- Proof-side reformulation of the register walk: consume an explicit list of
edge values. -/
def walkVals (s : Repo) (curr : Nat) : List Nat → Nat × Repo
  | [] => (curr, s)
  | v :: vs =>
    let pr := s.trieStep curr v
    walkVals pr.2 pr.1 vs

/-- Edge values consumed by `walkFrom` from position `i` on. -/
def valsOf (raw : List Nat) : Nat → Nat → List Nat
  | _, 0 => []
  | i, steps+1 => (if i < raw.length then raw.getD i 0 else i) :: valsOf raw (i+1) steps

/-- Edge values consumed by `reinsertWalk` from position `i` on. -/
def valsBuf (buf : Nat → Nat) (off : Nat) : Nat → Nat → List Nat
  | _, 0 => []
  | i, steps+1 => buf (off + i) :: valsBuf buf off (i+1) steps

theorem trieStep_globalDegree (s : Repo) (curr v : Nat) :
    (s.trieStep curr v).2.globalDegree = s.globalDegree := by
  simp only [Repo.trieStep, Repo.allocateNode]
  split <;> rfl

theorem trieStep_count (s : Repo) (curr v : Nat) :
    (s.trieStep curr v).2.count = s.count := by
  simp only [Repo.trieStep, Repo.allocateNode]
  split <;> rfl

theorem trieStep_permBuffer (s : Repo) (curr v : Nat) :
    (s.trieStep curr v).2.permBuffer = s.permBuffer := by
  simp only [Repo.trieStep, Repo.allocateNode]
  split <;> rfl

theorem trieStep_trieNodeSize (s : Repo) (curr v : Nat) :
    (s.trieStep curr v).2.trieNodeSize = s.trieNodeSize := by
  simp only [Repo.trieStep, Repo.allocateNode]
  split <;> rfl

theorem trieStep_identity (s : Repo) (curr v : Nat) :
    (s.trieStep curr v).2.identity = s.identity := by
  simp only [Repo.trieStep, Repo.allocateNode]
  split <;> rfl

theorem walkFrom_eq_walkVals (raw : List Nat) :
    ∀ steps (s : Repo) curr i, s.walkFrom raw curr i steps = walkVals s curr (valsOf raw i steps) := by
  intro steps
  induction steps with
  | zero => intro s curr i; rfl
  | succ n ih =>
    intro s curr i
    simp only [Repo.walkFrom, valsOf, walkVals]
    exact ih _ _ _

theorem reinsertWalk_eq_walkVals :
    ∀ steps (s : Repo) off curr i,
      s.reinsertWalk off curr i steps = walkVals s curr (valsBuf s.permBuffer off i steps) := by
  intro steps
  induction steps with
  | zero => intro s off curr i; rfl
  | succ n ih =>
    intro s off curr i
    simp only [Repo.reinsertWalk, valsBuf, walkVals]
    rw [ih]
    rw [trieStep_permBuffer]

theorem valsOf_eq_map (raw : List Nat) :
    ∀ steps i, valsOf raw i steps =
      (List.range' i steps).map (fun j => if j < raw.length then raw.getD j 0 else j) := by
  intro steps
  induction steps with
  | zero => intro i; rfl
  | succ n ih =>
    intro i
    have hr : List.range' i (n+1) = i :: List.range' (i+1) n := rfl
    rw [hr]
    simp only [valsOf, List.map_cons]
    rw [ih]

theorem valsOf_zero_eq_padTo (raw : List Nat) (n : Nat) : valsOf raw 0 n = padTo n raw := by
  rw [valsOf_eq_map, padTo, List.range_eq_range']

theorem valsBuf_eq_map (buf : Nat → Nat) (off : Nat) :
    ∀ steps i, valsBuf buf off i steps = (List.range' i steps).map (fun j => buf (off + j)) := by
  intro steps
  induction steps with
  | zero => intro i; rfl
  | succ n ih =>
    intro i
    have hr : List.range' i (n+1) = i :: List.range' (i+1) n := rfl
    rw [hr]
    simp only [valsBuf, List.map_cons]
    rw [ih]

theorem valsBuf_zero_eq_get (s : Repo) (id : Nat) :
    valsBuf s.permBuffer (id * s.globalDegree) 0 s.globalDegree = s.get id := by
  rw [valsBuf_eq_map, Repo.get, List.range_eq_range']

/-- A child slot of an in-range aligned node lies below the bump pointer. -/
theorem node_slot_lt {m N F q v : Nat} (hm : m = N + 1) (hq : q < F) (hqd : m ∣ q)
    (hFd : m ∣ F) (hv : v < N) : q + 1 + v < F := by
  obtain ⟨a, rfl⟩ := hqd
  obtain ⟨b, rfl⟩ := hFd
  have hab : a < b := lt_of_mul_lt_mul_left hq (Nat.zero_le m)
  have : m * (a + 1) ≤ m * b := Nat.mul_le_mul_left m hab
  have hmn : 0 < m := by omega
  calc m * a + 1 + v < m * a + m := by omega
    _ = m * (a + 1) := by ring
    _ ≤ m * b := this

/-- Child slots are never aligned. -/
theorem child_slot_not_aligned {m N q v : Nat} (hm : m = N + 1) (hqd : m ∣ q)
    (hv : v < N) : ¬ m ∣ (q + 1 + v) := by
  intro h
  exact slot_ne_aligned hm hqd hv h rfl

theorem trieFind_append (s : Repo) (ys zs : List Nat) :
    ∀ q, s.trieFind q (ys ++ zs) = (s.trieFind q ys).bind (fun p => s.trieFind p zs) := by
  induction ys with
  | nil => intro q; rfl
  | cons y ys ih =>
    intro q
    simp only [List.cons_append, Repo.trieFind]
    split
    · rfl
    · exact ih _

/-- Nodes reached by a pure find from an in-range aligned node are in-range
and aligned. -/
theorem trieFind_node {s : Repo} (hS : SWf s) :
    ∀ ys q r, q < s.trieFreePtr → s.trieNodeSize ∣ q → (∀ y ∈ ys, y < s.globalDegree) →
      s.trieFind q ys = some r → r < s.trieFreePtr ∧ s.trieNodeSize ∣ r := by
  intro ys
  induction ys with
  | nil =>
    intro q r hq hqd _ hf
    cases hf
    exact ⟨hq, hqd⟩
  | cons y ys ih =>
    intro q r hq hqd hv hf
    simp only [Repo.trieFind] at hf
    split at hf
    · cases hf
    · rename_i hne
      rcases hS.child_ok q hq hqd y (hv y (by simp)) with h | ⟨_, hlt, hdv, _⟩
      · exact absurd h hne
      · exact ih _ _ hlt hdv (fun z hz => hv z (by simp [hz])) hf

/-- Pure finds agree between two states whose buffers agree on all non-aligned
slots (finds read only child slots). -/
theorem trieFind_congr {s s' : Repo} (hS : SWf s)
    (hns : s'.trieNodeSize = s.trieNodeSize)
    (hagree : ∀ j, ¬ s.trieNodeSize ∣ j → s'.trieBuffer j = s.trieBuffer j) :
    ∀ ys q, q < s.trieFreePtr → s.trieNodeSize ∣ q → (∀ y ∈ ys, y < s.globalDegree) →
      s'.trieFind q ys = s.trieFind q ys := by
  intro ys
  induction ys with
  | nil => intro q _ _ _; rfl
  | cons y ys ih =>
    intro q hq hqd hv
    have hy : y < s.globalDegree := hv y (by simp)
    have hslot : s'.trieBuffer (q+1+y) = s.trieBuffer (q+1+y) :=
      hagree _ (child_slot_not_aligned hS.nodeSize_eq hqd hy)
    simp only [Repo.trieFind, hslot]
    split
    · rfl
    · rename_i hne
      rcases hS.child_ok q hq hqd y hy with h | ⟨_, hlt, hdv, _⟩
      · exact absurd h hne
      · exact ih _ hlt hdv (fun z hz => hv z (by simp [hz]))

/-- Pure finds that succeed are preserved by any state change that keeps every
non-`-1` slot below the old bump pointer intact. -/
theorem trieFind_stable {s s' : Repo} (hS : SWf s)
    (hst : ∀ j, j < s.trieFreePtr → s.trieBuffer j ≠ -1 → s'.trieBuffer j = s.trieBuffer j) :
    ∀ ys q r, q < s.trieFreePtr → s.trieNodeSize ∣ q → (∀ y ∈ ys, y < s.globalDegree) →
      s.trieFind q ys = some r → s'.trieFind q ys = some r := by
  intro ys
  induction ys with
  | nil => intro q r _ _ _ hf; exact hf
  | cons y ys ih =>
    intro q r hq hqd hv hf
    have hy : y < s.globalDegree := hv y (by simp)
    simp only [Repo.trieFind] at hf ⊢
    split at hf
    · cases hf
    · rename_i hne
      have hslot : s'.trieBuffer (q+1+y) = s.trieBuffer (q+1+y) :=
        hst _ (node_slot_lt hS.nodeSize_eq hq hqd hS.free_dvd hy) hne
      rw [hslot]
      rcases hS.child_ok q hq hqd y hy with h | ⟨_, hlt, hdv, _⟩
      · exact absurd h hne
      · simp only [if_neg hne]
        exact ih _ _ hlt hdv (fun z hz => hv z (by simp [hz])) hf

/-- Once a find has entered the fresh region (at or above a former bump
pointer `F0`), it stays there: children point strictly upward. -/
theorem trieFind_stay {s : Repo} (hS : SWf s) (F0 : Nat) :
    ∀ ys q r, F0 ≤ q → q < s.trieFreePtr → s.trieNodeSize ∣ q →
      (∀ y ∈ ys, y < s.globalDegree) → s.trieFind q ys = some r → F0 ≤ r := by
  intro ys
  induction ys with
  | nil => intro q r hq _ _ _ hf; cases hf; exact hq
  | cons y ys ih =>
    intro q r hq hqlt hqd hv hf
    simp only [Repo.trieFind] at hf
    split at hf
    · cases hf
    · rename_i hne
      rcases hS.child_ok q hqlt hqd y (hv y (by simp)) with h | ⟨_, hlt, hdv, hgt⟩
      · exact absurd h hne
      · exact ih _ _ (by omega) hlt hdv (fun z hz => hv z (by simp [hz])) hf

/-- Backward find transfer: a find that succeeds in the later state either
already succeeded in the earlier state or ends in the fresh region. -/
theorem trieFind_back {s s' : Repo} (hS : SWf s) (hS' : SWf s')
    (hdeg : s'.globalDegree = s.globalDegree) (hns : s'.trieNodeSize = s.trieNodeSize)
    (hmono : s.trieFreePtr ≤ s'.trieFreePtr)
    (hst : ∀ j, j < s.trieFreePtr → (s.trieNodeSize ∣ j ∨ s.trieBuffer j ≠ -1) →
      s'.trieBuffer j = s.trieBuffer j)
    (hch : ∀ j, j < s.trieFreePtr → s.trieBuffer j = -1 → s'.trieBuffer j ≠ -1 →
      s.trieFreePtr ≤ (s'.trieBuffer j).toNat) :
    ∀ ys q r, q < s.trieFreePtr → s.trieNodeSize ∣ q → (∀ y ∈ ys, y < s.globalDegree) →
      s'.trieFind q ys = some r → s.trieFind q ys = some r ∨ s.trieFreePtr ≤ r := by
  intro ys
  induction ys with
  | nil => intro q r hq _ _ hf; cases hf; exact Or.inl rfl
  | cons y ys ih =>
    intro q r hq hqd hv hf
    have hy : y < s.globalDegree := hv y (by simp)
    have hslot_lt : q + 1 + y < s.trieFreePtr :=
      node_slot_lt hS.nodeSize_eq hq hqd hS.free_dvd hy
    simp only [Repo.trieFind] at hf
    split at hf
    · cases hf
    · rename_i hne
      by_cases hold : s.trieBuffer (q+1+y) = -1
      · -- the slot was freshly linked: the find enters the fresh region
        have hfr : s.trieFreePtr ≤ (s'.trieBuffer (q+1+y)).toNat := hch _ hslot_lt hold hne
        rcases hS'.child_ok q (by omega) (hns ▸ hqd) y (hdeg ▸ hy) with h | ⟨_, hlt, hdv, _⟩
        · exact absurd h hne
        · exact Or.inr (trieFind_stay hS' s.trieFreePtr ys _ r hfr hlt hdv
            (fun z hz => hdeg ▸ hv z (by simp [hz])) hf)
      · have hslot : s'.trieBuffer (q+1+y) = s.trieBuffer (q+1+y) :=
          hst _ hslot_lt (Or.inr hold)
        rw [hslot] at hf hne
        rcases hS.child_ok q hq hqd y hy with h | ⟨_, hlt, hdv, _⟩
        · exact absurd h hne
        · rcases ih _ r hlt hdv (fun z hz => hv z (by simp [hz])) hf with h | h
          · exact Or.inl (by simp only [Repo.trieFind, if_neg hold]; exact h)
          · exact Or.inr h

/-- Tree property: two equal-length valid paths from the root that reach the
same node are equal (each node has a unique parent slot). -/
theorem trieFind_unique {s : Repo} (hS : SWf s) :
    ∀ n ys₁ ys₂ r, ys₁.length = n → ys₂.length = n →
      (∀ y ∈ ys₁, y < s.globalDegree) → (∀ y ∈ ys₂, y < s.globalDegree) →
      s.trieFind 0 ys₁ = some r → s.trieFind 0 ys₂ = some r → ys₁ = ys₂ := by
  intro n
  induction n with
  | zero =>
    intro ys₁ ys₂ r h1 h2 _ _ _ _
    rw [List.length_eq_zero.mp h1, List.length_eq_zero.mp h2]
  | succ n ih =>
    intro ys₁ ys₂ r h1 h2 hv1 hv2 hf1 hf2
    have hne1 : ys₁ ≠ [] := by intro h; rw [h] at h1; simp at h1
    have hne2 : ys₂ ≠ [] := by intro h; rw [h] at h2; simp at h2
    obtain ⟨zs₁, y₁, rfl⟩ : ∃ zs y, ys₁ = zs ++ [y] :=
      ⟨ys₁.dropLast, ys₁.getLast hne1, (List.dropLast_append_getLast hne1).symm⟩
    obtain ⟨zs₂, y₂, rfl⟩ : ∃ zs y, ys₂ = zs ++ [y] :=
      ⟨ys₂.dropLast, ys₂.getLast hne2, (List.dropLast_append_getLast hne2).symm⟩
    rw [trieFind_append] at hf1 hf2
    obtain ⟨p₁, hp₁, hstep₁⟩ := Option.bind_eq_some.mp hf1
    obtain ⟨p₂, hp₂, hstep₂⟩ := Option.bind_eq_some.mp hf2
    have hroot : (0 : Nat) < s.trieFreePtr ∧ s.trieNodeSize ∣ 0 :=
      ⟨by have := hS.root_le; have := hS.nodeSize_eq; omega, Dvd.intro 0 rfl⟩
    have hzv1 : ∀ y ∈ zs₁, y < s.globalDegree := fun y hy => hv1 y (by simp [hy])
    have hzv2 : ∀ y ∈ zs₂, y < s.globalDegree := fun y hy => hv2 y (by simp [hy])
    have hy1 : y₁ < s.globalDegree := hv1 y₁ (by simp)
    have hy2 : y₂ < s.globalDegree := hv2 y₂ (by simp)
    obtain ⟨hp₁lt, hp₁d⟩ := trieFind_node hS zs₁ 0 p₁ hroot.1 hroot.2 hzv1 hp₁
    obtain ⟨hp₂lt, hp₂d⟩ := trieFind_node hS zs₂ 0 p₂ hroot.1 hroot.2 hzv2 hp₂
    simp only [Repo.trieFind] at hstep₁ hstep₂
    revert hstep₁ hstep₂
    split
    · intro h; cases h
    · rename_i hne₁
      split
      · intro _ h; cases h
      · rename_i hne₂
        intro hstep₁ hstep₂
        have hr : (s.trieBuffer (p₁+1+y₁)).toNat = (s.trieBuffer (p₂+1+y₂)).toNat := by
          rw [Option.some.inj hstep₁, Option.some.inj hstep₂]
        -- both child slots hold a nonnegative value with the same `toNat`
        rcases hS.child_ok p₁ hp₁lt hp₁d y₁ hy1 with h | ⟨hnn₁, _, _, _⟩
        · exact absurd h hne₁
        rcases hS.child_ok p₂ hp₂lt hp₂d y₂ hy2 with h | ⟨hnn₂, _, _, _⟩
        · exact absurd h hne₂
        have hveq : s.trieBuffer (p₁+1+y₁) = s.trieBuffer (p₂+1+y₂) := by
          rw [← Int.toNat_of_nonneg hnn₁, ← Int.toNat_of_nonneg hnn₂, hr]
        obtain ⟨hpe, hye⟩ := hS.child_inj p₁ y₁ p₂ y₂ hp₁lt hp₁d hy1 hp₂lt hp₂d hy2 hveq hne₁
        subst hpe
        have hzs : zs₁ = zs₂ := ih zs₁ zs₂ p₁ (by simpa using h1) (by simpa using h2)
          hzv1 hzv2 hp₁ hp₂
        rw [hzs, hye]

/-- Effect summary of a (possibly allocating) trie walk from state `s` to
state `s'`: all non-trie fields are unchanged, the arena only grows, slots
below the old bump pointer change only from `-1` to links into the fresh
region, and fresh ID slots are `-1`. -/
structure WalkOut (s s' : Repo) : Prop where
  deg : s'.globalDegree = s.globalDegree
  cnt : s'.count = s.count
  pb : s'.permBuffer = s.permBuffer
  ns : s'.trieNodeSize = s.trieNodeSize
  idf : s'.identity = s.identity
  free_mono : s.trieFreePtr ≤ s'.trieFreePtr
  swf : SWf s'
  old_stable : ∀ j, j < s.trieFreePtr → (s.trieNodeSize ∣ j ∨ s.trieBuffer j ≠ -1) →
      s'.trieBuffer j = s.trieBuffer j
  changed_fresh : ∀ j, j < s.trieFreePtr → s.trieBuffer j = -1 → s'.trieBuffer j ≠ -1 →
      s.trieFreePtr ≤ (s'.trieBuffer j).toNat
  fresh_ids : ∀ p, s.trieNodeSize ∣ p → s.trieFreePtr ≤ p → p < s'.trieFreePtr →
      s'.trieBuffer p = -1

theorem walkOut_refl {s : Repo} (hS : SWf s) : WalkOut s s where
  deg := rfl
  cnt := rfl
  pb := rfl
  ns := rfl
  idf := rfl
  free_mono := le_refl _
  swf := hS
  old_stable := fun _ _ _ => rfl
  changed_fresh := fun _ _ h h' => absurd h h'
  fresh_ids := fun _ _ hp hp' => absurd (lt_of_le_of_lt hp hp') (lt_irrefl _)

theorem WalkOut.trans {s s₁ s' : Repo} (a : WalkOut s s₁) (b : WalkOut s₁ s') :
    WalkOut s s' where
  deg := b.deg.trans a.deg
  cnt := b.cnt.trans a.cnt
  pb := b.pb.trans a.pb
  ns := b.ns.trans a.ns
  idf := b.idf.trans a.idf
  free_mono := le_trans a.free_mono b.free_mono
  swf := b.swf
  old_stable := by
    intro j hj hcond
    have h1 : s₁.trieBuffer j = s.trieBuffer j := a.old_stable j hj hcond
    have h2 : s'.trieBuffer j = s₁.trieBuffer j := by
      refine b.old_stable j (lt_of_lt_of_le hj a.free_mono) ?_
      rcases hcond with h | h
      · exact Or.inl (a.ns ▸ h)
      · exact Or.inr (h1 ▸ h)
    exact h2.trans h1
  changed_fresh := by
    intro j hj hold hnew
    by_cases h1 : s₁.trieBuffer j = -1
    · have := b.changed_fresh j (lt_of_lt_of_le hj a.free_mono) h1 hnew
      exact le_trans a.free_mono this
    · have hfr := a.changed_fresh j hj hold h1
      have h2 : s'.trieBuffer j = s₁.trieBuffer j :=
        b.old_stable j (lt_of_lt_of_le hj a.free_mono) (Or.inr h1)
      rw [h2]
      exact hfr
  fresh_ids := by
    intro p hpd hp hp'
    by_cases h1 : p < s₁.trieFreePtr
    · have hv1 : s₁.trieBuffer p = -1 := a.fresh_ids p hpd hp h1
      have h2 : s'.trieBuffer p = s₁.trieBuffer p :=
        b.old_stable p h1 (Or.inl (a.ns ▸ hpd))
      rw [h2, hv1]
    · exact b.fresh_ids p (a.ns ▸ hpd) (le_of_not_lt h1) hp'

theorem trieStep_found {s : Repo} {curr v : Nat} (hc : s.trieBuffer (curr+1+v) ≠ -1) :
    s.trieStep curr v = ((s.trieBuffer (curr+1+v)).toNat, s) := by
  simp [Repo.trieStep, hc]

theorem trieStep_miss {s : Repo} {curr v : Nat} (hc : s.trieBuffer (curr+1+v) = -1) :
    (s.trieStep curr v).1 = s.trieFreePtr ∧
    (s.trieStep curr v).2.trieFreePtr = s.trieFreePtr + s.trieNodeSize ∧
    (s.trieStep curr v).2.trieBuffer = (fun j =>
      if j = curr + 1 + v then Int.ofNat s.trieFreePtr
      else if s.trieFreePtr ≤ j ∧ j < s.trieFreePtr + s.trieNodeSize then -1
      else s.trieBuffer j) ∧
    (s.trieStep curr v).2.globalDegree = s.globalDegree ∧
    (s.trieStep curr v).2.count = s.count ∧
    (s.trieStep curr v).2.permBuffer = s.permBuffer ∧
    (s.trieStep curr v).2.trieNodeSize = s.trieNodeSize ∧
    (s.trieStep curr v).2.identity = s.identity := by
  have hstep : s.trieStep curr v = (s.trieFreePtr,
      { s with
        trieBuffer := (updI (fun j =>
            if s.trieFreePtr ≤ j ∧ j < s.trieFreePtr + s.trieNodeSize then -1 else s.trieBuffer j)
          (curr+1+v) (Int.ofNat s.trieFreePtr)),
        trieFreePtr := s.trieFreePtr + s.trieNodeSize }) := by
    simp only [Repo.trieStep, Repo.allocateNode]
    rw [hc]
    simp
  rw [hstep]
  refine ⟨rfl, rfl, ?_, rfl, rfl, rfl, rfl, rfl⟩
  funext j
  simp only [updI]

theorem int_toNat_ofNat (n : Nat) : (Int.ofNat n).toNat = n := rfl

/-- An aligned pointer strictly inside one node-stride of an aligned bound
equals the bound. -/
theorem aligned_eq_of_between {m p F : Nat} (hpd : m ∣ p) (hFd : m ∣ F) (h1 : F ≤ p)
    (h2 : p < F + m) : p = F := by
  obtain ⟨a, rfl⟩ := hpd
  obtain ⟨b, rfl⟩ := hFd
  have hm : 0 < m := by
    rcases Nat.eq_zero_or_pos m with h | h
    · subst h; simp at h2
    · exact h
  have hab : b ≤ a := Nat.le_of_mul_le_mul_left h1 hm
  have h3 : m * a < m * (b + 1) := by
    calc m * a < m * b + m := h2
      _ = m * (b + 1) := by ring
  have hab2 : a < b + 1 := Nat.lt_of_mul_lt_mul_left h3
  have : a = b := by omega
  rw [this]

theorem trieStep_spec {s : Repo} (hS : SWf s) {curr v : Nat}
    (hcu : curr < s.trieFreePtr) (hcd : s.trieNodeSize ∣ curr) (hv : v < s.globalDegree) :
    WalkOut s (s.trieStep curr v).2 ∧
    (s.trieStep curr v).1 < (s.trieStep curr v).2.trieFreePtr ∧
    (s.trieStep curr v).2.trieNodeSize ∣ (s.trieStep curr v).1 ∧
    (s.trieStep curr v).2.trieBuffer (curr + 1 + v) = Int.ofNat (s.trieStep curr v).1 := by
  have hm1 : 0 < s.trieNodeSize := by have := hS.nodeSize_eq; omega
  by_cases hc : s.trieBuffer (curr+1+v) = -1
  case neg =>
    rw [trieStep_found hc]
    rcases hS.child_ok curr hcu hcd v hv with h | ⟨hnn, hlt, hdv, _⟩
    · exact absurd h hc
    · exact ⟨walkOut_refl hS, hlt, hdv, (Int.toNat_of_nonneg hnn).symm⟩
  case pos =>
    obtain ⟨h1, hF, hB, hdeg, hcnt, hpb, hns, hid⟩ := trieStep_miss hc
    have hslot_lt : curr + 1 + v < s.trieFreePtr :=
      node_slot_lt hS.nodeSize_eq hcu hcd hS.free_dvd hv
    have hslot_na : ¬ s.trieNodeSize ∣ (curr + 1 + v) :=
      child_slot_not_aligned hS.nodeSize_eq hcd hv
    -- the new buffer, case split helper
    have hBj : ∀ j, (s.trieStep curr v).2.trieBuffer j =
        (if j = curr + 1 + v then Int.ofNat s.trieFreePtr
         else if s.trieFreePtr ≤ j ∧ j < s.trieFreePtr + s.trieNodeSize then -1
         else s.trieBuffer j) := fun j => by rw [hB]
    have hswf : SWf (s.trieStep curr v).2 := by
      refine ⟨?_, ?_, ?_, ?_, ?_⟩
      · rw [hns, hdeg]; exact hS.nodeSize_eq
      · rw [hns, hF]; have := hS.root_le; omega
      · rw [hns, hF]; exact Dvd.dvd.add hS.free_dvd dvd_rfl
      · -- child_ok
        intro p hp hpd w hw
        rw [hF] at hp
        rw [hns] at hpd
        rw [hdeg] at hw
        rw [hBj]
        by_cases he : p + 1 + w = curr + 1 + v
        · obtain ⟨rfl, rfl⟩ := slot_inj hS.nodeSize_eq hpd hw hcd hv he
          rw [if_pos rfl]
          refine Or.inr ⟨Int.ofNat_nonneg _, ?_, ?_, ?_⟩
          · simp only [int_toNat_ofNat]; rw [hF]; omega
          · simp only [int_toNat_ofNat]; rw [hns]; exact hS.free_dvd
          · simp only [int_toNat_ofNat]; exact hcu
        · rw [if_neg he]
          by_cases hfr : s.trieFreePtr ≤ p + 1 + w ∧ p + 1 + w < s.trieFreePtr + s.trieNodeSize
          · rw [if_pos hfr]; exact Or.inl rfl
          · rw [if_neg hfr]
            by_cases hpF : p < s.trieFreePtr
            · rcases hS.child_ok p hpF hpd w hw with h | ⟨ha, hb', hc', hd'⟩
              · exact Or.inl h
              · refine Or.inr ⟨ha, ?_, by rw [hns]; exact hc', hd'⟩
                rw [hF]; omega
            · exfalso
              have hpeq : p = s.trieFreePtr :=
                aligned_eq_of_between hpd hS.free_dvd (le_of_not_lt hpF) (by omega)
              subst hpeq
              have hwm : 1 + w < s.trieNodeSize := by have := hS.nodeSize_eq; omega
              exact hfr ⟨by omega, by omega⟩
      · -- child_inj
        intro p₁ w₁ p₂ w₂ hp₁ hd₁ hw₁ hp₂ hd₂ hw₂ heq hne
        rw [hF] at hp₁ hp₂
        rw [hns] at hd₁ hd₂
        rw [hdeg] at hw₁ hw₂
        rw [hBj, hBj] at heq
        rw [hBj] at hne
        by_cases he₁ : p₁ + 1 + w₁ = curr + 1 + v
        · by_cases he₂ : p₂ + 1 + w₂ = curr + 1 + v
          · obtain ⟨rfl, rfl⟩ := slot_inj hS.nodeSize_eq hd₁ hw₁ hcd hv he₁
            obtain ⟨h2a, h2b⟩ := slot_inj hS.nodeSize_eq hd₂ hw₂ hcd hv he₂
            exact ⟨h2a.symm, h2b.symm⟩
          · exfalso
            rw [if_pos he₁, if_neg he₂] at heq
            by_cases hfr : s.trieFreePtr ≤ p₂ + 1 + w₂ ∧ p₂ + 1 + w₂ < s.trieFreePtr + s.trieNodeSize
            · rw [if_pos hfr] at heq; simp at heq
            · rw [if_neg hfr] at heq
              by_cases hpF : p₂ < s.trieFreePtr
              · rcases hS.child_ok p₂ hpF hd₂ w₂ hw₂ with h | ⟨_, hb', _, _⟩
                · rw [h] at heq; simp at heq
                · rw [← heq] at hb'; simp only [int_toNat_ofNat] at hb'; omega
              · have hpeq : p₂ = s.trieFreePtr :=
                  aligned_eq_of_between hd₂ hS.free_dvd (le_of_not_lt hpF) (by omega)
                subst hpeq
                have hwm : 1 + w₂ < s.trieNodeSize := by have := hS.nodeSize_eq; omega
                exact hfr ⟨by omega, by omega⟩
        · by_cases he₂ : p₂ + 1 + w₂ = curr + 1 + v
          · exfalso
            rw [if_pos he₂, if_neg he₁] at heq
            by_cases hfr : s.trieFreePtr ≤ p₁ + 1 + w₁ ∧ p₁ + 1 + w₁ < s.trieFreePtr + s.trieNodeSize
            · rw [if_pos hfr] at heq; simp at heq
            · rw [if_neg hfr] at heq
              by_cases hpF : p₁ < s.trieFreePtr
              · rcases hS.child_ok p₁ hpF hd₁ w₁ hw₁ with h | ⟨_, hb', _, _⟩
                · rw [h] at heq; simp at heq
                · rw [heq] at hb'; simp only [int_toNat_ofNat] at hb'; omega
              · have hpeq : p₁ = s.trieFreePtr :=
                  aligned_eq_of_between hd₁ hS.free_dvd (le_of_not_lt hpF) (by omega)
                subst hpeq
                have hwm : 1 + w₁ < s.trieNodeSize := by have := hS.nodeSize_eq; omega
                exact hfr ⟨by omega, by omega⟩
          · rw [if_neg he₁] at heq hne
            rw [if_neg he₂] at heq
            by_cases hfr₁ : s.trieFreePtr ≤ p₁ + 1 + w₁ ∧ p₁ + 1 + w₁ < s.trieFreePtr + s.trieNodeSize
            · rw [if_pos hfr₁] at hne; exact absurd rfl hne
            · rw [if_neg hfr₁] at heq hne
              by_cases hfr₂ : s.trieFreePtr ≤ p₂ + 1 + w₂ ∧ p₂ + 1 + w₂ < s.trieFreePtr + s.trieNodeSize
              · rw [if_pos hfr₂] at heq; exact absurd heq hne
              · rw [if_neg hfr₂] at heq
                have hpF₁ : p₁ < s.trieFreePtr := by
                  by_contra hpF
                  have hpeq : p₁ = s.trieFreePtr :=
                    aligned_eq_of_between hd₁ hS.free_dvd (le_of_not_lt hpF) (by omega)
                  subst hpeq
                  have hwm : 1 + w₁ < s.trieNodeSize := by have := hS.nodeSize_eq; omega
                  exact hfr₁ ⟨by omega, by omega⟩
                have hpF₂ : p₂ < s.trieFreePtr := by
                  by_contra hpF
                  have hpeq : p₂ = s.trieFreePtr :=
                    aligned_eq_of_between hd₂ hS.free_dvd (le_of_not_lt hpF) (by omega)
                  subst hpeq
                  have hwm : 1 + w₂ < s.trieNodeSize := by have := hS.nodeSize_eq; omega
                  exact hfr₂ ⟨by omega, by omega⟩
                exact hS.child_inj p₁ w₁ p₂ w₂ hpF₁ hd₁ hw₁ hpF₂ hd₂ hw₂ heq hne
    refine ⟨⟨hdeg, hcnt, hpb, hns, hid, by rw [hF]; omega, hswf, ?_, ?_, ?_⟩, ?_, ?_, ?_⟩
    · -- old_stable
      intro j hj hcond
      rw [hBj]
      have hne : j ≠ curr + 1 + v := by
        rcases hcond with h | h
        · intro he; subst he; exact hslot_na h
        · intro he; subst he; exact h hc
      rw [if_neg hne, if_neg (by omega)]
    · -- changed_fresh
      intro j hj hold hnew
      rw [hBj] at hnew ⊢
      by_cases he : j = curr + 1 + v
      · rw [if_pos he]; simp
      · rw [if_neg he, if_neg (by omega)] at hnew ⊢
        exact absurd hold hnew
    · -- fresh_ids
      intro p hpd hp hp'
      rw [hF] at hp'
      have hpeq : p = s.trieFreePtr := aligned_eq_of_between hpd hS.free_dvd hp hp'
      subst hpeq
      rw [hBj]
      have hne : s.trieFreePtr ≠ curr + 1 + v := fun he => hslot_na (he ▸ hS.free_dvd)
      rw [if_neg hne, if_pos ⟨le_refl _, by omega⟩]
    · rw [h1, hF]; omega
    · rw [h1, hns]; exact hS.free_dvd
    · rw [h1, hBj, if_pos rfl]

/-- Full effect of a trie walk: a `WalkOut` state change, an in-range aligned
leaf, and the walked path findable to that leaf in the final state. -/
theorem walkVals_spec :
    ∀ vs (s : Repo), SWf s → ∀ curr, curr < s.trieFreePtr → s.trieNodeSize ∣ curr →
      (∀ v ∈ vs, v < s.globalDegree) →
      WalkOut s (walkVals s curr vs).2 ∧
      (walkVals s curr vs).1 < (walkVals s curr vs).2.trieFreePtr ∧
      (walkVals s curr vs).2.trieNodeSize ∣ (walkVals s curr vs).1 ∧
      (walkVals s curr vs).2.trieFind curr vs = some (walkVals s curr vs).1 := by
  intro vs
  induction vs with
  | nil =>
    intro s hS curr hcu hcd _
    exact ⟨walkOut_refl hS, hcu, hcd, rfl⟩
  | cons v vs ih =>
    intro s hS curr hcu hcd hv
    have hv0 : v < s.globalDegree := hv v (by simp)
    obtain ⟨w1, hlt1, hdvd1, hslot1⟩ := trieStep_spec hS hcu hcd hv0
    have hunfold : walkVals s curr (v :: vs) =
        walkVals (s.trieStep curr v).2 (s.trieStep curr v).1 vs := rfl
    obtain ⟨w2, hlt2, hdvd2, hfind2⟩ := ih (s.trieStep curr v).2 w1.swf (s.trieStep curr v).1
      hlt1 hdvd1 (fun z hz => w1.deg ▸ hv z (by simp [hz]))
    rw [hunfold]
    refine ⟨w1.trans w2, hlt2, hdvd2, ?_⟩
    have hslot_lt : curr + 1 + v < s.trieFreePtr :=
      node_slot_lt hS.nodeSize_eq hcu hcd hS.free_dvd hv0
    have hslot' : (walkVals (s.trieStep curr v).2 (s.trieStep curr v).1 vs).2.trieBuffer
        (curr + 1 + v) = Int.ofNat (s.trieStep curr v).1 := by
      rw [w2.old_stable _ (lt_of_lt_of_le hslot_lt w1.free_mono)
        (Or.inr (by rw [hslot1]; simp))]
      exact hslot1
    simp only [Repo.trieFind, hslot']
    rw [if_neg (by simp)]
    simp only [int_toNat_ofNat]
    exact hfind2

/-- Walking a fully-present path performs no writes at all. -/
theorem walkVals_of_find :
    ∀ vs (s : Repo) curr leaf, s.trieFind curr vs = some leaf →
      walkVals s curr vs = (leaf, s) := by
  intro vs
  induction vs with
  | nil =>
    intro s curr leaf hf
    cases hf
    rfl
  | cons v vs ih =>
    intro s curr leaf hf
    simp only [Repo.trieFind] at hf
    split at hf
    · cases hf
    · rename_i hne
      have : walkVals s curr (v :: vs) =
          walkVals (s.trieStep curr v).2 (s.trieStep curr v).1 vs := rfl
      rw [this, trieStep_found hne]
      exact ih _ _ _ hf

/-- A trie walk is invisible to lookups: it only adds nodes whose ID slots are
empty. -/
theorem walkOut_lookup_eq {s s' : Repo} (hS : SWf s) (w : WalkOut s s') (Y : List Nat)
    (hvals : ∀ y ∈ Y, y < s.globalDegree) : s'.trieLookup Y = s.trieLookup Y := by
  have hroot : (0 : Nat) < s.trieFreePtr ∧ s.trieNodeSize ∣ 0 :=
    ⟨by have := hS.root_le; have := hS.nodeSize_eq; omega, Dvd.intro 0 rfl⟩
  cases hfs : s.trieFind 0 Y with
  | some r =>
    have hstable : ∀ j, j < s.trieFreePtr → s.trieBuffer j ≠ -1 →
        s'.trieBuffer j = s.trieBuffer j := fun j hj hne => w.old_stable j hj (Or.inr hne)
    have hfs' : s'.trieFind 0 Y = some r := trieFind_stable hS hstable Y 0 r hroot.1 hroot.2 hvals hfs
    obtain ⟨hr, hrd⟩ := trieFind_node hS Y 0 r hroot.1 hroot.2 hvals hfs
    unfold Repo.trieLookup
    rw [hfs, hfs']
    dsimp only
    rw [w.old_stable r hr (Or.inl hrd)]
  | none =>
    cases hfs' : s'.trieFind 0 Y with
    | none => unfold Repo.trieLookup; rw [hfs, hfs']
    | some r =>
      rcases trieFind_back hS w.swf w.deg w.ns w.free_mono w.old_stable
          (fun j hj h1 h2 => w.changed_fresh j hj h1 h2) Y 0 r hroot.1 hroot.2 hvals hfs' with h | h
      · rw [h] at hfs; cases hfs
      · obtain ⟨hr, hrd⟩ := trieFind_node w.swf Y 0 r
          (lt_of_lt_of_le hroot.1 w.free_mono) (w.ns ▸ hroot.2)
          (fun y hy => w.deg ▸ hvals y hy) hfs'
        have hm1 : s'.trieBuffer r = -1 := w.fresh_ids r (w.ns ▸ hrd) h hr
        unfold Repo.trieLookup
        rw [hfs, hfs']
        dsimp only
        rw [hm1]
        simp

theorem padTo_length (n : Nat) (raw : List Nat) : (padTo n raw).length = n := by
  simp [padTo]

theorem getD_map_range {n k : Nat} (f : Nat → Nat) (hk : k < n) :
    ((List.range n).map f).getD k 0 = f k := by
  rw [List.getD_eq_getElem _ _ (by simpa using hk)]
  simp

theorem padTo_getD {n k : Nat} (raw : List Nat) (hk : k < n) :
    (padTo n raw).getD k 0 = if k < raw.length then raw.getD k 0 else k :=
  getD_map_range _ hk

theorem padTo_vals {n : Nat} (raw : List Nat) (hv : ∀ v ∈ raw, v < n) :
    ∀ v ∈ padTo n raw, v < n := by
  intro v hmem
  simp only [padTo, List.mem_map, List.mem_range] at hmem
  obtain ⟨i, hi, rfl⟩ := hmem
  split
  · rename_i h
    refine hv _ ?_
    rw [List.getD_eq_getElem _ _ h]
    exact List.getElem_mem h
  · exact hi

theorem get_length (s : Repo) (id : Nat) : (s.get id).length = s.globalDegree := by
  simp [Repo.get]

theorem get_getD {s : Repo} {id k : Nat} (hk : k < s.globalDegree) :
    (s.get id).getD k 0 = s.permBuffer (id * s.globalDegree + k) :=
  getD_map_range _ hk

/-- Two length-`n` map-over-range lists agree when their generators agree. -/
theorem map_range_congr {n : Nat} {f g : Nat → Nat} (h : ∀ k, k < n → f k = g k) :
    (List.range n).map f = (List.range n).map g :=
  List.map_congr_left (fun a ha => h a (List.mem_range.mp ha))

theorem wpb_globalDegree (s : Repo) (id : Nat) (arr : List Nat) (len : Nat) :
    (s.writeToPermBuffer id arr len).globalDegree = s.globalDegree := rfl

theorem wpb_count (s : Repo) (id : Nat) (arr : List Nat) (len : Nat) :
    (s.writeToPermBuffer id arr len).count = s.count := rfl

theorem wpb_trieBuffer (s : Repo) (id : Nat) (arr : List Nat) (len : Nat) :
    (s.writeToPermBuffer id arr len).trieBuffer = s.trieBuffer := rfl

theorem wpb_trieNodeSize (s : Repo) (id : Nat) (arr : List Nat) (len : Nat) :
    (s.writeToPermBuffer id arr len).trieNodeSize = s.trieNodeSize := rfl

theorem wpb_trieFreePtr (s : Repo) (id : Nat) (arr : List Nat) (len : Nat) :
    (s.writeToPermBuffer id arr len).trieFreePtr = s.trieFreePtr := rfl

theorem wpb_identity (s : Repo) (id : Nat) (arr : List Nat) (len : Nat) :
    (s.writeToPermBuffer id arr len).identity = s.identity := rfl

theorem wpb_permBuffer (s : Repo) (id : Nat) (arr : List Nat) (len : Nat) (j : Nat) :
    (s.writeToPermBuffer id arr len).permBuffer j =
      if id * s.globalDegree ≤ j ∧ j < id * s.globalDegree + s.globalDegree then
        (if j - id * s.globalDegree < len then arr.getD (j - id * s.globalDegree) 0
         else j - id * s.globalDegree)
      else s.permBuffer j := rfl

/-- After `_writeToPermBuffer id raw raw.length`, ID `id` stores exactly the
padded image. -/
theorem wpb_get_self (s : Repo) (id : Nat) (raw : List Nat) :
    (s.writeToPermBuffer id raw raw.length).get id = padTo s.globalDegree raw := by
  unfold Repo.get padTo
  rw [wpb_globalDegree]
  refine map_range_congr ?_
  intro k hk
  rw [wpb_permBuffer]
  rw [if_pos ⟨Nat.le_add_right _ _, by omega⟩]
  simp [Nat.add_sub_cancel_left]

/-- `_writeToPermBuffer` at a strictly larger ID leaves earlier images alone. -/
theorem wpb_get_lt (s : Repo) {i id : Nat} (h : i < id) (raw : List Nat) (len : Nat) :
    (s.writeToPermBuffer id raw len).get i = s.get i := by
  unfold Repo.get
  rw [wpb_globalDegree]
  refine map_range_congr ?_
  intro k hk
  rw [wpb_permBuffer]
  rw [if_neg ?_]
  intro ⟨h1, _⟩
  have : i * s.globalDegree + k < id * s.globalDegree := by
    calc i * s.globalDegree + k < (i + 1) * s.globalDegree := by
          rw [Nat.add_mul, Nat.one_mul]; omega
      _ ≤ id * s.globalDegree := Nat.mul_le_mul_right _ (by omega)
  omega

theorem Wf.get_inj {s : Repo} (hs : Wf s) {i j : Nat} (hi : i < s.count) (hj : j < s.count)
    (h : s.get i = s.get j) : i = j := by
  have h1 := hs.lookup_complete' hi
  have h2 := hs.lookup_complete' hj
  rw [h] at h1
  exact Option.some.inj (h1.symm.trans h2)

theorem Wf.lookup_get_iff {s : Repo} (hs : Wf s) {Y : List Nat}
    (hlen : Y.length = s.globalDegree) (hvals : ∀ v ∈ Y, v < s.globalDegree) {i : Nat} :
    s.trieLookup Y = some i ↔ i < s.count ∧ s.get i = Y := by
  constructor
  · exact hs.lookup_sound' hlen hvals
  · rintro ⟨hi, rfl⟩
    exact hs.lookup_complete' hi

/-- The post-upgrade part of `register`: walk the padded path and read/assign
the leaf ID. -/
def registerCore (s : Repo) (raw : List Nat) : Nat × Repo :=
  let pr := walkVals s 0 (padTo s.globalDegree raw)
  let idSlot := pr.2.trieBuffer pr.1
  if idSlot = -1 then
    (pr.2.count, ({ pr.2 with
        count := pr.2.count + 1,
        trieBuffer := updI pr.2.trieBuffer pr.1 (Int.ofNat pr.2.count)
      }).writeToPermBuffer pr.2.count raw raw.length)
  else
    (idSlot.toNat, pr.2)

theorem register_eq_core (s : Repo) (raw : List Nat) :
    s.register raw =
      registerCore (if s.globalDegree < raw.length then s.upgradeDegree raw.length else s) raw := by
  by_cases h : s.globalDegree < raw.length
  · simp only [Repo.register, registerCore, if_pos h, walkFrom_eq_walkVals, valsOf_zero_eq_padTo]
  · simp only [Repo.register, registerCore, if_neg h, walkFrom_eq_walkVals, valsOf_zero_eq_padTo]

theorem WalkOut.get_eq {s s' : Repo} (w : WalkOut s s') (i : Nat) : s'.get i = s.get i := by
  unfold Repo.get
  rw [w.deg, w.pb]

theorem Wf.get_vals {s : Repo} (hs : Wf s) {i : Nat} (hi : i < s.count) :
    ∀ v ∈ s.get i, v < s.globalDegree := by
  intro v hmem
  simp only [Repo.get, List.mem_map, List.mem_range] at hmem
  obtain ⟨k, hk, rfl⟩ := hmem
  exact hs.perm_range' hi hk

theorem trieLookup_some_elim {s : Repo} {Y : List Nat} {i : Nat}
    (h : s.trieLookup Y = some i) :
    ∃ r, s.trieFind 0 Y = some r ∧ s.trieBuffer r ≠ -1 ∧ (s.trieBuffer r).toNat = i := by
  unfold Repo.trieLookup at h
  rcases hf : s.trieFind 0 Y with _ | r
  · rw [hf] at h; cases h
  · rw [hf] at h
    dsimp only at h
    by_cases hsl : s.trieBuffer r = -1
    · rw [if_pos hsl] at h; cases h
    · rw [if_neg hsl] at h
      exact ⟨r, rfl, hsl, Option.some.inj h⟩

theorem trieLookup_some_intro {s : Repo} {Y : List Nat} {r : Nat}
    (hf : s.trieFind 0 Y = some r) (hne : s.trieBuffer r ≠ -1) :
    s.trieLookup Y = some (s.trieBuffer r).toNat := by
  unfold Repo.trieLookup
  rw [hf]
  dsimp only
  rw [if_neg hne]

/-- Structural invariant transfer along a state change that keeps the trie
geometry and all child slots. -/
theorem swf_of_fields {s t : Repo} (hS : SWf s) (hdeg : t.globalDegree = s.globalDegree)
    (hns : t.trieNodeSize = s.trieNodeSize) (hF : t.trieFreePtr = s.trieFreePtr)
    (hchild : ∀ p v, p < s.trieFreePtr → s.trieNodeSize ∣ p → v < s.globalDegree →
      t.trieBuffer (p+1+v) = s.trieBuffer (p+1+v)) : SWf t := by
  refine ⟨by rw [hns, hdeg]; exact hS.nodeSize_eq, by rw [hns, hF]; exact hS.root_le,
    by rw [hns, hF]; exact hS.free_dvd, ?_, ?_⟩
  · intro p hp hpd v hv
    rw [hF] at hp
    rw [hns] at hpd
    rw [hdeg] at hv
    rw [hchild p v hp hpd hv, hns, hF]
    exact hS.child_ok p hp hpd v hv
  · intro p₁ v₁ p₂ v₂ hp₁ hd₁ hv₁ hp₂ hd₂ hv₂ heq hne
    rw [hF] at hp₁ hp₂
    rw [hns] at hd₁ hd₂
    rw [hdeg] at hv₁ hv₂
    rw [hchild p₁ v₁ hp₁ hd₁ hv₁, hchild p₂ v₂ hp₂ hd₂ hv₂] at heq
    rw [hchild p₁ v₁ hp₁ hd₁ hv₁] at hne
    exact hS.child_inj p₁ v₁ p₂ v₂ hp₁ hd₁ hv₁ hp₂ hd₂ hv₂ heq hne

theorem registerCore_found {s : Repo} {raw : List Nat} {i : Nat}
    (h : s.trieLookup (padTo s.globalDegree raw) = some i) :
    registerCore s raw = (i, s) := by
  obtain ⟨leaf, hfind, hne, hto⟩ := trieLookup_some_elim h
  unfold registerCore
  rw [walkVals_of_find _ _ _ _ hfind]
  dsimp only
  rw [if_neg hne, hto]

/-- Main correctness of the post-upgrade part of `register`: preserves `Wf`,
degree, identity and all previously stored images; returns an ID below the new
count whose stored image is the padded input; and either finds the image
already interned (and leaves the state untouched) or assigns the next ID. -/
theorem registerCore_spec (s : Repo) (raw : List Nat) (hs : Wf s)
    (hlen : raw.length ≤ s.globalDegree)
    (hv : ∀ v ∈ raw, v < s.globalDegree) :
    Wf (registerCore s raw).2 ∧
    (registerCore s raw).2.globalDegree = s.globalDegree ∧
    (registerCore s raw).2.identity = s.identity ∧
    (∀ i, i < s.count → (registerCore s raw).2.get i = s.get i) ∧
    (registerCore s raw).1 < (registerCore s raw).2.count ∧
    (registerCore s raw).2.get (registerCore s raw).1 = padTo s.globalDegree raw ∧
    ((∃ i, i < s.count ∧ s.get i = padTo s.globalDegree raw ∧ registerCore s raw = (i, s)) ∨
     ((∀ i, i < s.count → s.get i ≠ padTo s.globalDegree raw) ∧
      (registerCore s raw).1 = s.count ∧ (registerCore s raw).2.count = s.count + 1)) := by
  have hXlen : (padTo s.globalDegree raw).length = s.globalDegree := padTo_length _ _
  have hXvals : ∀ v ∈ padTo s.globalDegree raw, v < s.globalDegree := padTo_vals raw hv
  have hroot_lt : (0:Nat) < s.trieFreePtr := by
    have := hs.root_le; have := hs.nodeSize_eq; omega
  have hroot_dvd : s.trieNodeSize ∣ 0 := Dvd.intro 0 rfl
  by_cases hEx : ∃ i, i < s.count ∧ s.get i = padTo s.globalDegree raw
  · obtain ⟨i, hi, hgi⟩ := hEx
    have hlook : s.trieLookup (padTo s.globalDegree raw) = some i := by
      rw [← hgi]; exact hs.lookup_complete' hi
    have hcore : registerCore s raw = (i, s) := registerCore_found hlook
    rw [hcore]
    exact ⟨hs, rfl, rfl, fun _ _ => rfl, hi, hgi, Or.inl ⟨i, hi, hgi, rfl⟩⟩
  · push_neg at hEx
    have hlookN : s.trieLookup (padTo s.globalDegree raw) = none := by
      rcases hl : s.trieLookup (padTo s.globalDegree raw) with _ | j
      · rfl
      · obtain ⟨hj, hgj⟩ := hs.lookup_sound' hXlen hXvals hl
        exact absurd hgj (hEx j hj)
    have hspec := walkVals_spec (padTo s.globalDegree raw) s hs.toSWf 0 hroot_lt hroot_dvd hXvals
    rcases hw : walkVals s 0 (padTo s.globalDegree raw) with ⟨leaf, s₂⟩
    rw [hw] at hspec
    dsimp only at hspec
    obtain ⟨w, hleaf_lt, hleaf_dvd, hfind2⟩ := hspec
    have hlook2 : s₂.trieLookup (padTo s.globalDegree raw) = none :=
      (walkOut_lookup_eq hs.toSWf w _ hXvals).trans hlookN
    have hslot : s₂.trieBuffer leaf = -1 := by
      by_contra h
      rw [trieLookup_some_intro hfind2 h] at hlook2
      cases hlook2
    have hcore : registerCore s raw = (s₂.count,
        ({ s₂ with
           count := s₂.count + 1,
           trieBuffer := updI s₂.trieBuffer leaf (Int.ofNat s₂.count)
         }).writeToPermBuffer s₂.count raw raw.length) := by
      unfold registerCore
      rw [hw]
      dsimp only
      rw [if_pos hslot]
    rw [hcore]
    dsimp only
    -- abbreviations for the final state
    have hcnt2 : s₂.count = s.count := w.cnt
    have hm : s.trieNodeSize = s.globalDegree + 1 := hs.nodeSize_eq
    -- the final state s₄, described field by field (all definitional)
    obtain ⟨s₄, hfin⟩ : ∃ t, ({ s₂ with
        count := s₂.count + 1,
        trieBuffer := updI s₂.trieBuffer leaf (Int.ofNat s₂.count)
      }).writeToPermBuffer s₂.count raw raw.length = t := ⟨_, rfl⟩
    rw [hfin]
    have hdeg4 : s₄.globalDegree = s.globalDegree := by rw [← hfin]; exact w.deg
    have hcnt4 : s₄.count = s.count + 1 := by rw [← hfin, wpb_count]; dsimp only; rw [hcnt2]
    have hid4 : s₄.identity = s.identity := by rw [← hfin, wpb_identity]; exact w.idf
    have hns4 : s₄.trieNodeSize = s₂.trieNodeSize := by rw [← hfin, wpb_trieNodeSize]
    have hF4 : s₄.trieFreePtr = s₂.trieFreePtr := by rw [← hfin, wpb_trieFreePtr]
    have hB4 : s₄.trieBuffer = updI s₂.trieBuffer leaf (Int.ofNat s₂.count) := by
      rw [← hfin, wpb_trieBuffer]
    have hget_old : ∀ i, i < s.count → s₄.get i = s.get i := by
      intro i hi
      have h1 : s₄.get i = ({ s₂ with
          count := s₂.count + 1,
          trieBuffer := updI s₂.trieBuffer leaf (Int.ofNat s₂.count) }).get i := by
        rw [← hfin]
        exact wpb_get_lt _ (by omega) _ _
      have h2 : ({ s₂ with
          count := s₂.count + 1,
          trieBuffer := updI s₂.trieBuffer leaf (Int.ofNat s₂.count) }).get i = s₂.get i := rfl
      rw [h1, h2, w.get_eq]
    have hget_new : s₄.get s₂.count = padTo s.globalDegree raw := by
      rw [← hfin]
      have := wpb_get_self ({ s₂ with
          count := s₂.count + 1,
          trieBuffer := updI s₂.trieBuffer leaf (Int.ofNat s₂.count) }) s₂.count raw
      rw [this]
      have hdd : ({ s₂ with
          count := s₂.count + 1,
          trieBuffer := updI s₂.trieBuffer leaf (Int.ofNat s₂.count) }).globalDegree
          = s.globalDegree := w.deg
      rw [hdd]
    have hswf4 : SWf s₄ := by
      refine swf_of_fields w.swf (by rw [hdeg4, w.deg]) hns4 hF4 ?_
      intro p v hp hpd hv'
      rw [hB4]
      unfold updI
      rw [if_neg (slot_ne_aligned w.swf.nodeSize_eq hpd hv' hleaf_dvd)]
    have hfind_eq : ∀ Y, (∀ y ∈ Y, y < s.globalDegree) →
        s₄.trieFind 0 Y = s₂.trieFind 0 Y := by
      intro Y hYv
      refine trieFind_congr w.swf hns4 ?_ Y 0 (by omega) (w.ns ▸ hroot_dvd)
        (fun y hy => w.deg ▸ hYv y hy)
      intro j hj
      rw [hB4]
      unfold updI
      have hne : j ≠ leaf := fun he => hj (he ▸ (w.ns ▸ hleaf_dvd))
      rw [if_neg hne]
    have huniq : ∀ Y, Y.length = s.globalDegree → (∀ y ∈ Y, y < s.globalDegree) →
        s₂.trieFind 0 Y = some leaf → Y = padTo s.globalDegree raw := by
      intro Y hYl hYv hYf
      exact trieFind_unique w.swf s.globalDegree Y (padTo s.globalDegree raw) leaf
        hYl hXlen
        (fun y hy => w.deg ▸ hYv y hy) (fun y hy => w.deg ▸ hXvals y hy) hYf hfind2
    have hwf4 : Wf s₄ := by
      refine ⟨hswf4.nodeSize_eq, hswf4.root_le, hswf4.free_dvd,
        ?_, ?_, ?_, ?_, ?_, ?_, ?_, ?_⟩
      · intro p hp hpd v hv'
        rw [List.mem_range] at hp hv'
        have := hswf4.child_ok p hp hpd v hv'
        exact this
      · intro p₁ hp₁ hd₁ v₁ hv₁ p₂ hp₂ hd₂ v₂ hv₂ heq hne
        rw [List.mem_range] at hp₁ hv₁ hp₂ hv₂
        exact hswf4.child_inj p₁ v₁ p₂ v₂ hp₁ hd₁ hv₁ hp₂ hd₂ hv₂ heq hne
      · -- perm_range
        intro i hi k hk
        rw [List.mem_range] at hi hk
        rw [hcnt4] at hi
        rw [hdeg4] at hk ⊢
        have hval : s₄.permBuffer (i * s₄.globalDegree + k) = (s₄.get i).getD k 0 :=
          (get_getD (by rw [hdeg4]; exact hk)).symm
        rw [hdeg4] at hval
        rw [hval]
        by_cases hic : i < s.count
        · rw [hget_old i hic, get_getD hk]
          exact hs.perm_range' hic hk
        · have : i = s.count := by omega
          subst this
          rw [← hcnt2, hget_new, padTo_getD raw hk]
          split
          · rename_i h
            refine hv _ ?_
            rw [List.getD_eq_getElem _ _ h]
            exact List.getElem_mem h
          · exact hk
      · -- lookup_complete
        intro i hi
        rw [List.mem_range, hcnt4] at hi
        by_cases hic : i < s.count
        · have hgi4 : s₄.get i = s.get i := hget_old i hic
          obtain ⟨ri, hri_f, hri_ne, hri_to⟩ := trieLookup_some_elim (hs.lookup_complete' hic)
          obtain ⟨hri_lt, hri_dvd⟩ := trieFind_node hs.toSWf _ 0 ri hroot_lt hroot_dvd
            (hs.get_vals hic) hri_f
          have hri_f2 : s₂.trieFind 0 (s.get i) = some ri :=
            trieFind_stable hs.toSWf (fun j hj hne => w.old_stable j hj (Or.inr hne)) _ 0 ri
              hroot_lt hroot_dvd (hs.get_vals hic) hri_f
          have hri_ne_leaf : ri ≠ leaf := by
            intro he
            subst he
            exact hEx i hic (huniq _ (get_length s i) (hs.get_vals hic) hri_f2)
          have hri_f4 : s₄.trieFind 0 (s.get i) = some ri :=
            (hfind_eq _ (hs.get_vals hic)).trans hri_f2
          have hb4 : s₄.trieBuffer ri = s.trieBuffer ri := by
            rw [hB4]
            unfold updI
            rw [if_neg hri_ne_leaf]
            exact w.old_stable ri hri_lt (Or.inl hri_dvd)
          rw [hgi4]
          rw [trieLookup_some_intro hri_f4 (by rw [hb4]; exact hri_ne)]
          rw [hb4, hri_to]
        · have : i = s.count := by omega
          subst this
          rw [← hcnt2, hget_new]
          have hf4 : s₄.trieFind 0 (padTo s.globalDegree raw) = some leaf :=
            (hfind_eq _ hXvals).trans hfind2
          have hb4 : s₄.trieBuffer leaf = Int.ofNat s₂.count := by
            rw [hB4]; simp [updI]
          rw [trieLookup_some_intro hf4 (by rw [hb4]; simp)]
          rw [hb4, int_toNat_ofNat]
      · -- lookup_sound
        intro Y hY j hj
        obtain ⟨hYl, hYv⟩ := mem_allLists.mp hY
        rw [hdeg4] at hYl hYv
        obtain ⟨r, hr_f, hr_ne, hr_to⟩ := trieLookup_some_elim hj
        have hr_f2 : s₂.trieFind 0 Y = some r := (hfind_eq Y hYv).symm.trans hr_f
        by_cases hrl : r = leaf
        · have hYX : Y = padTo s.globalDegree raw := huniq Y hYl hYv (hrl ▸ hr_f2)
          have hb4 : s₄.trieBuffer r = Int.ofNat s₂.count := by
            rw [hB4, hrl]; simp [updI]
          rw [hb4, int_toNat_ofNat] at hr_to
          constructor
          · rw [hcnt4]; omega
          · rw [← hr_to]
            rw [hget_new, hYX]
        · have hb4 : s₄.trieBuffer r = s₂.trieBuffer r := by
            rw [hB4]; unfold updI; rw [if_neg hrl]
          rw [hb4] at hr_ne hr_to
          rcases trieFind_back hs.toSWf w.swf w.deg w.ns w.free_mono w.old_stable
              (fun a b c d => w.changed_fresh a b c d) Y 0 r hroot_lt hroot_dvd hYv hr_f2
            with hold | hfresh
          · obtain ⟨hr_lt, hr_dvd⟩ := trieFind_node hs.toSWf Y 0 r hroot_lt hroot_dvd hYv hold
            have hbs : s₂.trieBuffer r = s.trieBuffer r :=
              w.old_stable r hr_lt (Or.inl hr_dvd)
            rw [hbs] at hr_ne hr_to
            have hlk : s.trieLookup Y = some j := by
              rw [trieLookup_some_intro hold hr_ne, hr_to]
            obtain ⟨hjc, hjg⟩ := hs.lookup_sound' hYl hYv hlk
            refine ⟨by rw [hcnt4]; omega, ?_⟩
            rw [hget_old j hjc, hjg]
          · obtain ⟨hr_lt2, hr_dvd2⟩ := trieFind_node w.swf Y 0 r (by omega)
              (w.ns ▸ hroot_dvd) (fun y hy => w.deg ▸ hYv y hy) hr_f2
            have : s₂.trieBuffer r = -1 := w.fresh_ids r (w.ns ▸ hr_dvd2) hfresh hr_lt2
            exact absurd this hr_ne
      · rw [hid4]; exact hs.identity_eq
      · rw [hcnt4]; omega
      · have h0 : (0:Nat) < s.count := hs.count_pos
        have := hget_old 0 h0
        rw [this, hdeg4]
        exact hs.get_zero
    refine ⟨hwf4, hdeg4, hid4, hget_old, ?_, ?_, ?_⟩
    · rw [hcnt4, hcnt2]; omega
    · exact hget_new
    · exact Or.inr ⟨hEx, hcnt2, by rw [hcnt4]⟩

theorem padTo_inj {n : Nat} {A B : List Nat} (hA : A.length ≤ n) (hAB : A.length = B.length)
    (h : padTo n A = padTo n B) : A = B := by
  apply List.ext_getElem hAB
  intro k hk hk'
  have hkn : k < n := by omega
  have := congrArg (fun l => l.getD k 0) h
  simp only [padTo_getD _ hkn] at this
  rw [if_pos hk, if_pos (by omega : k < B.length)] at this
  rw [List.getD_eq_getElem _ _ hk, List.getD_eq_getElem _ _ (by omega : k < B.length)] at this
  exact this

theorem padTo_range {n L : Nat} (h : L ≤ n) : padTo n (List.range L) = List.range n := by
  have hlen : (padTo n (List.range L)).length = (List.range n).length := by
    simp [padTo_length]
  apply List.ext_getElem hlen
  intro k hk hk'
  have hkn : k < n := by simpa using hk'
  have h1 : (padTo n (List.range L)).getD k 0 = if k < L then (List.range L).getD k 0 else k := by
    rw [padTo_getD _ hkn]
    simp
  rw [List.getD_eq_getElem _ _ (by simp [padTo_length]; exact hkn)] at h1
  have h2 : (List.range n)[k] = k := by simp
  rw [h2, h1]
  split
  · rename_i hkL
    rw [List.getD_eq_getElem _ _ (by simpa using hkL)]
    simp
  · rfl

/-- Identity image paths: padding the degree-`L` identity gives the degree-`n`
identity. -/
theorem padTo_get_padTo {n : Nat} {A : List Nat} (hA : A.length ≤ n) :
    padTo n A = padTo n (padTo n A) := by
  apply List.ext_getElem (by simp [padTo_length])
  intro k hk hk'
  have hkn : k < n := by simpa [padTo_length] using hk
  have e1 : (padTo n A).getD k 0 = if k < A.length then A.getD k 0 else k := padTo_getD _ hkn
  have e2 : (padTo n (padTo n A)).getD k 0 =
      if k < (padTo n A).length then (padTo n A).getD k 0 else k := padTo_getD _ hkn
  rw [padTo_length] at e2
  rw [if_pos hkn, e1] at e2
  rw [← List.getD_eq_getElem _ _ hk, ← List.getD_eq_getElem _ _ hk', e1, e2]

/-- Effect of walking an absent path and storing `idv` at its (fresh) leaf:
`X` now looks up to `idv`, every other lookup is untouched. -/
theorem insertPath_spec (t : Repo) (hS : SWf t) (X : List Nat) (idv : Nat)
    (hXlen : X.length = t.globalDegree)
    (hXvals : ∀ v ∈ X, v < t.globalDegree)
    (hfreshX : t.trieLookup X = none) :
    ∀ leaf t₂, walkVals t 0 X = (leaf, t₂) →
    SWf { t₂ with trieBuffer := updI t₂.trieBuffer leaf (Int.ofNat idv) } ∧
    t₂.globalDegree = t.globalDegree ∧ t₂.count = t.count ∧
    t₂.permBuffer = t.permBuffer ∧ t₂.identity = t.identity ∧
    t₂.trieNodeSize = t.trieNodeSize ∧
    ({ t₂ with trieBuffer := updI t₂.trieBuffer leaf (Int.ofNat idv) } : Repo).trieLookup X
      = some idv ∧
    (∀ Y, Y.length = t.globalDegree → (∀ y ∈ Y, y < t.globalDegree) → Y ≠ X →
      ({ t₂ with trieBuffer := updI t₂.trieBuffer leaf (Int.ofNat idv) } : Repo).trieLookup Y
        = t.trieLookup Y) := by
  intro leaf t₂ hw
  have hroot_lt : (0:Nat) < t.trieFreePtr := by
    have := hS.root_le; have := hS.nodeSize_eq; omega
  have hroot_dvd : t.trieNodeSize ∣ 0 := Dvd.intro 0 rfl
  have hspec := walkVals_spec X t hS 0 hroot_lt hroot_dvd hXvals
  rw [hw] at hspec
  dsimp only at hspec
  obtain ⟨w, hleaf_lt, hleaf_dvd, hfind2⟩ := hspec
  have hlook2 : t₂.trieLookup X = none := (walkOut_lookup_eq hS w X hXvals).trans hfreshX
  have hslot : t₂.trieBuffer leaf = -1 := by
    by_contra h
    rw [trieLookup_some_intro hfind2 h] at hlook2
    cases hlook2
  have hB3 : ({ t₂ with trieBuffer := updI t₂.trieBuffer leaf (Int.ofNat idv) } : Repo).trieBuffer
      = updI t₂.trieBuffer leaf (Int.ofNat idv) := rfl
  have hswf3 : SWf { t₂ with trieBuffer := updI t₂.trieBuffer leaf (Int.ofNat idv) } := by
    refine swf_of_fields w.swf rfl rfl rfl ?_
    intro p v hp hpd hv'
    rw [hB3]
    unfold updI
    have hne : p + 1 + v ≠ leaf := slot_ne_aligned w.swf.nodeSize_eq hpd hv' hleaf_dvd
    rw [if_neg hne]
  have hfind_eq : ∀ Y, (∀ y ∈ Y, y < t.globalDegree) →
      ({ t₂ with trieBuffer := updI t₂.trieBuffer leaf (Int.ofNat idv) } : Repo).trieFind 0 Y
        = t₂.trieFind 0 Y := by
    intro Y hYv
    refine trieFind_congr w.swf
      (rfl : ({ t₂ with trieBuffer := updI t₂.trieBuffer leaf (Int.ofNat idv) } : Repo).trieNodeSize
        = t₂.trieNodeSize) ?_ Y 0 (by omega) (w.ns ▸ hroot_dvd)
      (fun y hy => w.deg ▸ hYv y hy)
    intro j hj
    rw [hB3]
    unfold updI
    have hne : j ≠ leaf := fun he => hj (he ▸ (w.ns ▸ hleaf_dvd))
    rw [if_neg hne]
  have huniq : ∀ Y, Y.length = t.globalDegree → (∀ y ∈ Y, y < t.globalDegree) →
      t₂.trieFind 0 Y = some leaf → Y = X := by
    intro Y hYl hYv hYf
    exact trieFind_unique w.swf t.globalDegree Y X leaf hYl hXlen
      (fun y hy => w.deg ▸ hYv y hy) (fun y hy => w.deg ▸ hXvals y hy) hYf hfind2
  refine ⟨hswf3, w.deg, w.cnt, w.pb, w.idf, w.ns, ?_, ?_⟩
  · have hf3 : ({ t₂ with trieBuffer := updI t₂.trieBuffer leaf (Int.ofNat idv) } : Repo).trieFind
        0 X = some leaf := (hfind_eq X hXvals).trans hfind2
    have hb3v : ({ t₂ with trieBuffer := updI t₂.trieBuffer leaf (Int.ofNat idv) } : Repo).trieBuffer
        leaf = Int.ofNat idv := by
      show updI t₂.trieBuffer leaf (Int.ofNat idv) leaf = Int.ofNat idv
      simp [updI]
    rw [trieLookup_some_intro hf3 (by rw [hb3v]; simp)]
    rw [hb3v, int_toNat_ofNat]
  · intro Y hYl hYv hYX
    rcases hfY : t₂.trieFind 0 Y with _ | r
    · -- not findable after the walk: also none before
      have hf3 : ({ t₂ with trieBuffer := updI t₂.trieBuffer leaf (Int.ofNat idv) } : Repo).trieFind
          0 Y = none := (hfind_eq Y hYv).trans hfY
      have hfT : t.trieFind 0 Y = none := by
        rcases hfT : t.trieFind 0 Y with _ | r0
        · rfl
        · have := trieFind_stable hS
            (fun j hj hne => w.old_stable j hj (Or.inr hne)) Y 0 r0 hroot_lt hroot_dvd hYv hfT
          rw [this] at hfY
          cases hfY
      unfold Repo.trieLookup
      rw [hf3, hfT]
    · have hf3 : ({ t₂ with trieBuffer := updI t₂.trieBuffer leaf (Int.ofNat idv) } : Repo).trieFind
          0 Y = some r := (hfind_eq Y hYv).trans hfY
      have hrleaf : r ≠ leaf := fun he => hYX (huniq Y hYl hYv (he ▸ hfY))
      rcases trieFind_back hS w.swf w.deg w.ns w.free_mono w.old_stable
          (fun a b c d => w.changed_fresh a b c d) Y 0 r hroot_lt hroot_dvd hYv hfY
        with hold | hfresh
      · obtain ⟨hr_lt, hr_dvd⟩ := trieFind_node hS Y 0 r hroot_lt hroot_dvd hYv hold
        have hbs : t₂.trieBuffer r = t.trieBuffer r := w.old_stable r hr_lt (Or.inl hr_dvd)
        have hbr : updI t₂.trieBuffer leaf (Int.ofNat idv) r = t.trieBuffer r := by
          unfold updI; rw [if_neg hrleaf]; exact hbs
        unfold Repo.trieLookup
        rw [hf3, hold]
        dsimp only
        rw [hbr]
      · obtain ⟨hr_lt2, hr_dvd2⟩ := trieFind_node w.swf Y 0 r (by omega)
          (w.ns ▸ hroot_dvd) (fun y hy => w.deg ▸ hYv y hy) hfY
        have hm1 : t₂.trieBuffer r = -1 := w.fresh_ids r (w.ns ▸ hr_dvd2) hfresh hr_lt2
        have hfT : t.trieFind 0 Y = none := by
          rcases hfT : t.trieFind 0 Y with _ | r0
          · rfl
          · have hst := trieFind_stable hS
              (fun j hj hne => w.old_stable j hj (Or.inr hne)) Y 0 r0 hroot_lt hroot_dvd hYv hfT
            rw [hst] at hfY
            have : r0 = r := Option.some.inj hfY
            subst this
            obtain ⟨hr0_lt, _⟩ := trieFind_node hS Y 0 r0 hroot_lt hroot_dvd hYv hfT
            omega
        have hbr : updI t₂.trieBuffer leaf (Int.ofNat idv) r = -1 := by
          unfold updI; rw [if_neg hrleaf]; exact hm1
        unfold Repo.trieLookup
        rw [hf3, hfT]
        dsimp only
        rw [hbr]
        simp

/-- Correctness of `_upgradeDegree`'s re-insertion loop: starting from a trie
that represents exactly IDs `< start`, it extends the representation to IDs
`< start + remaining`, touching nothing else. -/
theorem reinsertLoop_spec :
    ∀ remaining (t : Repo) (start : Nat),
      SWf t →
      start + remaining ≤ t.count →
      (∀ i, i < t.count → ∀ v ∈ t.get i, v < t.globalDegree) →
      (∀ i j, i < t.count → j < t.count → t.get i = t.get j → i = j) →
      (∀ i, i < start → t.trieLookup (t.get i) = some i) →
      (∀ Y, Y.length = t.globalDegree → (∀ y ∈ Y, y < t.globalDegree) →
        ∀ k, t.trieLookup Y = some k → k < start ∧ t.get k = Y) →
      SWf (t.reinsertLoop start remaining) ∧
      (t.reinsertLoop start remaining).globalDegree = t.globalDegree ∧
      (t.reinsertLoop start remaining).count = t.count ∧
      (t.reinsertLoop start remaining).permBuffer = t.permBuffer ∧
      (t.reinsertLoop start remaining).identity = t.identity ∧
      (t.reinsertLoop start remaining).trieNodeSize = t.trieNodeSize ∧
      (∀ i, i < start + remaining →
        (t.reinsertLoop start remaining).trieLookup (t.get i) = some i) ∧
      (∀ Y, Y.length = t.globalDegree → (∀ y ∈ Y, y < t.globalDegree) →
        ∀ k, (t.reinsertLoop start remaining).trieLookup Y = some k →
          k < start + remaining ∧ t.get k = Y) := by
  intro remaining
  induction remaining with
  | zero =>
    intro t start hS hle hvals hinj hcomp hsound
    exact ⟨hS, rfl, rfl, rfl, rfl, rfl, fun i hi => hcomp i (by omega),
      fun Y hYl hYv k hk => ⟨by have := (hsound Y hYl hYv k hk).1; omega,
        (hsound Y hYl hYv k hk).2⟩⟩
  | succ rem ih =>
    intro t start hS hle hvals hinj hcomp hsound
    have hstart_lt : start < t.count := by omega
    have hXfresh : t.trieLookup (t.get start) = none := by
      rcases hl : t.trieLookup (t.get start) with _ | k
      · rfl
      · obtain ⟨hk, hgk⟩ := hsound _ (get_length t start) (hvals start hstart_lt) k hl
        have : k = start := hinj k start (by omega) hstart_lt hgk
        omega
    have hunfold : t.reinsertLoop start (rem+1) =
        ({ (walkVals t 0 (t.get start)).2 with
           trieBuffer := updI (walkVals t 0 (t.get start)).2.trieBuffer
             (walkVals t 0 (t.get start)).1 (Int.ofNat start) }).reinsertLoop (start+1) rem := by
      simp only [Repo.reinsertLoop]
      rw [reinsertWalk_eq_walkVals, valsBuf_zero_eq_get]
    rcases hw : walkVals t 0 (t.get start) with ⟨leaf, t₂⟩
    rw [hw] at hunfold
    dsimp only at hunfold
    obtain ⟨hswf3, hdeg2, hcnt2, hpb2, hid2, hns2, hlookX, hlookOther⟩ :=
      insertPath_spec t hS (t.get start) start (get_length t start) (hvals start hstart_lt)
        hXfresh leaf t₂ hw
    have hdeg3 : ({ t₂ with trieBuffer := updI t₂.trieBuffer leaf (Int.ofNat start) } : Repo).globalDegree
        = t.globalDegree := hdeg2
    have hcnt3 : ({ t₂ with trieBuffer := updI t₂.trieBuffer leaf (Int.ofNat start) } : Repo).count
        = t.count := hcnt2
    have hpb3 : ({ t₂ with trieBuffer := updI t₂.trieBuffer leaf (Int.ofNat start) } : Repo).permBuffer
        = t.permBuffer := hpb2
    have hid3 : ({ t₂ with trieBuffer := updI t₂.trieBuffer leaf (Int.ofNat start) } : Repo).identity
        = t.identity := hid2
    have hns3 : ({ t₂ with trieBuffer := updI t₂.trieBuffer leaf (Int.ofNat start) } : Repo).trieNodeSize
        = t.trieNodeSize := hns2
    have hget3 : ∀ i, ({ t₂ with trieBuffer := updI t₂.trieBuffer leaf (Int.ofNat start) } : Repo).get i
        = t.get i := by
      intro i
      unfold Repo.get
      rw [hdeg3, hpb3]
    have hres := ih { t₂ with trieBuffer := updI t₂.trieBuffer leaf (Int.ofNat start) } (start+1)
      hswf3 (by rw [hcnt3]; omega)
      (by intro i hi; rw [hget3, hdeg3]; exact hvals i (by rw [hcnt3] at hi; exact hi))
      (by intro i j hi hj h; rw [hget3, hget3] at h; rw [hcnt3] at hi hj; exact hinj i j hi hj h)
      (by
        intro i hi
        rw [hget3]
        by_cases hieq : i = start
        · subst hieq; exact hlookX
        · refine (hlookOther (t.get i) (get_length t i) (hvals i (by omega)) ?_).trans
            (hcomp i (by omega))
          intro h
          exact hieq (hinj i start (by omega) hstart_lt h))
      (by
        intro Y hYl hYv k hk
        rw [hdeg3] at hYl hYv
        by_cases hYX : Y = t.get start
        · subst hYX
          rw [hlookX] at hk
          have : start = k := Option.some.inj hk
          subst this
          exact ⟨by omega, (hget3 start).symm ▸ rfl⟩
        · rw [hlookOther Y hYl hYv hYX] at hk
          obtain ⟨hk1, hk2⟩ := hsound Y hYl hYv k hk
          exact ⟨by omega, by rw [hget3]; exact hk2⟩)
    obtain ⟨r1, r2, r3, r4, r5, r6, r7, r8⟩ := hres
    rw [hunfold]
    refine ⟨r1, r2.trans hdeg3, r3.trans hcnt3, r4.trans hpb3, r5.trans hid3, r6.trans hns3,
      ?_, ?_⟩
    · intro i hi
      have := r7 i (by omega)
      rw [hget3] at this
      exact this
    · intro Y hYl hYv k hk
      have hres2 := r8 Y (by rw [hdeg3]; exact hYl) (by rw [hdeg3]; exact hYv) k hk
      obtain ⟨hk1, hk2⟩ := hres2
      rw [hget3] at hk2
      exact ⟨by omega, hk2⟩

/-- Correctness of `_upgradeDegree`: IDs, identity and count survive, every
stored image becomes its fixed-point padding, and the rebuilt trie again
satisfies the full invariant. -/
theorem upgradeDegree_spec (s : Repo) (nd : Nat) (hs : Wf s) (hnd : s.globalDegree < nd) :
    Wf (s.upgradeDegree nd) ∧
    (s.upgradeDegree nd).globalDegree = nd ∧
    (s.upgradeDegree nd).count = s.count ∧
    (s.upgradeDegree nd).identity = s.identity ∧
    (∀ i, i < s.count → (s.upgradeDegree nd).get i = padTo nd (s.get i)) := by
  have hnd0 : 0 < nd := by omega
  have hunfold : s.upgradeDegree nd =
      Repo.reinsertLoop
        { globalDegree := nd, count := s.count,
          permBuffer := fun j =>
            if j / nd < s.count then
              (if j % nd < s.globalDegree then s.permBuffer (j / nd * s.globalDegree + j % nd)
               else j % nd)
            else 0,
          trieNodeSize := nd + 1,
          trieBuffer := fun j => if 0 ≤ j ∧ j < 0 + (nd + 1) then -1 else s.trieBuffer j,
          trieFreePtr := 0 + (nd + 1), identity := s.identity } 0 s.count := rfl
  rw [hunfold]
  set t₀ : Repo :=
    { globalDegree := nd, count := s.count,
      permBuffer := fun j =>
        if j / nd < s.count then
          (if j % nd < s.globalDegree then s.permBuffer (j / nd * s.globalDegree + j % nd)
           else j % nd)
        else 0,
      trieNodeSize := nd + 1,
      trieBuffer := fun j => if 0 ≤ j ∧ j < 0 + (nd + 1) then -1 else s.trieBuffer j,
      trieFreePtr := 0 + (nd + 1), identity := s.identity } with ht₀
  have hdeg0 : t₀.globalDegree = nd := rfl
  have hcnt0 : t₀.count = s.count := rfl
  have hget0 : ∀ i, i < s.count → t₀.get i = padTo nd (s.get i) := by
    intro i hi
    show (List.range t₀.globalDegree).map (fun k => t₀.permBuffer (i * t₀.globalDegree + k)) = _
    rw [hdeg0]
    show _ = (List.range nd).map (fun k => if k < (s.get i).length then (s.get i).getD k 0 else k)
    refine map_range_congr ?_
    intro k hk
    show (if (i * nd + k) / nd < s.count then
        (if (i * nd + k) % nd < s.globalDegree then
          s.permBuffer ((i * nd + k) / nd * s.globalDegree + (i * nd + k) % nd)
         else (i * nd + k) % nd)
      else 0) = _
    have hdiv : (i * nd + k) / nd = i := by
      rw [Nat.add_comm, Nat.add_mul_div_right _ _ hnd0, Nat.div_eq_of_lt hk, Nat.zero_add]
    have hmod : (i * nd + k) % nd = k := by
      rw [Nat.add_comm, Nat.add_mul_mod_self_right, Nat.mod_eq_of_lt hk]
    rw [hdiv, hmod, if_pos hi, get_length]
    by_cases hko : k < s.globalDegree
    · rw [if_pos hko, if_pos hko, get_getD hko]
    · rw [if_neg hko, if_neg hko]
  have hswf0 : SWf t₀ := by
    refine ⟨rfl, by show nd + 1 ≤ 0 + (nd + 1); omega, ⟨1, by show 0 + (nd+1) = (nd+1) * 1; omega⟩,
      ?_, ?_⟩
    · intro p hp hpd v hv
      have hp0 : p = 0 := Nat.eq_zero_of_dvd_of_lt hpd (by simpa using hp)
      subst hp0
      refine Or.inl ?_
      show (if 0 ≤ 0+1+v ∧ 0+1+v < 0 + (nd+1) then (-1:Int) else s.trieBuffer (0+1+v)) = -1
      rw [if_pos ⟨by omega, by omega⟩]
    · intro p₁ v₁ p₂ v₂ hp₁ hd₁ hv₁ hp₂ hd₂ hv₂ heq hne
      exfalso
      apply hne
      have hp0 : p₁ = 0 := Nat.eq_zero_of_dvd_of_lt hd₁ (by simpa using hp₁)
      subst hp0
      show (if 0 ≤ 0+1+v₁ ∧ 0+1+v₁ < 0 + (nd+1) then (-1:Int) else s.trieBuffer (0+1+v₁)) = -1
      rw [if_pos ⟨by omega, by omega⟩]
  have hlook0 : ∀ Y, Y.length = nd → (∀ y ∈ Y, y < nd) → t₀.trieLookup Y = none := by
    intro Y hYl hYv
    cases Y with
    | nil => simp at hYl; omega
    | cons y ys =>
      have hy : y < nd := hYv y (by simp)
      have hfind : t₀.trieFind 0 (y :: ys) = none := by
        have hslot : t₀.trieBuffer (0+1+y) = -1 := by
          show (if 0 ≤ 0+1+y ∧ 0+1+y < 0 + (nd+1) then (-1:Int) else s.trieBuffer (0+1+y)) = -1
          rw [if_pos ⟨by omega, by omega⟩]
        show (if t₀.trieBuffer (0+1+y) = -1 then none
              else t₀.trieFind (t₀.trieBuffer (0+1+y)).toNat ys) = none
        rw [hslot]
        simp
      unfold Repo.trieLookup
      rw [hfind]
  have hvals0 : ∀ i, i < t₀.count → ∀ v ∈ t₀.get i, v < t₀.globalDegree := by
    intro i hi v hv
    rw [hcnt0] at hi
    rw [hget0 i hi] at hv
    rw [hdeg0]
    exact padTo_vals _ (fun w hw => lt_trans (hs.get_vals hi w hw) hnd) v hv
  have hinj0 : ∀ i j, i < t₀.count → j < t₀.count → t₀.get i = t₀.get j → i = j := by
    intro i j hi hj h
    rw [hcnt0] at hi hj
    rw [hget0 i hi, hget0 j hj] at h
    exact hs.get_inj hi hj
      (padTo_inj (by rw [get_length]; omega) (by rw [get_length, get_length]) h)
  obtain ⟨r1, r2, r3, r4, r5, r6, r7, r8⟩ := reinsertLoop_spec s.count t₀ 0 hswf0
    (by rw [hcnt0]; omega) hvals0 hinj0 (fun i hi => absurd hi (by omega))
    (by
      intro Y hYl hYv k hk
      rw [hlook0 Y (hdeg0 ▸ hYl) (hdeg0 ▸ hYv)] at hk
      cases hk)
  have hgetu : ∀ i, (t₀.reinsertLoop 0 s.count).get i = t₀.get i := by
    intro i
    unfold Repo.get
    rw [r2, r4]
  have hdegu : (t₀.reinsertLoop 0 s.count).globalDegree = nd := r2.trans hdeg0
  refine ⟨?_, hdegu, r3.trans hcnt0, r5, fun i hi => (hgetu i).trans (hget0 i hi)⟩
  refine ⟨r1.nodeSize_eq, r1.root_le, r1.free_dvd, ?_, ?_, ?_, ?_, ?_, ?_, ?_, ?_⟩
  · intro p hp hpd v hv
    rw [List.mem_range] at hp hv
    exact r1.child_ok p hp hpd v hv
  · intro p₁ hp₁ hd₁ v₁ hv₁ p₂ hp₂ hd₂ v₂ hv₂ heq hne
    rw [List.mem_range] at hp₁ hv₁ hp₂ hv₂
    exact r1.child_inj p₁ v₁ p₂ v₂ hp₁ hd₁ hv₁ hp₂ hd₂ hv₂ heq hne
  · intro i hi k hk
    rw [List.mem_range] at hi hk
    have h1 : (t₀.reinsertLoop 0 s.count).permBuffer
        (i * (t₀.reinsertLoop 0 s.count).globalDegree + k) =
        ((t₀.reinsertLoop 0 s.count).get i).getD k 0 := (get_getD hk).symm
    rw [h1, hgetu i]
    rw [r3, hcnt0] at hi
    rw [hget0 i hi]
    rw [hdegu] at hk ⊢
    rw [padTo_getD _ hk]
    split
    · rename_i h
      rw [get_length] at h
      rw [get_getD h]
      exact lt_trans (hs.perm_range' hi h) hnd
    · exact hk
  · intro i hi
    rw [List.mem_range, r3, hcnt0] at hi
    rw [hgetu i]
    exact r7 i (by omega)
  · intro Y hY k hk
    obtain ⟨hYl, hYv⟩ := mem_allLists.mp hY
    rw [hdegu] at hYl hYv
    obtain ⟨hk1, hk2⟩ := r8 Y (hdeg0 ▸ hYl) (hdeg0 ▸ hYv) k hk
    exact ⟨by rw [r3, hcnt0]; omega, by rw [hgetu k]; exact hk2⟩
  · rw [r5]; exact hs.identity_eq
  · rw [r3, hcnt0]; exact hs.count_pos
  · have h0 : (0:Nat) < s.count := hs.count_pos
    rw [hgetu 0, hget0 0 h0, hdegu]
    rw [hs.get_zero]
    exact padTo_range (by omega)

theorem padTo_eq_self {n : Nat} {l : List Nat} (h : l.length = n) : padTo n l = l := by
  apply List.ext_getElem (by rw [padTo_length, h])
  intro k hk hk2
  have hkn : k < n := by rw [padTo_length] at hk; exact hk
  rw [← List.getD_eq_getElem _ _ hk, ← List.getD_eq_getElem _ _ hk2,
    padTo_getD _ hkn, if_pos (by omega : k < l.length)]

/-- Writing the explicitly padded image is the same state update as writing
the raw image with its own valid length. -/
theorem wpb_padded_eq (s : Repo) (id : Nat) (raw : List Nat) :
    s.writeToPermBuffer id (padTo s.globalDegree raw) (padTo s.globalDegree raw).length =
    s.writeToPermBuffer id raw raw.length := by
  have hpb : (fun j =>
      if id * s.globalDegree ≤ j ∧ j < id * s.globalDegree + s.globalDegree then
        (if j - id * s.globalDegree < (padTo s.globalDegree raw).length
         then (padTo s.globalDegree raw).getD (j - id * s.globalDegree) 0
         else j - id * s.globalDegree)
      else s.permBuffer j) =
      (fun j =>
      if id * s.globalDegree ≤ j ∧ j < id * s.globalDegree + s.globalDegree then
        (if j - id * s.globalDegree < raw.length
         then raw.getD (j - id * s.globalDegree) 0
         else j - id * s.globalDegree)
      else s.permBuffer j) := by
    funext j
    by_cases hj : id * s.globalDegree ≤ j ∧ j < id * s.globalDegree + s.globalDegree
    · rw [if_pos hj, if_pos hj]
      have hk : j - id * s.globalDegree < s.globalDegree := by omega
      rw [padTo_length, if_pos hk, padTo_getD raw hk]
    · rw [if_neg hj, if_neg hj]
  exact congrArg (fun f => { s with permBuffer := f }) hpb

/-- Full correctness of `register`, combining the optional degree upgrade with
the post-upgrade interning.  The effective degree is
`max globalDegree raw.length`. -/
theorem register_spec (s : Repo) (raw : List Nat) (hs : Wf s)
    (hv : ∀ v ∈ raw, v < max s.globalDegree raw.length) :
    Wf (s.register raw).2 ∧
    (s.register raw).2.globalDegree = max s.globalDegree raw.length ∧
    (s.register raw).2.identity = s.identity ∧
    (∀ i, i < s.count →
      (s.register raw).2.get i = padTo (max s.globalDegree raw.length) (s.get i)) ∧
    (s.register raw).1 < (s.register raw).2.count ∧
    (s.register raw).2.get (s.register raw).1 =
      padTo (max s.globalDegree raw.length) raw ∧
    s.count ≤ (s.register raw).2.count ∧
    (s.register raw).2.count ≤ s.count + 1 := by
  rw [register_eq_core]
  by_cases hup : s.globalDegree < raw.length
  · rw [if_pos hup]
    have hmax : max s.globalDegree raw.length = raw.length := by omega
    obtain ⟨hW, hdeg, hcnt, hid, hget⟩ := upgradeDegree_spec s raw.length hs hup
    have hlen : raw.length ≤ (s.upgradeDegree raw.length).globalDegree := by rw [hdeg]
    have hvt : ∀ v ∈ raw, v < (s.upgradeDegree raw.length).globalDegree := by
      intro v hvm
      rw [hdeg]
      have := hv v hvm
      omega
    obtain ⟨hW2, hdeg2, hid2, hold2, hlt2, hres2, hdisj⟩ :=
      registerCore_spec (s.upgradeDegree raw.length) raw hW hlen hvt
    have hcnt2 : (registerCore (s.upgradeDegree raw.length) raw).2.count = s.count ∨
        (registerCore (s.upgradeDegree raw.length) raw).2.count = s.count + 1 := by
      rcases hdisj with ⟨i, _, _, heq⟩ | ⟨_, _, hc1⟩
      · left
        rw [heq]
        exact hcnt
      · right
        rw [hc1, hcnt]
    rw [hmax]
    refine ⟨hW2, by rw [hdeg2, hdeg], by rw [hid2, hid], ?_, hlt2,
      by rw [hres2, hdeg], ?_, ?_⟩
    · intro i hi
      rw [hold2 i (by rw [hcnt]; exact hi), hget i hi]
    · rcases hcnt2 with h | h <;> omega
    · rcases hcnt2 with h | h <;> omega
  · rw [if_neg hup]
    have hmax : max s.globalDegree raw.length = s.globalDegree := by omega
    have hlen : raw.length ≤ s.globalDegree := by omega
    have hvt : ∀ v ∈ raw, v < s.globalDegree := by
      intro v hvm
      have := hv v hvm
      omega
    obtain ⟨hW2, hdeg2, hid2, hold2, hlt2, hres2, hdisj⟩ :=
      registerCore_spec s raw hs hlen hvt
    have hcnt2 : (registerCore s raw).2.count = s.count ∨
        (registerCore s raw).2.count = s.count + 1 := by
      rcases hdisj with ⟨i, _, _, heq⟩ | ⟨_, _, hc1⟩
      · left
        rw [heq]
      · right
        rw [hc1]
    rw [hmax]
    refine ⟨hW2, hdeg2, hid2, ?_, hlt2, hres2, ?_, ?_⟩
    · intro i hi
      rw [hold2 i hi, padTo_eq_self]
      rw [get_length]
    · rcases hcnt2 with h | h <;> omega
    · rcases hcnt2 with h | h <;> omega

/-- When the (padded) image is already interned at `i`, `register` returns `i`
and leaves the store untouched. -/
theorem register_found_eq {s : Repo} {raw : List Nat} (hs : Wf s)
    (hlen : raw.length ≤ s.globalDegree)
    {i : Nat} (hi : i < s.count) (hgi : s.get i = padTo s.globalDegree raw) :
    s.register raw = (i, s) := by
  rw [register_eq_core, if_neg (by omega : ¬ s.globalDegree < raw.length)]
  exact registerCore_found (by rw [← hgi]; exact hs.lookup_complete' hi)

theorem padTo_take {n : Nat} {l : List Nat} (h : l.length ≤ n) :
    (padTo n l).take l.length = l := by
  apply List.ext_getElem
  · rw [List.length_take, padTo_length]
    omega
  · intro k hk hk2
    rw [List.getElem_take]
    rw [← List.getD_eq_getElem (padTo n l) _ (by rw [padTo_length]; omega),
      ← List.getD_eq_getElem l _ hk2, padTo_getD _ (by omega : k < n), if_pos hk2]

/-- When no previously stored image equals the padded input, `register`
assigns the next fresh ID (the old count) and bumps the count. -/
theorem register_fresh (s : Repo) (raw : List Nat) (hs : Wf s)
    (hv : ∀ v ∈ raw, v < max s.globalDegree raw.length)
    (hEx : ∀ i, i < s.count → padTo (max s.globalDegree raw.length) (s.get i) ≠
      padTo (max s.globalDegree raw.length) raw) :
    (s.register raw).1 = s.count ∧ (s.register raw).2.count = s.count + 1 := by
  rw [register_eq_core]
  by_cases hup : s.globalDegree < raw.length
  · rw [if_pos hup]
    have hmax : max s.globalDegree raw.length = raw.length := by omega
    rw [hmax] at hEx
    obtain ⟨hW, hdeg, hcnt, _, hget⟩ := upgradeDegree_spec s raw.length hs hup
    have hlen : raw.length ≤ (s.upgradeDegree raw.length).globalDegree := by rw [hdeg]
    have hvt : ∀ v ∈ raw, v < (s.upgradeDegree raw.length).globalDegree := by
      intro v hvm
      rw [hdeg]
      have := hv v hvm
      omega
    obtain ⟨_, _, _, _, _, _, hdisj⟩ :=
      registerCore_spec (s.upgradeDegree raw.length) raw hW hlen hvt
    rcases hdisj with ⟨i, hi, hgi, _⟩ | ⟨_, hres, hc1⟩
    · exfalso
      rw [hcnt] at hi
      rw [hdeg] at hgi
      rw [hget i hi] at hgi
      exact hEx i hi hgi
    · rw [hres, hc1, hcnt]
      exact ⟨rfl, rfl⟩
  · rw [if_neg hup]
    have hmax : max s.globalDegree raw.length = s.globalDegree := by omega
    rw [hmax] at hEx
    have hlen : raw.length ≤ s.globalDegree := by omega
    have hvt : ∀ v ∈ raw, v < s.globalDegree := by
      intro v hvm
      have := hv v hvm
      omega
    obtain ⟨_, _, _, _, _, _, hdisj⟩ := registerCore_spec s raw hs hlen hvt
    rcases hdisj with ⟨i, hi, hgi, _⟩ | ⟨_, hres, hc1⟩
    · exfalso
      refine hEx i hi ?_
      rw [padTo_eq_self (get_length s i), hgi]
    · rw [hres, hc1]
      exact ⟨rfl, rfl⟩

/-- C1: `register` is idempotent and padding-insensitive.  Registering the
same image array a second time returns the same ID and leaves the store
untouched; and for an input of length at most `globalDegree`, registering the
input is the same call (same ID, same final store) as registering its explicit
fixed-point padding up to `globalDegree`. -/
theorem C1_register_idempotent_padding (s : Repo) (raw : List Nat) (hs : Wf s)
    (hv : ∀ v ∈ raw, v < max s.globalDegree raw.length) :
    (s.register raw).2.register raw = ((s.register raw).1, (s.register raw).2) ∧
    (raw.length ≤ s.globalDegree →
      s.register (padTo s.globalDegree raw) = s.register raw) := by
  constructor
  · obtain ⟨hW, hdeg, _, _, hlt, hres, _, _⟩ := register_spec s raw hs hv
    have hlen2 : raw.length ≤ (s.register raw).2.globalDegree := by
      rw [hdeg]
      omega
    refine register_found_eq hW hlen2 hlt ?_
    rw [hdeg]
    exact hres
  · intro hlen
    have hv2 : ∀ v ∈ raw, v < s.globalDegree := by
      intro v hvm
      have := hv v hvm
      omega
    have hpe : padTo s.globalDegree (padTo s.globalDegree raw) = padTo s.globalDegree raw :=
      (padTo_get_padTo hlen).symm
    rw [register_eq_core s (padTo s.globalDegree raw), register_eq_core s raw,
      if_neg (by rw [padTo_length]; omega : ¬ s.globalDegree < (padTo s.globalDegree raw).length),
      if_neg (by omega : ¬ s.globalDegree < raw.length)]
    unfold registerCore
    rw [hpe]
    have hroot_lt : (0:Nat) < s.trieFreePtr := by
      have := hs.root_le
      have := hs.nodeSize_eq
      omega
    have hspec := walkVals_spec (padTo s.globalDegree raw) s hs.toSWf 0 hroot_lt
      (Dvd.intro 0 rfl) (padTo_vals raw hv2)
    rcases hw : walkVals s 0 (padTo s.globalDegree raw) with ⟨leaf, s₂⟩
    rw [hw] at hspec
    dsimp only at hspec
    obtain ⟨w, _, _, _⟩ := hspec
    have hdeg₂ : s₂.globalDegree = s.globalDegree := w.deg
    dsimp only
    by_cases hslot : s₂.trieBuffer leaf = -1
    · rw [if_pos hslot, if_pos hslot, ← hdeg₂]
      exact congrArg (Prod.mk s₂.count)
        (wpb_padded_eq
          { s₂ with
            count := s₂.count + 1,
            trieBuffer := updI s₂.trieBuffer leaf (Int.ofNat s₂.count)
          } s₂.count raw)
    · rw [if_neg hslot, if_neg hslot]

theorem C1_register_idempotent_padding_witness :
    ((Wf (mkRepo 2)) ∧ (∀ v ∈ [1,0], v < max (mkRepo 2).globalDegree ([1,0]:List Nat).length)) ∧
    ((mkRepo 2).register [1,0]).2.register [1,0] =
      (((mkRepo 2).register [1,0]).1, ((mkRepo 2).register [1,0]).2) ∧
    (([1,0]:List Nat).length ≤ (mkRepo 2).globalDegree →
      (mkRepo 2).register (padTo (mkRepo 2).globalDegree [1,0]) = (mkRepo 2).register [1,0]) :=
  ⟨⟨by decide, by decide⟩,
    C1_register_idempotent_padding (mkRepo 2) [1,0] (by decide) (by decide)⟩

/-- C3: a `register` call that raises the degree from `N` to `N′ = raw.length`
preserves every previously assigned ID: the new store has degree `N′`; for each
old ID the first `N` entries of its stored image are the old entries and the
entries at positions `N ≤ k < N′` are fixed points `k ↦ k`; each old padded
image still interns (looks up) to its old ID through the rebuilt trie; and if
no old image pads to the new input, the fresh ID continues from the old
count. -/
theorem C3_upgrade_preserves (s : Repo) (raw : List Nat) (hs : Wf s)
    (hup : s.globalDegree < raw.length)
    (hv : ∀ v ∈ raw, v < raw.length) :
    (s.register raw).2.globalDegree = raw.length ∧
    (∀ i, i < s.count →
      ((s.register raw).2.get i).take s.globalDegree = s.get i ∧
      (∀ k, s.globalDegree ≤ k → k < raw.length →
        ((s.register raw).2.get i).getD k 0 = k) ∧
      (s.register raw).2.trieLookup (padTo raw.length (s.get i)) = some i) ∧
    ((∀ i, i < s.count → padTo raw.length (s.get i) ≠ padTo raw.length raw) →
      (s.register raw).1 = s.count ∧ (s.register raw).2.count = s.count + 1) := by
  have hmax : max s.globalDegree raw.length = raw.length := by omega
  have hv2 : ∀ v ∈ raw, v < max s.globalDegree raw.length := by
    intro v hvm
    have := hv v hvm
    omega
  obtain ⟨hW, hdeg, _, hold, _, _, hle, _⟩ := register_spec s raw hs hv2
  rw [hmax] at hdeg hold
  refine ⟨hdeg, ?_, ?_⟩
  · intro i hi
    refine ⟨?_, ?_, ?_⟩
    · rw [hold i hi]
      have htk := padTo_take (n := raw.length) (l := s.get i) (by rw [get_length]; omega)
      rw [get_length s i] at htk
      exact htk
    · intro k hk1 hk2
      rw [hold i hi, padTo_getD _ hk2, get_length, if_neg (by omega : ¬ k < s.globalDegree)]
    · have hlk := hW.lookup_complete' (show i < (s.register raw).2.count by omega)
      rw [hold i hi] at hlk
      exact hlk
  · intro hEx
    refine register_fresh s raw hs hv2 ?_
    rw [hmax]
    exact hEx

theorem C3_upgrade_preserves_witness :
    ((Wf (((mkRepo 2).register [1,0]).2) ∧
      (((mkRepo 2).register [1,0]).2).globalDegree < ([1,2,0]:List Nat).length ∧
      (∀ v ∈ [1,2,0], v < ([1,2,0]:List Nat).length))) ∧
    ((((mkRepo 2).register [1,0]).2.register [1,2,0]).2.globalDegree = ([1,2,0]:List Nat).length ∧
    (∀ i, i < (((mkRepo 2).register [1,0]).2).count →
      (((((mkRepo 2).register [1,0]).2.register [1,2,0]).2.get i).take
          (((mkRepo 2).register [1,0]).2).globalDegree = (((mkRepo 2).register [1,0]).2).get i ∧
      (∀ k, (((mkRepo 2).register [1,0]).2).globalDegree ≤ k → k < ([1,2,0]:List Nat).length →
        ((((mkRepo 2).register [1,0]).2.register [1,2,0]).2.get i).getD k 0 = k) ∧
      (((mkRepo 2).register [1,0]).2.register [1,2,0]).2.trieLookup
        (padTo ([1,2,0]:List Nat).length ((((mkRepo 2).register [1,0]).2).get i)) = some i)) ∧
    ((∀ i, i < (((mkRepo 2).register [1,0]).2).count →
        padTo ([1,2,0]:List Nat).length ((((mkRepo 2).register [1,0]).2).get i) ≠
          padTo ([1,2,0]:List Nat).length [1,2,0]) →
      (((mkRepo 2).register [1,0]).2.register [1,2,0]).1 = (((mkRepo 2).register [1,0]).2).count ∧
      (((mkRepo 2).register [1,0]).2.register [1,2,0]).2.count =
        (((mkRepo 2).register [1,0]).2).count + 1)) :=
  ⟨⟨by decide, by decide, by decide⟩,
    C3_upgrade_preserves (((mkRepo 2).register [1,0]).2) [1,2,0] (by decide) (by decide)
      (by decide)⟩

theorem getD_range {N j : Nat} (hj : j < N) : (List.range N).getD j 0 = j := by
  rw [List.getD_eq_getElem _ _ (by simpa using hj)]
  simp

theorem map_range_getD_self {N : Nat} {l : List Nat} (h : l.length = N) :
    (List.range N).map (fun k => l.getD k 0) = l := by
  apply List.ext_getElem (by simpa using h.symm)
  intro k hk hk2
  rw [← List.getD_eq_getElem _ _ hk, ← List.getD_eq_getElem _ _ hk2,
    getD_map_range _ (show k < N by simpa using hk)]

theorem nodup_getD_inj {l : List Nat} (hn : l.Nodup) {k1 k2 : Nat}
    (h1 : k1 < l.length) (h2 : k2 < l.length) (h : l.getD k1 0 = l.getD k2 0) : k1 = k2 := by
  rw [List.getD_eq_getElem _ _ h1, List.getD_eq_getElem _ _ h2] at h
  exact (List.Nodup.getElem_inj_iff hn).mp h

theorem nodup_mem {l : List Nat} {N : Nat} (hn : l.Nodup) (hlen : l.length = N)
    (hv : ∀ v ∈ l, v < N) : ∀ j, j < N → j ∈ l := by
  intro j hj
  have hsub : l.toFinset ⊆ Finset.range N := by
    intro x hx
    rw [Finset.mem_range]
    exact hv x (List.mem_toFinset.mp hx)
  have hcard : (Finset.range N).card ≤ l.toFinset.card := by
    rw [List.toFinset_card_of_nodup hn, hlen, Finset.card_range]
  have heq : l.toFinset = Finset.range N := Finset.eq_of_subset_of_card_le hsub hcard
  exact List.mem_toFinset.mp (by rw [heq]; exact Finset.mem_range.mpr hj)

theorem invFillLoop_lt (buf : Nat → Nat) (off : Nat) {N : Nat} (hN : 0 < N) :
    ∀ m, m ≤ N → ∀ j, invFillLoop buf off m j < N := by
  intro m
  induction m with
  | zero =>
    intro _ j
    exact hN
  | succ n ih =>
    intro hm j
    show updN (invFillLoop buf off n) (buf (off + n)) n j < N
    unfold updN
    by_cases hj : j = buf (off + n)
    · rw [if_pos hj]
      omega
    · rw [if_neg hj]
      exact ih (by omega) j

theorem invFillLoop_eq (buf : Nat → Nat) (off : Nat) :
    ∀ m k, k < m →
    (∀ k1 k2, k1 < m → k2 < m → buf (off + k1) = buf (off + k2) → k1 = k2) →
    invFillLoop buf off m (buf (off + k)) = k := by
  intro m
  induction m with
  | zero =>
    intro k hk _
    exact absurd hk (Nat.not_lt_zero k)
  | succ n ih =>
    intro k hk hinj
    show updN (invFillLoop buf off n) (buf (off + n)) n (buf (off + k)) = k
    unfold updN
    by_cases hkn : k = n
    · rw [if_pos (by rw [hkn])]
      omega
    · have hne : buf (off + k) ≠ buf (off + n) := fun h =>
        hkn (hinj k n (by omega) (by omega) h)
      rw [if_neg hne]
      exact ih k (by omega) (fun k1 k2 h1 h2 h3 => hinj k1 k2 (by omega) (by omega) h3)

/-- Correctness of `multiply`: the result (including both identity fast paths)
interns the composition image `k ↦ A[B[k]]`, preserving the store. -/
theorem multiply_spec (s : Repo) (a b : Nat) (hs : Wf s)
    (ha : a < s.count) (hb : b < s.count) :
    Wf (s.multiply a b).2 ∧
    (s.multiply a b).2.globalDegree = s.globalDegree ∧
    (s.multiply a b).2.identity = s.identity ∧
    s.count ≤ (s.multiply a b).2.count ∧
    (∀ i, i < s.count → (s.multiply a b).2.get i = s.get i) ∧
    (s.multiply a b).1 < (s.multiply a b).2.count ∧
    (s.multiply a b).2.get (s.multiply a b).1 =
      (List.range s.globalDegree).map
        (fun k => (s.get a).getD ((s.get b).getD k 0) 0) := by
  unfold Repo.multiply
  by_cases hA : a = s.identity
  · rw [if_pos hA]
    dsimp only
    refine ⟨hs, rfl, rfl, le_refl _, fun _ _ => rfl, hb, ?_⟩
    have ha0 : a = 0 := by rw [hA, hs.identity_eq]
    rw [ha0, hs.get_zero]
    symm
    have hEq : ∀ k, k < s.globalDegree →
        (List.range s.globalDegree).getD ((s.get b).getD k 0) 0 = (s.get b).getD k 0 := by
      intro k hk
      exact getD_range (by rw [get_getD hk]; exact hs.perm_range' hb hk)
    calc (List.range s.globalDegree).map
          (fun k => (List.range s.globalDegree).getD ((s.get b).getD k 0) 0)
        = (List.range s.globalDegree).map (fun k => (s.get b).getD k 0) := map_range_congr hEq
      _ = s.get b := map_range_getD_self (get_length s b)
  · rw [if_neg hA]
    by_cases hB : b = s.identity
    · rw [if_pos hB]
      dsimp only
      refine ⟨hs, rfl, rfl, le_refl _, fun _ _ => rfl, ha, ?_⟩
      have hb0 : b = 0 := by rw [hB, hs.identity_eq]
      rw [hb0, hs.get_zero]
      symm
      have hEq : ∀ k, k < s.globalDegree →
          (s.get a).getD ((List.range s.globalDegree).getD k 0) 0 = (s.get a).getD k 0 := by
        intro k hk
        rw [getD_range hk]
      calc (List.range s.globalDegree).map
            (fun k => (s.get a).getD ((List.range s.globalDegree).getD k 0) 0)
          = (List.range s.globalDegree).map (fun k => (s.get a).getD k 0) := map_range_congr hEq
        _ = s.get a := map_range_getD_self (get_length s a)
    · rw [if_neg hB]
      dsimp only
      set res := (List.range s.globalDegree).map
        (fun k => s.permBuffer (a * s.globalDegree + s.permBuffer (b * s.globalDegree + k)))
        with hres
      have hlen : res.length = s.globalDegree := by simp [hres]
      have hv : ∀ v ∈ res, v < max s.globalDegree res.length := by
        intro v hvm
        rw [hres] at hvm
        simp only [List.mem_map, List.mem_range] at hvm
        obtain ⟨k, hk, rfl⟩ := hvm
        have h1 : s.permBuffer (b * s.globalDegree + k) < s.globalDegree := hs.perm_range' hb hk
        have h2 := hs.perm_range' ha h1
        omega
      obtain ⟨hW, hdeg, hid, hold, hlt, hresg, hle, _⟩ := register_spec s res hs hv
      have hmax : max s.globalDegree res.length = s.globalDegree := by
        rw [hlen]
        omega
      rw [hmax] at hdeg hold hresg
      refine ⟨hW, hdeg, hid, hle, ?_, hlt, ?_⟩
      · intro i hi
        rw [hold i hi, padTo_eq_self (get_length s i)]
      · rw [hresg, padTo_eq_self hlen, hres]
        refine map_range_congr ?_
        intro k hk
        have h1 : s.permBuffer (b * s.globalDegree + k) < s.globalDegree := hs.perm_range' hb hk
        rw [get_getD hk, get_getD h1]

/-- Correctness of `inverse`: the result (including the identity fast path)
interns the image built by the inverse-filling loop, preserving the store. -/
theorem inverse_spec (s : Repo) (a : Nat) (hs : Wf s) (ha : a < s.count) :
    Wf (s.inverse a).2 ∧
    (s.inverse a).2.globalDegree = s.globalDegree ∧
    (s.inverse a).2.identity = s.identity ∧
    s.count ≤ (s.inverse a).2.count ∧
    (∀ i, i < s.count → (s.inverse a).2.get i = s.get i) ∧
    (s.inverse a).1 < (s.inverse a).2.count ∧
    (s.inverse a).2.get (s.inverse a).1 =
      (List.range s.globalDegree).map
        (invFillLoop s.permBuffer (a * s.globalDegree) s.globalDegree) := by
  unfold Repo.inverse
  by_cases hA : a = s.identity
  · rw [if_pos hA]
    dsimp only
    refine ⟨hs, rfl, rfl, le_refl _, fun _ _ => rfl,
      by rw [hs.identity_eq]; exact hs.count_pos, ?_⟩
    have hbuf : ∀ k, k < s.globalDegree → s.permBuffer (0 * s.globalDegree + k) = k := by
      intro k hk
      have hcg := congrArg (fun l => l.getD k 0) hs.get_zero
      dsimp only at hcg
      rw [get_getD hk, getD_range hk] at hcg
      exact hcg
    have hinvid : ∀ j, j < s.globalDegree →
        invFillLoop s.permBuffer (0 * s.globalDegree) s.globalDegree j = j := by
      intro j hj
      have hfe := invFillLoop_eq s.permBuffer (0 * s.globalDegree) s.globalDegree j hj
        (fun k1 k2 h1 h2 h3 => by rw [hbuf k1 h1, hbuf k2 h2] at h3; exact h3)
      rw [hbuf j hj] at hfe
      exact hfe
    rw [hA, hs.identity_eq, hs.get_zero]
    symm
    calc (List.range s.globalDegree).map
          (invFillLoop s.permBuffer (0 * s.globalDegree) s.globalDegree)
        = (List.range s.globalDegree).map (fun j => (List.range s.globalDegree).getD j 0) :=
          map_range_congr (fun j hj => by rw [hinvid j hj, getD_range hj])
      _ = List.range s.globalDegree := map_range_getD_self (by simp)
  · rw [if_neg hA]
    dsimp only
    set res := (List.range s.globalDegree).map
      (invFillLoop s.permBuffer (a * s.globalDegree) s.globalDegree) with hres
    have hlen : res.length = s.globalDegree := by simp [hres]
    have hv : ∀ v ∈ res, v < max s.globalDegree res.length := by
      intro v hvm
      rw [hres] at hvm
      simp only [List.mem_map, List.mem_range] at hvm
      obtain ⟨j, hj, rfl⟩ := hvm
      have hN : 0 < s.globalDegree := by omega
      have := invFillLoop_lt s.permBuffer (a * s.globalDegree) hN s.globalDegree (le_refl _) j
      omega
    obtain ⟨hW, hdeg, hid, hold, hlt, hresg, hle, _⟩ := register_spec s res hs hv
    have hmax : max s.globalDegree res.length = s.globalDegree := by
      rw [hlen]
      omega
    rw [hmax] at hdeg hold hresg
    refine ⟨hW, hdeg, hid, hle, ?_, hlt, ?_⟩
    · intro i hi
      rw [hold i hi, padTo_eq_self (get_length s i)]
    · rw [hresg, padTo_eq_self hlen]

/-- C2: group laws at the ID level under sequential evaluation of the store.
For interned IDs `a, b, c` (with `a` a genuine permutation, i.e. its image has
no duplicates): evaluating `multiply(b,c)`, then `multiply(a, ·)`, then
`multiply(a,b)`, then `multiply(·, c)` in sequence yields the same final ID as
the inner product (associativity); and after `inverse(a)`, both
`multiply(a, inverse(a))` and `multiply(inverse(a), a)` return the identity
ID. -/
theorem C2_group_laws (s : Repo) (a b c : Nat) (hs : Wf s)
    (ha : a < s.count) (hb : b < s.count) (hc : c < s.count)
    (hna : (s.get a).Nodup) :
    ((((s.multiply b c).2.multiply a (s.multiply b c).1).2.multiply a b).2.multiply
        (((s.multiply b c).2.multiply a (s.multiply b c).1).2.multiply a b).1 c).1 =
      ((s.multiply b c).2.multiply a (s.multiply b c).1).1 ∧
    ((s.inverse a).2.multiply a (s.inverse a).1).1 = s.identity ∧
    (((s.inverse a).2.multiply a (s.inverse a).1).2.multiply (s.inverse a).1 a).1 =
      s.identity := by
  have hAv : ∀ k, k < s.globalDegree → (s.get a).getD k 0 < s.globalDegree := by
    intro k hk
    rw [get_getD hk]
    exact hs.perm_range' ha hk
  have hBv : ∀ k, k < s.globalDegree → (s.get b).getD k 0 < s.globalDegree := by
    intro k hk
    rw [get_getD hk]
    exact hs.perm_range' hb hk
  have hCv : ∀ k, k < s.globalDegree → (s.get c).getD k 0 < s.globalDegree := by
    intro k hk
    rw [get_getD hk]
    exact hs.perm_range' hc hk
  refine ⟨?_, ?_⟩
  · obtain ⟨W1, D1, I1, L1, P1, R1, G1⟩ := multiply_spec s b c hs hb hc
    obtain ⟨W2, D2, I2, L2, P2, R2, G2⟩ :=
      multiply_spec (s.multiply b c).2 a (s.multiply b c).1 W1 (by omega) R1
    rw [D1, P1 a ha, G1] at G2
    have G2a : ((s.multiply b c).2.multiply a (s.multiply b c).1).2.get
        ((s.multiply b c).2.multiply a (s.multiply b c).1).1 =
        (List.range s.globalDegree).map
          (fun k => (s.get a).getD ((s.get b).getD ((s.get c).getD k 0) 0) 0) := by
      rw [G2]
      exact map_range_congr (fun k hk => by rw [getD_map_range _ hk])
    obtain ⟨W3, D3, I3, L3, P3, R3, G3⟩ :=
      multiply_spec ((s.multiply b c).2.multiply a (s.multiply b c).1).2 a b W2
        (by omega) (by omega)
    rw [D2, D1, P2 a (by omega), P1 a ha, P2 b (by omega), P1 b hb] at G3
    obtain ⟨W4, D4, I4, L4, P4, R4, G4⟩ :=
      multiply_spec (((s.multiply b c).2.multiply a (s.multiply b c).1).2.multiply a b).2
        (((s.multiply b c).2.multiply a (s.multiply b c).1).2.multiply a b).1 c W3 R3
        (by omega)
    rw [D3, D2, D1, G3, P3 c (by omega), P2 c (by omega), P1 c hc] at G4
    have G4a : ((((s.multiply b c).2.multiply a (s.multiply b c).1).2.multiply a b).2.multiply
        (((s.multiply b c).2.multiply a (s.multiply b c).1).2.multiply a b).1 c).2.get
        ((((s.multiply b c).2.multiply a (s.multiply b c).1).2.multiply a b).2.multiply
          (((s.multiply b c).2.multiply a (s.multiply b c).1).2.multiply a b).1 c).1 =
        (List.range s.globalDegree).map
          (fun k => (s.get a).getD ((s.get b).getD ((s.get c).getD k 0) 0) 0) := by
      rw [G4]
      exact map_range_congr (fun k hk => by rw [getD_map_range _ (hCv k hk)])
    have hold : ((((s.multiply b c).2.multiply a (s.multiply b c).1).2.multiply a b).2.multiply
        (((s.multiply b c).2.multiply a (s.multiply b c).1).2.multiply a b).1 c).2.get
        ((s.multiply b c).2.multiply a (s.multiply b c).1).1 =
        (List.range s.globalDegree).map
          (fun k => (s.get a).getD ((s.get b).getD ((s.get c).getD k 0) 0) 0) := by
      rw [P4 _ (by omega), P3 _ (by omega), G2a]
    exact W4.get_inj R4 (by omega) (G4a.trans hold.symm)
  · by_cases hAid : a = s.identity
    · have hq1 : s.inverse a = (s.identity, s) := by
        unfold Repo.inverse
        rw [if_pos hAid]
      have hq2 : s.multiply a s.identity = (s.identity, s) := by
        unfold Repo.multiply
        rw [if_pos hAid]
      have hq3 : s.multiply s.identity a = (a, s) := by
        unfold Repo.multiply
        rw [if_pos rfl]
      rw [hq1]
      dsimp only
      rw [hq2]
      dsimp only
      rw [hq3]
      dsimp only
      exact ⟨rfl, hAid⟩
    · have hN : 0 < s.globalDegree := by
        by_contra hN0
        have hz : s.globalDegree = 0 := by omega
        have h1 : s.get a = s.get 0 := by
          apply List.ext_getElem (by rw [get_length, get_length])
          intro k hk hk2
          rw [get_length s a, hz] at hk
          exact absurd hk (by omega)
        have h2 := hs.get_inj ha hs.count_pos h1
        rw [hs.identity_eq] at hAid
        exact hAid h2
      have hinjB : ∀ k1 k2, k1 < s.globalDegree → k2 < s.globalDegree →
          s.permBuffer (a * s.globalDegree + k1) = s.permBuffer (a * s.globalDegree + k2) →
          k1 = k2 := by
        intro k1 k2 h1 h2 h3
        rw [← get_getD h1, ← get_getD h2] at h3
        exact nodup_getD_inj hna (by rw [get_length]; exact h1)
          (by rw [get_length]; exact h2) h3
      have hsurjB : ∀ j, j < s.globalDegree →
          ∃ k, k < s.globalDegree ∧ (s.get a).getD k 0 = j := by
        intro j hj
        have hmem : j ∈ s.get a := nodup_mem hna (get_length s a) (hs.get_vals ha) j hj
        obtain ⟨k, hk, hkj⟩ := List.getElem_of_mem hmem
        refine ⟨k, by rw [get_length s a] at hk; exact hk, ?_⟩
        rw [List.getD_eq_getElem _ _ hk]
        exact hkj
      obtain ⟨V1, E1, J1, M1, Q1, S1, H1⟩ := inverse_spec s a hs ha
      obtain ⟨W2, D2, I2, L2, P2, R2, G2⟩ :=
        multiply_spec (s.inverse a).2 a (s.inverse a).1 V1 (by omega) S1
      rw [E1, Q1 a ha, H1] at G2
      have hRid : ((s.inverse a).2.multiply a (s.inverse a).1).2.get
          ((s.inverse a).2.multiply a (s.inverse a).1).1 =
          List.range s.globalDegree := by
        rw [G2]
        calc (List.range s.globalDegree).map
              (fun k => (s.get a).getD
                (((List.range s.globalDegree).map
                  (invFillLoop s.permBuffer (a * s.globalDegree) s.globalDegree)).getD k 0) 0)
            = (List.range s.globalDegree).map (fun k => (List.range s.globalDegree).getD k 0) := by
              refine map_range_congr ?_
              intro k hk
              rw [getD_map_range _ hk, getD_range hk]
              obtain ⟨k0, hk0, hk0j⟩ := hsurjB k hk
              have hinv : invFillLoop s.permBuffer (a * s.globalDegree) s.globalDegree k = k0 := by
                rw [← hk0j, get_getD hk0]
                exact invFillLoop_eq s.permBuffer (a * s.globalDegree) s.globalDegree k0 hk0 hinjB
              rw [hinv, hk0j]
          _ = List.range s.globalDegree := map_range_getD_self (by simp)
      have hg0 : ((s.inverse a).2.multiply a (s.inverse a).1).2.get 0 =
          List.range s.globalDegree := by
        rw [P2 0 (by omega), Q1 0 hs.count_pos, hs.get_zero]
      have hfst : ((s.inverse a).2.multiply a (s.inverse a).1).1 = 0 :=
        W2.get_inj R2 (by omega) (hRid.trans hg0.symm)
      refine ⟨by rw [hfst, hs.identity_eq], ?_⟩
      obtain ⟨W3, D3, I3, L3, P3, R3, G3⟩ :=
        multiply_spec ((s.inverse a).2.multiply a (s.inverse a).1).2 (s.inverse a).1 a W2
          (by omega) (by omega)
      rw [D2, E1, P2 _ S1, H1, P2 a (by omega), Q1 a ha] at G3
      have hRid3 : (((s.inverse a).2.multiply a (s.inverse a).1).2.multiply
          (s.inverse a).1 a).2.get
          (((s.inverse a).2.multiply a (s.inverse a).1).2.multiply (s.inverse a).1 a).1 =
          List.range s.globalDegree := by
        rw [G3]
        calc (List.range s.globalDegree).map
              (fun k => ((List.range s.globalDegree).map
                  (invFillLoop s.permBuffer (a * s.globalDegree) s.globalDegree)).getD
                ((s.get a).getD k 0) 0)
            = (List.range s.globalDegree).map (fun k => (List.range s.globalDegree).getD k 0) := by
              refine map_range_congr ?_
              intro k hk
              rw [getD_map_range _ (hAv k hk), getD_range hk, get_getD hk]
              exact invFillLoop_eq s.permBuffer (a * s.globalDegree) s.globalDegree k hk hinjB
          _ = List.range s.globalDegree := map_range_getD_self (by simp)
      have hg03 : (((s.inverse a).2.multiply a (s.inverse a).1).2.multiply
          (s.inverse a).1 a).2.get 0 = List.range s.globalDegree := by
        rw [P3 0 (by omega), P2 0 (by omega), Q1 0 hs.count_pos, hs.get_zero]
      have hfst3 : (((s.inverse a).2.multiply a (s.inverse a).1).2.multiply
          (s.inverse a).1 a).1 = 0 :=
        W3.get_inj R3 (by omega) (hRid3.trans hg03.symm)
      rw [hfst3, hs.identity_eq]

theorem C2_group_laws_witness :
    ((Wf (((mkRepo 3).register [1,2,0]).2) ∧
      (((mkRepo 3).register [1,2,0]).2).count > 1 ∧
      ((((mkRepo 3).register [1,2,0]).2).get 1).Nodup)) ∧
    (let s := ((mkRepo 3).register [1,2,0]).2
     ((((s.multiply 1 1).2.multiply 1 (s.multiply 1 1).1).2.multiply 1 1).2.multiply
        (((s.multiply 1 1).2.multiply 1 (s.multiply 1 1).1).2.multiply 1 1).1 1).1 =
      ((s.multiply 1 1).2.multiply 1 (s.multiply 1 1).1).1 ∧
    ((s.inverse 1).2.multiply 1 (s.inverse 1).1).1 = s.identity ∧
    (((s.inverse 1).2.multiply 1 (s.inverse 1).1).2.multiply (s.inverse 1).1 1).1 =
      s.identity) :=
  ⟨⟨by decide, by decide, by decide⟩,
    C2_group_laws (((mkRepo 3).register [1,2,0]).2) 1 1 1 (by decide) (by decide) (by decide)
      (by decide) (by decide)⟩

/-! ## The set layer (group-engine.js, int-set-utils.js)

`PermutationSet` stores a sorted, duplicate-free `Int32Array` of interned IDs
plus an `isGroup` flag.  The engine's shared scratch buffer
(`_tempCompositionBuffer`) matters only for `inverse`, whose inner loop writes
`tempBuf[val] = k` and can leave stale entries at positions outside the image;
it is threaded explicitly there.  `multiply` overwrites every position
`k < N` of the scratch buffer before registering, so its result does not
depend on the incoming scratch contents and the buffer is not threaded
through it. -/

def updB (f : Nat → Bool) (i : Nat) (v : Bool) : Nat → Bool :=
  fun j => if j = i then v else f j

/-- `IntSetUtils.sortAndUnique`: ascending sort then adjacent dedup. -/
def dedupAdj : List Nat → List Nat
  | [] => []
  | [x] => [x]
  | x :: y :: ys => if x = y then dedupAdj (y :: ys) else x :: dedupAdj (y :: ys)

def sortList (l : List Nat) : List Nat := List.insertionSort (fun a b => a ≤ b) l

def sortAndUnique (l : List Nat) : List Nat := dedupAdj (sortList l)

/-- `IntSetUtils.union`: two-pointer merge of sorted unique arrays. -/
def setUnion : List Nat → List Nat → List Nat
  | [], b => b
  | a, [] => a
  | va :: as, vb :: bs =>
    if va < vb then va :: setUnion as (vb :: bs)
    else if vb < va then vb :: setUnion (va :: as) bs
    else va :: setUnion as bs
termination_by a b => a.length + b.length

/-- `IntSetUtils.intersection`: two-pointer merge. -/
def setIntersection : List Nat → List Nat → List Nat
  | [], _ => []
  | _, [] => []
  | va :: as, vb :: bs =>
    if va < vb then setIntersection as (vb :: bs)
    else if vb < va then setIntersection (va :: as) bs
    else va :: setIntersection as bs
termination_by a b => a.length + b.length

/-- `IntSetUtils.difference`: two-pointer merge. -/
def setDifference : List Nat → List Nat → List Nat
  | [], _ => []
  | a, [] => a
  | va :: as, vb :: bs =>
    if va < vb then va :: setDifference as (vb :: bs)
    else if vb < va then setDifference (va :: as) bs
    else setDifference as bs
termination_by a b => a.length + b.length

/-- `PermutationSet`: sorted unique ID array plus the `isGroup` flag. -/
structure PermSet where
  ids : List Nat
  isGroup : Bool
deriving DecidableEq

/-- The `PermutationSet(ids, isTrustedSortedUnique, isGroup)` constructor. -/
def mkPermSet (ids : List Nat) (isTrustedSortedUnique : Bool) (isGroup : Bool) : PermSet :=
  { ids := if isTrustedSortedUnique then ids else sortAndUnique ids, isGroup := isGroup }

def PermSet.union (A B : PermSet) : PermSet := mkPermSet (setUnion A.ids B.ids) true false

def PermSet.intersection (A B : PermSet) : PermSet :=
  mkPermSet (setIntersection A.ids B.ids) true (A.isGroup && B.isGroup)

def PermSet.difference (A B : PermSet) : PermSet :=
  mkPermSet (setDifference A.ids B.ids) true false

/-- `PermutationSet.identity()`. -/
def identityPermSet (s : Repo) : PermSet := mkPermSet [s.identity] true true

/-- The composition image `k ↦ A[B[k]]` read off the live permutation
buffer (set `multiply`'s inner `k`-loop writing the scratch buffer). -/
def compImage (s : Repo) (N idA idB : Nat) : List Nat :=
  (List.range N).map (fun k => s.permBuffer (idA * N + s.permBuffer (idB * N + k)))

/-- Register the compositions of an ordered list of (idA, idB) pairs,
threading the repository. -/
def regComps (N : Nat) : Repo → List (Nat × Nat) → List Nat × Repo
  | s, [] => ([], s)
  | s, (a, b) :: rest =>
    let pr := s.register (compImage s N a b)
    let rc := regComps N pr.2 rest
    (pr.1 :: rc.1, rc.2)

/-- The iteration order of set `multiply`: outer loop over the smaller
operand. -/
def setMultiplyPairs (idsA idsB : List Nat) : List (Nat × Nat) :=
  if idsA.length ≤ idsB.length then
    idsA.flatMap (fun a => idsB.map (fun b => (a, b)))
  else
    idsB.flatMap (fun b => idsA.map (fun a => (a, b)))

/-- `PermutationSet.multiply`. -/
def PermSet.multiply (s : Repo) (A B : PermSet) : PermSet × Repo :=
  if A.ids.length = 0 ∨ B.ids.length = 0 then (mkPermSet [] true false, s)
  else
    let pr := regComps s.globalDegree s (setMultiplyPairs A.ids B.ids)
    (mkPermSet pr.1 false false, pr.2)

/-- Set `inverse`'s inner loop: `tempBuf[p[k]] = k` for `k = 0..m-1` over the
incoming scratch contents. -/
def invWriteLoop (buf : Nat → Nat) (off : Nat) (tmp : Nat → Nat) : Nat → (Nat → Nat)
  | 0 => tmp
  | k+1 => updN (invWriteLoop buf off tmp k) (buf (off + k)) k

/-- Register the inverses of an ordered ID list, threading the repository and
the scratch buffer. -/
def regInvs (N : Nat) : Repo → (Nat → Nat) → List Nat → List Nat × Repo × (Nat → Nat)
  | s, tmp, [] => ([], s, tmp)
  | s, tmp, id :: rest =>
    let tmp2 := invWriteLoop s.permBuffer (id * N) tmp N
    let pr := s.register ((List.range N).map tmp2)
    let rc := regInvs N pr.2 tmp2 rest
    (pr.1 :: rc.1, rc.2)

/-- `PermutationSet.inverse`. -/
def PermSet.inverse (s : Repo) (tmp : Nat → Nat) (A : PermSet) :
    PermSet × Repo × (Nat → Nat) :=
  if A.ids.length = 0 then (mkPermSet [] true A.isGroup, s, tmp)
  else
    let pr := regInvs s.globalDegree s tmp A.ids
    (mkPermSet pr.1 false A.isGroup, pr.2)

/-- One BFS round of `calculateOrbit`: apply every ID of the set to the
current point, collecting unvisited images (out-of-bounds reads of the JS
`Uint8Array` compare unequal to 0 and are skipped). -/
def applyGens (s : Repo) (N curr : Nat) : List Nat → (Nat → Bool) → (Nat → Bool) × List Nat
  | [], visited => (visited, [])
  | id :: rest, visited =>
    let nxt := s.permBuffer (id * N + curr)
    let seen := if nxt < N then visited nxt else true
    if seen then applyGens s N curr rest visited
    else
      let pr := applyGens s N curr rest (updB visited nxt true)
      (pr.1, nxt :: pr.2)

/-- The BFS queue loop of `calculateOrbit` (`done` holds the processed prefix
of the JS `result` array, `pending` the rest). -/
def orbitBFS (s : Repo) (N : Nat) (ids : List Nat) :
    Nat → (Nat → Bool) → List Nat → List Nat → List Nat
  | 0, _, done, pending => done ++ pending
  | _+1, _, done, [] => done
  | fuel+1, visited, done, curr :: rest =>
    let pr := applyGens s N curr ids visited
    orbitBFS s N ids fuel pr.1 (done ++ [curr]) (rest ++ pr.2)

/-- `PermutationSet.calculateOrbit(point)`. -/
def PermSet.calculateOrbit (s : Repo) (A : PermSet) (point : Int) :
    Except String (List Nat) :=
  let N := s.globalDegree
  if point < 0 ∨ (N : Int) ≤ point then
    Except.error "Point out of bounds"
  else
    let p := point.toNat
    let res := orbitBFS s N A.ids (N + 1) (updB (fun _ => false) p true) [] [p]
    Except.ok (sortList res)

/-- The representative loop of `rightCosetDecomposition`; `count0` is the
size of the JS `visited` `Uint8Array` captured before any multiplication
(writes at indices beyond it are dropped, as in JS). -/
def cosetLoop (count0 : Nat) (H : PermSet) :
    List Nat → (Nat → Bool) → Repo → List PermSet × Repo
  | [], _, st => ([], st)
  | gId :: rest, visited, st =>
    if visited gId then cosetLoop count0 H rest visited st
    else
      let pr := PermSet.multiply st H (mkPermSet [gId] true false)
      let visited2 := pr.1.ids.foldl
        (fun v c => if c < count0 then updB v c true else v) visited
      let rc := cosetLoop count0 H rest visited2 pr.2
      (pr.1 :: rc.1, rc.2)

/-- `PermutationSet.rightCosetDecomposition(subgroupH)`. -/
def PermSet.rightCosetDecomposition (s : Repo) (G H : PermSet) :
    Except String (List PermSet × Repo) :=
  if G.ids.length < H.ids.length then
    Except.error "H cannot be larger than G."
  else
    Except.ok (cosetLoop s.count H G.ids (fun _ => false) s)

/-- The closure loop of `generateGroup`: multiply by the generators and merge
until the size stabilises. -/
def closureLoop (S : PermSet) : Nat → PermSet → Nat → Repo → PermSet × Repo
  | 0, group, _, st => (group, st)
  | fuel+1, group, lastSize, st =>
    if group.ids.length = lastSize then (group, st)
    else
      let pr := PermSet.multiply st group S
      closureLoop S fuel (group.union pr.1) group.ids.length pr.2

/-- `generateGroup(generators)` on a `PermutationSet` argument.  The fuel
`N^N + 2` dominates the loop count: the tracked size strictly grows until the
loop exits, and it is bounded by the number of distinct degree-`N` images. -/
def generateGroup (st : Repo) (tmp : Nat → Nat) (generators : PermSet) :
    PermSet × Repo × (Nat → Nat) :=
  if generators.isGroup then (generators, st, tmp)
  else
    let inv := PermSet.inverse st tmp generators
    let group0 := (generators.union inv.1).union (identityPermSet inv.2.1)
    let cl := closureLoop generators (st.globalDegree ^ st.globalDegree + 2) group0 0 inv.2.1
    ({ cl.1 with isGroup := true }, cl.2, inv.2.2)

/-- `generateGroup` on an `Array` argument (wrapped by the untrusted
constructor). -/
def generateGroupArr (st : Repo) (tmp : Nat → Nat) (arr : List Nat) :
    PermSet × Repo × (Nat → Nat) :=
  generateGroup st tmp (mkPermSet arr false false)

/-- C9: `generateGroup` trusts the caller-supplied `isGroup` flag: a set whose
flag is `true` is returned as-is — same set, untouched store and scratch
buffer — with no closure computation, even if the set is not actually closed
under multiplication. -/
theorem C9_generateGroup_trusts_flag (st : Repo) (tmp : Nat → Nat) (G : PermSet)
    (hG : G.isGroup = true) :
    generateGroup st tmp G = (G, st, tmp) := by
  unfold generateGroup
  rw [hG]
  rfl

theorem C9_generateGroup_trusts_flag_witness :
    (mkPermSet [1] true true).isGroup = true ∧
    generateGroup (((mkRepo 2).register [1,0]).2) (fun _ => 0) (mkPermSet [1] true true) =
      (mkPermSet [1] true true, ((mkRepo 2).register [1,0]).2, fun _ => 0) :=
  ⟨rfl, C9_generateGroup_trusts_flag (((mkRepo 2).register [1,0]).2) (fun _ => 0)
    (mkPermSet [1] true true) rfl⟩

/-- C10: `rightCosetDecomposition` throws exactly when `|H| > |G|`; no
subgroup or group check is performed, so any `H` within the size bound
produces a coset list without error. -/
theorem C10_coset_error_iff (s : Repo) (G H : PermSet) :
    (∃ e, PermSet.rightCosetDecomposition s G H = Except.error e) ↔
      G.ids.length < H.ids.length := by
  unfold PermSet.rightCosetDecomposition
  by_cases h : G.ids.length < H.ids.length
  · rw [if_pos h]
    exact ⟨fun _ => h, fun _ => ⟨_, rfl⟩⟩
  · rw [if_neg h]
    constructor
    · rintro ⟨e, he⟩
      cases he
    · intro hc
      exact absurd hc h

/-- The return value asserted by the orbit claim, following the spec text:
the one-step image set `{g(p) | g ∈ A} ∪ {p}`, sorted and
deduplicated. -/
def specOneStepOrbit (s : Repo) (A : PermSet) (p : Nat) : List Nat :=
  sortAndUnique (p :: A.ids.map (fun g => s.permBuffer (g * s.globalDegree + p)))

theorem C6_counterexample :
    PermSet.calculateOrbit (((mkRepo 3).register [1,2,0]).2) (mkPermSet [1] true false) 0 =
      Except.ok [0, 1, 2] ∧
    specOneStepOrbit (((mkRepo 3).register [1,2,0]).2) (mkPermSet [1] true false) 0 = [0, 1] ∧
    ([0, 1, 2] : List Nat) ≠ [0, 1] :=
  ⟨by rfl, by decide, by decide⟩

/-- Reachability of a point from `p` by repeatedly applying the images of the
listed IDs: the closure that the BFS of `calculateOrbit` actually computes. -/
inductive OrbitReach (s : Repo) (N : Nat) (ids : List Nat) (p : Nat) : Nat → Prop
  | base : OrbitReach s N ids p p
  | step : ∀ q g, OrbitReach s N ids p q → g ∈ ids →
      OrbitReach s N ids p (s.permBuffer (g * N + q))

theorem nodup_lt_length_le {l : List Nat} {N : Nat} (hn : l.Nodup) (hv : ∀ v ∈ l, v < N) :
    l.length ≤ N := by
  have hsub : l.toFinset ⊆ Finset.range N := by
    intro x hx
    rw [Finset.mem_range]
    exact hv x (List.mem_toFinset.mp hx)
  have hc := Finset.card_le_card hsub
  rw [List.toFinset_card_of_nodup hn, Finset.card_range] at hc
  exact hc

theorem applyGens_cons (s : Repo) (N curr g : Nat) (rest : List Nat) (visited : Nat → Bool) :
    applyGens s N curr (g :: rest) visited =
      (if (if s.permBuffer (g * N + curr) < N
           then visited (s.permBuffer (g * N + curr)) else true) = true
       then applyGens s N curr rest visited
       else
         ((applyGens s N curr rest (updB visited (s.permBuffer (g * N + curr)) true)).1,
          s.permBuffer (g * N + curr) ::
            (applyGens s N curr rest (updB visited (s.permBuffer (g * N + curr)) true)).2)) :=
  rfl

theorem applyGens_spec (s : Repo) (hs : Wf s) (curr : Nat)
    (hcurr : curr < s.globalDegree) :
    ∀ (gl : List Nat) (visited : Nat → Bool), (∀ g ∈ gl, g < s.count) →
    (∀ x, (applyGens s s.globalDegree curr gl visited).1 x = true ↔
      (visited x = true ∨ x ∈ (applyGens s s.globalDegree curr gl visited).2)) ∧
    (applyGens s s.globalDegree curr gl visited).2.Nodup ∧
    (∀ x ∈ (applyGens s s.globalDegree curr gl visited).2,
      visited x = false ∧ x < s.globalDegree ∧
      ∃ g ∈ gl, x = s.permBuffer (g * s.globalDegree + curr)) ∧
    (∀ g ∈ gl, s.permBuffer (g * s.globalDegree + curr) ∈
        (applyGens s s.globalDegree curr gl visited).2 ∨
      visited (s.permBuffer (g * s.globalDegree + curr)) = true) := by
  intro gl
  induction gl with
  | nil =>
    intro visited _
    refine ⟨fun x => by simp [applyGens], by simp [applyGens], ?_, ?_⟩
    · intro x hx
      simp [applyGens] at hx
    · intro g hg
      exact absurd hg (List.not_mem_nil g)
  | cons g rest ih =>
    intro visited hgl
    have hnxt : s.permBuffer (g * s.globalDegree + curr) < s.globalDegree :=
      hs.perm_range' (hgl g (List.mem_cons_self g rest)) hcurr
    have hrest : ∀ g0 ∈ rest, g0 < s.count :=
      fun g0 hg0 => hgl g0 (List.mem_cons_of_mem g hg0)
    rw [applyGens_cons, if_pos hnxt]
    by_cases hv : visited (s.permBuffer (g * s.globalDegree + curr)) = true
    · rw [if_pos hv]
      obtain ⟨i1, i2, i3, i4⟩ := ih visited hrest
      refine ⟨i1, i2, ?_, ?_⟩
      · intro x hx
        obtain ⟨a1, a2, g0, hg0, hx0⟩ := i3 x hx
        exact ⟨a1, a2, g0, List.mem_cons_of_mem g hg0, hx0⟩
      · intro g0 hg0
        rcases List.mem_cons.mp hg0 with rfl | hg0r
        · exact Or.inr hv
        · exact i4 g0 hg0r
    · rw [if_neg hv]
      have hvf : visited (s.permBuffer (g * s.globalDegree + curr)) = false :=
        Bool.eq_false_iff.mpr hv
      obtain ⟨i1, i2, i3, i4⟩ := ih (updB visited (s.permBuffer (g * s.globalDegree + curr)) true)
        hrest
      dsimp only
      refine ⟨?_, ?_, ?_, ?_⟩
      · intro x
        rw [i1 x]
        unfold updB
        by_cases hxe : x = s.permBuffer (g * s.globalDegree + curr)
        · subst hxe
          simp
        · rw [if_neg hxe]
          simp only [List.mem_cons]
          constructor
          · rintro (h | h)
            · exact Or.inl h
            · exact Or.inr (Or.inr h)
          · rintro (h | h | h)
            · exact Or.inl h
            · exact absurd h hxe
            · exact Or.inr h
      · rw [List.nodup_cons]
        refine ⟨fun hmem => ?_, i2⟩
        have := (i3 _ hmem).1
        unfold updB at this
        rw [if_pos rfl] at this
        cases this
      · intro x hx
        rcases List.mem_cons.mp hx with rfl | hxr
        · exact ⟨hvf, hnxt, g, List.mem_cons_self g rest, rfl⟩
        · obtain ⟨a1, a2, g0, hg0, hx0⟩ := i3 x hxr
          unfold updB at a1
          by_cases hxe : x = s.permBuffer (g * s.globalDegree + curr)
          · rw [if_pos hxe] at a1
            cases a1
          · rw [if_neg hxe] at a1
            exact ⟨a1, a2, g0, List.mem_cons_of_mem g hg0, hx0⟩
      · intro g0 hg0
        rcases List.mem_cons.mp hg0 with rfl | hg0r
        · exact Or.inl (List.mem_cons_self _ _)
        · rcases i4 g0 hg0r with h | h
          · exact Or.inl (List.mem_cons_of_mem _ h)
          · unfold updB at h
            by_cases hxe : s.permBuffer (g0 * s.globalDegree + curr) =
                s.permBuffer (g * s.globalDegree + curr)
            · rw [hxe]
              exact Or.inl (List.mem_cons_self _ _)
            · rw [if_neg hxe] at h
              exact Or.inr h

theorem orbitBFS_spec (s : Repo) (hs : Wf s) (ids : List Nat)
    (hids : ∀ g ∈ ids, g < s.count) (p : Nat) :
    ∀ (fuel : Nat) (visited : Nat → Bool) (done pending : List Nat),
    (∀ x, visited x = true ↔ (x ∈ done ∨ x ∈ pending)) →
    (done ++ pending).Nodup →
    (∀ x, (x ∈ done ∨ x ∈ pending) →
      x < s.globalDegree ∧ OrbitReach s s.globalDegree ids p x) →
    (∀ q ∈ done, ∀ g ∈ ids,
      s.permBuffer (g * s.globalDegree + q) ∈ done ∨
      s.permBuffer (g * s.globalDegree + q) ∈ pending) →
    s.globalDegree ≤ fuel + done.length →
    (orbitBFS s s.globalDegree ids fuel visited done pending).Nodup ∧
    (∀ x ∈ orbitBFS s s.globalDegree ids fuel visited done pending,
      x < s.globalDegree ∧ OrbitReach s s.globalDegree ids p x) ∧
    (∀ x, (x ∈ done ∨ x ∈ pending) →
      x ∈ orbitBFS s s.globalDegree ids fuel visited done pending) ∧
    (∀ q ∈ orbitBFS s s.globalDegree ids fuel visited done pending, ∀ g ∈ ids,
      s.permBuffer (g * s.globalDegree + q) ∈
        orbitBFS s s.globalDegree ids fuel visited done pending) := by
  intro fuel
  induction fuel with
  | zero =>
    intro visited done pending hvis hnd hsound hclosed hfuel
    rcases pending with _ | ⟨curr, rest⟩
    · have he : orbitBFS s s.globalDegree ids 0 visited done [] = done := List.append_nil done
      rw [he]
      rw [List.append_nil] at hnd
      refine ⟨hnd, ?_, ?_, ?_⟩
      · intro x hx
        exact hsound x (Or.inl hx)
      · intro x hx
        rcases hx with h | h
        · exact h
        · exact absurd h (List.not_mem_nil x)
      · intro q hq g hg
        rcases hclosed q hq g hg with h | h
        · exact h
        · exact absurd h (List.not_mem_nil _)
    · exfalso
      have hle : (done ++ curr :: rest).length ≤ s.globalDegree :=
        nodup_lt_length_le hnd (fun v hvm => (hsound v (by
          rcases List.mem_append.mp hvm with h | h
          · exact Or.inl h
          · exact Or.inr h)).1)
      rw [List.length_append, List.length_cons] at hle
      simp only [Nat.zero_add] at hfuel
      omega
  | succ fuel ih =>
    intro visited done pending hvis hnd hsound hclosed hfuel
    rcases pending with _ | ⟨curr, rest⟩
    · have he : orbitBFS s s.globalDegree ids (fuel+1) visited done [] = done := rfl
      rw [he]
      rw [List.append_nil] at hnd
      refine ⟨hnd, ?_, ?_, ?_⟩
      · intro x hx
        exact hsound x (Or.inl hx)
      · intro x hx
        rcases hx with h | h
        · exact h
        · exact absurd h (List.not_mem_nil x)
      · intro q hq g hg
        rcases hclosed q hq g hg with h | h
        · exact h
        · exact absurd h (List.not_mem_nil _)
    · have hcurr : curr < s.globalDegree :=
        (hsound curr (Or.inr (List.mem_cons_self curr rest))).1
      obtain ⟨a1, a2, a3, a4⟩ := applyGens_spec s hs curr hcurr ids visited hids
      have he : orbitBFS s s.globalDegree ids (fuel+1) visited done (curr :: rest) =
          orbitBFS s s.globalDegree ids fuel (applyGens s s.globalDegree curr ids visited).1
            (done ++ [curr]) (rest ++ (applyGens s s.globalDegree curr ids visited).2) := rfl
      rw [he]
      have hvis2 : ∀ x, (applyGens s s.globalDegree curr ids visited).1 x = true ↔
          (x ∈ done ++ [curr] ∨ x ∈ rest ++ (applyGens s s.globalDegree curr ids visited).2) := by
        intro x
        rw [a1 x, hvis x]
        simp only [List.mem_append, List.mem_cons, List.mem_singleton]
        tauto
      have hnd2 : ((done ++ [curr]) ++
          (rest ++ (applyGens s s.globalDegree curr ids visited).2)).Nodup := by
        have hshape : (done ++ [curr]) ++
            (rest ++ (applyGens s s.globalDegree curr ids visited).2) =
            (done ++ curr :: rest) ++ (applyGens s s.globalDegree curr ids visited).2 := by
          simp
        rw [hshape, List.nodup_append]
        refine ⟨hnd, a2, ?_⟩
        intro x hx hx2
        have hvf := (a3 x hx2).1
        have := (hvis x).mpr (by
          rcases List.mem_append.mp hx with h | h
          · exact Or.inl h
          · exact Or.inr h)
        rw [hvf] at this
        cases this
      have hsound2 : ∀ x, (x ∈ done ++ [curr] ∨
          x ∈ rest ++ (applyGens s s.globalDegree curr ids visited).2) →
          x < s.globalDegree ∧ OrbitReach s s.globalDegree ids p x := by
        intro x hx
        rcases hx with h | h
        · rcases List.mem_append.mp h with h2 | h2
          · exact hsound x (Or.inl h2)
          · rw [List.mem_singleton] at h2
            subst h2
            exact hsound x (Or.inr (List.mem_cons_self x rest))
        · rcases List.mem_append.mp h with h2 | h2
          · exact hsound x (Or.inr (List.mem_cons_of_mem curr h2))
          · obtain ⟨_, hb, g, hgm, hx0⟩ := a3 x h2
            subst hx0
            exact ⟨hb, OrbitReach.step curr g
              (hsound curr (Or.inr (List.mem_cons_self curr rest))).2 hgm⟩
      have hclosed2 : ∀ q ∈ done ++ [curr], ∀ g ∈ ids,
          s.permBuffer (g * s.globalDegree + q) ∈ done ++ [curr] ∨
          s.permBuffer (g * s.globalDegree + q) ∈
            rest ++ (applyGens s s.globalDegree curr ids visited).2 := by
        intro q hq g hg
        rcases List.mem_append.mp hq with hqd | hqc
        · rcases hclosed q hqd g hg with h | h
          · exact Or.inl (List.mem_append.mpr (Or.inl h))
          · rcases List.mem_cons.mp h with h2 | h2
            · rw [h2]
              exact Or.inl (List.mem_append.mpr (Or.inr (List.mem_singleton.mpr rfl)))
            · exact Or.inr (List.mem_append.mpr (Or.inl h2))
        · rw [List.mem_singleton] at hqc
          subst hqc
          rcases a4 g hg with h | h
          · exact Or.inr (List.mem_append.mpr (Or.inr h))
          · rcases (hvis _).mp h with h2 | h2
            · exact Or.inl (List.mem_append.mpr (Or.inl h2))
            · rcases List.mem_cons.mp h2 with h3 | h3
              · rw [h3]
                exact Or.inl (List.mem_append.mpr (Or.inr (List.mem_singleton.mpr rfl)))
              · exact Or.inr (List.mem_append.mpr (Or.inl h3))
      have hfuel2 : s.globalDegree ≤ fuel + (done ++ [curr]).length := by
        rw [List.length_append, List.length_singleton]
        omega
      obtain ⟨c1, c2, c3, c4⟩ := ih (applyGens s s.globalDegree curr ids visited).1
        (done ++ [curr]) (rest ++ (applyGens s s.globalDegree curr ids visited).2)
        hvis2 hnd2 hsound2 hclosed2 hfuel2
      refine ⟨c1, c2, ?_, c4⟩
      intro x hx
      refine c3 x ?_
      rcases hx with h | h
      · exact Or.inl (List.mem_append.mpr (Or.inl h))
      · rcases List.mem_cons.mp h with h2 | h2
        · rw [h2]
          exact Or.inl (List.mem_append.mpr (Or.inr (List.mem_singleton.mpr rfl)))
        · exact Or.inr (List.mem_append.mpr (Or.inl h2))

/-- C6 (amended): `calculateOrbit` throws exactly on out-of-range points, and
on success returns the strictly ascending list of all points reachable from
the start point by repeatedly applying the set's permutations — the BFS
closure, not merely the one-step image set claimed by the spec. -/
theorem C6_orbit_amended (s : Repo) (A : PermSet) (point : Int) (hs : Wf s)
    (hids : ∀ g ∈ A.ids, g < s.count) :
    ((∃ e, PermSet.calculateOrbit s A point = Except.error e) ↔
      (point < 0 ∨ (s.globalDegree : Int) ≤ point)) ∧
    (∀ l, PermSet.calculateOrbit s A point = Except.ok l →
      List.Sorted (fun a b => a < b) l ∧
      (∀ x, x ∈ l ↔ OrbitReach s s.globalDegree A.ids point.toNat x)) := by
  unfold PermSet.calculateOrbit
  by_cases hoob : point < 0 ∨ (s.globalDegree : Int) ≤ point
  · rw [if_pos hoob]
    exact ⟨⟨fun _ => hoob, fun _ => ⟨_, rfl⟩⟩, fun l hl => by cases hl⟩
  · rw [if_neg hoob]
    have hp : point.toNat < s.globalDegree := by
      push_neg at hoob
      omega
    have hvis0 : ∀ x, updB (fun _ => false) point.toNat true x = true ↔
        (x ∈ ([] : List Nat) ∨ x ∈ [point.toNat]) := by
      intro x
      unfold updB
      by_cases hxe : x = point.toNat
      · subst hxe
        simp
      · rw [if_neg hxe]
        simp [hxe]
    have hnd0 : (([] : List Nat) ++ [point.toNat]).Nodup := by simp
    have hsound0 : ∀ x, (x ∈ ([] : List Nat) ∨ x ∈ [point.toNat]) →
        x < s.globalDegree ∧ OrbitReach s s.globalDegree A.ids point.toNat x := by
      intro x hx
      rcases hx with h | h
      · exact absurd h (List.not_mem_nil x)
      · rw [List.mem_singleton] at h
        subst h
        exact ⟨hp, OrbitReach.base⟩
    have hclosed0 : ∀ q ∈ ([] : List Nat), ∀ g ∈ A.ids,
        s.permBuffer (g * s.globalDegree + q) ∈ ([] : List Nat) ∨
        s.permBuffer (g * s.globalDegree + q) ∈ [point.toNat] :=
      fun q hq => absurd hq (List.not_mem_nil q)
    have hfuel0 : s.globalDegree ≤ (s.globalDegree + 1) + ([] : List Nat).length := by
      simp
    obtain ⟨c1, c2, c3, c4⟩ := orbitBFS_spec s hs A.ids hids point.toNat
      (s.globalDegree + 1) (updB (fun _ => false) point.toNat true) [] [point.toNat]
      hvis0 hnd0 hsound0 hclosed0 hfuel0
    constructor
    · constructor
      · rintro ⟨e, he⟩
        cases he
      · intro h
        exact absurd h hoob
    · intro l hl
      have hle : sortList (orbitBFS s s.globalDegree A.ids (s.globalDegree + 1)
          (updB (fun _ => false) point.toNat true) [] [point.toNat]) = l :=
        congrArg (fun o => match o with | Except.ok v => v | Except.error _ => []) hl
      rw [← hle]
      have hperm : List.Perm (sortList (orbitBFS s s.globalDegree A.ids (s.globalDegree + 1)
          (updB (fun _ => false) point.toNat true) [] [point.toNat]))
          (orbitBFS s s.globalDegree A.ids (s.globalDegree + 1)
            (updB (fun _ => false) point.toNat true) [] [point.toNat]) :=
        List.perm_insertionSort _ _
      have hsle : List.Sorted (fun a b => a ≤ b) (sortList (orbitBFS s s.globalDegree A.ids
          (s.globalDegree + 1) (updB (fun _ => false) point.toNat true) [] [point.toNat])) :=
        List.sorted_insertionSort _ _
      have hndl : (sortList (orbitBFS s s.globalDegree A.ids (s.globalDegree + 1)
          (updB (fun _ => false) point.toNat true) [] [point.toNat])).Nodup :=
        hperm.nodup_iff.mpr c1
      refine ⟨List.Sorted.lt_of_le hsle hndl, ?_⟩
      intro x
      rw [hperm.mem_iff]
      constructor
      · intro hx
        exact (c2 x hx).2
      · intro hreach
        induction hreach with
        | base => exact c3 point.toNat (Or.inr (List.mem_singleton.mpr rfl))
        | step q g _ hg ihq => exact c4 q ihq g hg

theorem C6_orbit_amended_witness :
    ((Wf (((mkRepo 3).register [1,2,0]).2) ∧
      (∀ g ∈ (mkPermSet [1] true false).ids, g < (((mkRepo 3).register [1,2,0]).2).count))) ∧
    (((∃ e, PermSet.calculateOrbit (((mkRepo 3).register [1,2,0]).2)
          (mkPermSet [1] true false) 2 = Except.error e) ↔
        ((2:Int) < 0 ∨ (((((mkRepo 3).register [1,2,0]).2).globalDegree : Int) ≤ 2))) ∧
      (∀ l, PermSet.calculateOrbit (((mkRepo 3).register [1,2,0]).2)
          (mkPermSet [1] true false) 2 = Except.ok l →
        List.Sorted (fun a b => a < b) l ∧
        (∀ x, x ∈ l ↔ OrbitReach (((mkRepo 3).register [1,2,0]).2)
          ((((mkRepo 3).register [1,2,0]).2).globalDegree)
          (mkPermSet [1] true false).ids (Int.toNat 2) x))) :=
  ⟨⟨by decide, by decide⟩,
    C6_orbit_amended (((mkRepo 3).register [1,2,0]).2) (mkPermSet [1] true false) 2
      (by decide) (by decide)⟩

/-- Pointwise composition of image lists: `k ↦ A[B[k]]` at degree `N`. -/
def compList (N : Nat) (A B : List Nat) : List Nat :=
  (List.range N).map (fun k => A.getD (B.getD k 0) 0)

theorem getD_ext {A B : List Nat} {N : Nat} (hA : A.length = N) (hB : B.length = N)
    (h : ∀ k, k < N → A.getD k 0 = B.getD k 0) : A = B := by
  apply List.ext_getElem (by omega)
  intro k hk hk2
  rw [← List.getD_eq_getElem _ _ hk, ← List.getD_eq_getElem _ _ hk2]
  exact h k (by omega)

theorem Wf.getD_lt {s : Repo} (hs : Wf s) {a k : Nat} (ha : a < s.count)
    (hk : k < s.globalDegree) : (s.get a).getD k 0 < s.globalDegree := by
  rw [get_getD hk]
  exact hs.perm_range' ha hk

theorem compList_length (N : Nat) (A B : List Nat) : (compList N A B).length = N := by
  simp [compList]

theorem compList_getD {N k : Nat} (A B : List Nat) (hk : k < N) :
    (compList N A B).getD k 0 = A.getD (B.getD k 0) 0 :=
  getD_map_range _ hk

/-- Associativity of image composition (the outer index stays in range). -/
theorem compList_assoc {N : Nat} {A B C : List Nat}
    (hC : ∀ k, k < N → C.getD k 0 < N) :
    compList N (compList N A B) C = compList N A (compList N B C) := by
  refine map_range_congr ?_
  intro k hk
  rw [compList_getD _ _ (hC k hk), compList_getD _ _ hk]

theorem compList_id_left {N : Nat} {B : List Nat} (hlen : B.length = N)
    (hB : ∀ k, k < N → B.getD k 0 < N) :
    compList N (List.range N) B = B := by
  calc compList N (List.range N) B
      = (List.range N).map (fun k => B.getD k 0) :=
        map_range_congr (fun k hk => getD_range (hB k hk))
    _ = B := map_range_getD_self hlen

theorem compList_id_right {N : Nat} {A : List Nat} (hlen : A.length = N) :
    compList N A (List.range N) = A := by
  calc compList N A (List.range N)
      = (List.range N).map (fun k => A.getD k 0) :=
        map_range_congr (fun k hk => by rw [getD_range hk])
    _ = A := map_range_getD_self hlen

/-- Right cancellation: composing with a fixed duplicate-free (hence
surjective) image on the right is injective on interned IDs. -/
theorem comp_right_cancel (s : Repo) (hs : Wf s) {g h₁ h₂ : Nat}
    (hg : g < s.count) (h1 : h₁ < s.count) (h2 : h₂ < s.count)
    (hgnd : (s.get g).Nodup)
    (heq : compList s.globalDegree (s.get h₁) (s.get g) =
           compList s.globalDegree (s.get h₂) (s.get g)) :
    h₁ = h₂ := by
  have hsurj : ∀ j, j < s.globalDegree → ∃ k, k < s.globalDegree ∧ (s.get g).getD k 0 = j := by
    intro j hj
    have hmem : j ∈ s.get g := nodup_mem hgnd (get_length s g) (hs.get_vals hg) j hj
    obtain ⟨k, hk, hkj⟩ := List.getElem_of_mem hmem
    refine ⟨k, by rw [get_length s g] at hk; exact hk, ?_⟩
    rw [List.getD_eq_getElem _ _ hk]
    exact hkj
  have hpt : ∀ j, j < s.globalDegree → (s.get h₁).getD j 0 = (s.get h₂).getD j 0 := by
    intro j hj
    obtain ⟨k, hk, hkj⟩ := hsurj j hj
    have := congrArg (fun l => l.getD k 0) heq
    dsimp only at this
    rw [compList_getD _ _ hk, compList_getD _ _ hk, hkj] at this
    exact this
  exact hs.get_inj h1 h2 (getD_ext (get_length s h₁) (get_length s h₂) hpt)

theorem dedupAdj_cons_cons (x y : Nat) (ys : List Nat) :
    dedupAdj (x :: y :: ys) =
      (if x = y then dedupAdj (y :: ys) else x :: dedupAdj (y :: ys)) := rfl

theorem mem_dedupAdj : ∀ (l : List Nat) (x : Nat), x ∈ dedupAdj l ↔ x ∈ l := by
  intro l
  induction l with
  | nil => intro x; rfl
  | cons a as ih =>
    intro x
    rcases as with _ | ⟨b, bs⟩
    · rfl
    · rw [dedupAdj_cons_cons]
      by_cases hab : a = b
      · rw [if_pos hab, ih x]
        subst hab
        simp
      · rw [if_neg hab]
        simp only [List.mem_cons] at ih ⊢
        rw [ih x]

theorem sorted_dedupAdj : ∀ (l : List Nat),
    List.Sorted (fun a b => a ≤ b) l → List.Sorted (fun a b => a < b) (dedupAdj l) := by
  intro l
  induction l with
  | nil => intro _; exact List.sorted_nil
  | cons a as ih =>
    intro hs
    rcases as with _ | ⟨b, bs⟩
    · exact List.sorted_singleton a
    · rw [List.sorted_cons] at hs
      obtain ⟨hall, hrest⟩ := hs
      rw [dedupAdj_cons_cons]
      by_cases hab : a = b
      · rw [if_pos hab]
        exact ih hrest
      · rw [if_neg hab]
        rw [List.sorted_cons]
        refine ⟨?_, ih hrest⟩
        intro c hc
        rw [mem_dedupAdj] at hc
        rcases List.mem_cons.mp hc with rfl | hcs
        · exact lt_of_le_of_ne (hall c (List.mem_cons_self c bs)) hab
        · have hbc : b ≤ c := by
            rw [List.sorted_cons] at hrest
            exact hrest.1 c hcs
          have hb : a ≤ b := hall b (List.mem_cons_self b bs)
          omega

theorem dedupAdj_eq_self : ∀ (l : List Nat),
    List.Sorted (fun a b => a < b) l → dedupAdj l = l := by
  intro l
  induction l with
  | nil => intro _; rfl
  | cons a as ih =>
    intro hs
    rcases as with _ | ⟨b, bs⟩
    · rfl
    · rw [List.sorted_cons] at hs
      obtain ⟨hall, hrest⟩ := hs
      rw [dedupAdj_cons_cons,
        if_neg (Nat.ne_of_lt (hall b (List.mem_cons_self b bs))), ih hrest]

theorem mem_sortAndUnique (l : List Nat) (x : Nat) : x ∈ sortAndUnique l ↔ x ∈ l := by
  unfold sortAndUnique
  rw [mem_dedupAdj]
  exact (List.perm_insertionSort _ l).mem_iff

theorem sorted_sortAndUnique (l : List Nat) :
    List.Sorted (fun a b => a < b) (sortAndUnique l) :=
  sorted_dedupAdj _ (List.sorted_insertionSort _ l)

theorem nodup_sortAndUnique (l : List Nat) : (sortAndUnique l).Nodup :=
  (sorted_sortAndUnique l).nodup

theorem sortAndUnique_perm_of_nodup {l : List Nat} (hn : l.Nodup) :
    List.Perm (sortAndUnique l) l := by
  unfold sortAndUnique sortList
  have hperm := List.perm_insertionSort (fun a b => a ≤ b) l
  rw [dedupAdj_eq_self _ ((List.sorted_insertionSort _ l).lt_of_le
    (hperm.nodup_iff.mpr hn))]
  exact hperm

theorem foldl_mark_spec (count0 : Nat) :
    ∀ (L : List Nat) (v : Nat → Bool), (∀ c ∈ L, c < count0) →
    ∀ x, (L.foldl (fun v2 c => if c < count0 then updB v2 c true else v2) v) x = true ↔
      (v x = true ∨ x ∈ L) := by
  intro L
  induction L with
  | nil =>
    intro v _ x
    simp [List.foldl]
  | cons c cs ih =>
    intro v hall x
    rw [List.foldl_cons, if_pos (hall c (List.mem_cons_self c cs)),
      ih (updB v c true) (fun c2 hc2 => hall c2 (List.mem_cons_of_mem c hc2)) x]
    unfold updB
    by_cases hxc : x = c
    · subst hxc
      simp
    · rw [if_neg hxc]
      simp only [List.mem_cons]
      tauto

theorem compImage_eq_compList (s : Repo) (hs : Wf s) {a b : Nat}
    (hb : b < s.count) :
    compImage s s.globalDegree a b = compList s.globalDegree (s.get a) (s.get b) := by
  refine map_range_congr ?_
  intro k hk
  have h1 : s.permBuffer (b * s.globalDegree + k) < s.globalDegree := hs.perm_range' hb hk
  rw [get_getD hk, get_getD h1]

theorem regComps_cons (N : Nat) (s : Repo) (a b : Nat) (rest : List (Nat × Nat)) :
    regComps N s ((a, b) :: rest) =
      ((s.register (compImage s N a b)).1 ::
        (regComps N (s.register (compImage s N a b)).2 rest).1,
       (regComps N (s.register (compImage s N a b)).2 rest).2) := rfl

theorem regComps_singleton_spec (s : Repo) (hs : Wf s) (g : Nat) (hg : g < s.count)
    (hgnd : (s.get g).Nodup) :
    ∀ (hl : List Nat),
    (∀ h ∈ hl, h < s.count ∧
      ∃ c, c < s.count ∧ s.get c = compList s.globalDegree (s.get h) (s.get g)) →
    (regComps s.globalDegree s (hl.map (fun a => (a, g)))).2 = s ∧
    (regComps s.globalDegree s (hl.map (fun a => (a, g)))).1.length = hl.length ∧
    (∀ x ∈ (regComps s.globalDegree s (hl.map (fun a => (a, g)))).1, x < s.count ∧
      ∃ h ∈ hl, s.get x = compList s.globalDegree (s.get h) (s.get g)) ∧
    (∀ h ∈ hl, ∀ c, c < s.count →
      s.get c = compList s.globalDegree (s.get h) (s.get g) →
      c ∈ (regComps s.globalDegree s (hl.map (fun a => (a, g)))).1) ∧
    (hl.Nodup → (regComps s.globalDegree s (hl.map (fun a => (a, g)))).1.Nodup) := by
  intro hl
  induction hl with
  | nil =>
    intro _
    refine ⟨rfl, rfl, ?_, ?_, fun _ => List.nodup_nil⟩
    · intro x hx
      exact absurd hx (List.not_mem_nil x)
    · intro h hh
      exact absurd hh (List.not_mem_nil h)
  | cons h tl ih =>
    intro hall
    obtain ⟨hhc, c, hc, hgc⟩ := hall h (List.mem_cons_self h tl)
    have hreg : s.register (compImage s s.globalDegree h g) = (c, s) := by
      refine register_found_eq hs (by simp [compImage]) hc ?_
      rw [padTo_eq_self (by simp [compImage] : (compImage s s.globalDegree h g).length = _),
        compImage_eq_compList s hs hg, hgc]
    obtain ⟨i1, i2, i3, i4, i5⟩ := ih (fun h2 hh2 => hall h2 (List.mem_cons_of_mem h hh2))
    rw [List.map_cons, regComps_cons, hreg]
    dsimp only
    refine ⟨i1, by rw [List.length_cons, i2, List.length_cons], ?_, ?_, ?_⟩
    · intro x hx
      rcases List.mem_cons.mp hx with rfl | hxr
      · exact ⟨hc, h, List.mem_cons_self h tl, hgc⟩
      · obtain ⟨hb, h2, hh2, heq2⟩ := i3 x hxr
        exact ⟨hb, h2, List.mem_cons_of_mem h hh2, heq2⟩
    · intro h2 hh2 c2 hc2 heq2
      rcases List.mem_cons.mp hh2 with rfl | hh2r
      · have : c2 = c := hs.get_inj hc2 hc (heq2.trans hgc.symm)
        rw [this]
        exact List.mem_cons_self c _
      · exact List.mem_cons_of_mem c (i4 h2 hh2r c2 hc2 heq2)
    · intro hnd
      rw [List.nodup_cons] at hnd ⊢
      refine ⟨fun hmem => ?_, i5 hnd.2⟩
      obtain ⟨_, h2, hh2, heq2⟩ := i3 c hmem
      have hhh : h = h2 := comp_right_cancel s hs hg hhc
        (hall h2 (List.mem_cons_of_mem h hh2)).1 hgnd (hgc.symm.trans heq2)
      rw [hhh] at hnd
      exact hnd.1 hh2

theorem flatMap_pair_singleton (A : List Nat) (b : Nat) :
    (A.flatMap fun a => [(a, b)]) = A.map (fun a => (a, b)) := by
  induction A with
  | nil => rfl
  | cons a as ihA =>
    rw [List.flatMap_cons, ihA]
    rfl

theorem setMultiplyPairs_singleton (A : List Nat) (b : Nat) :
    setMultiplyPairs A [b] = A.map (fun a => (a, b)) := by
  unfold setMultiplyPairs
  by_cases h : A.length ≤ ([b] : List Nat).length
  · rw [if_pos h]
    show (A.flatMap fun a => [(a, b)]) = _
    exact flatMap_pair_singleton A b
  · rw [if_neg h]
    simp

theorem multiply_singleton_spec (s : Repo) (hs : Wf s) (H : PermSet) (g : Nat)
    (hg : g < s.count) (hHne : H.ids ≠ []) (hHnd : H.ids.Nodup)
    (hgnd : (s.get g).Nodup)
    (hall : ∀ h ∈ H.ids, h < s.count ∧
      ∃ c, c < s.count ∧ s.get c = compList s.globalDegree (s.get h) (s.get g)) :
    (PermSet.multiply s H (mkPermSet [g] true false)).2 = s ∧
    (PermSet.multiply s H (mkPermSet [g] true false)).1.ids.length = H.ids.length ∧
    (∀ x ∈ (PermSet.multiply s H (mkPermSet [g] true false)).1.ids, x < s.count ∧
      ∃ h ∈ H.ids, s.get x = compList s.globalDegree (s.get h) (s.get g)) ∧
    (∀ h ∈ H.ids, ∀ c, c < s.count →
      s.get c = compList s.globalDegree (s.get h) (s.get g) →
      c ∈ (PermSet.multiply s H (mkPermSet [g] true false)).1.ids) := by
  obtain ⟨r1, r2, r3, r4, r5⟩ := regComps_singleton_spec s hs g hg hgnd H.ids hall
  have hne0 : ¬ (H.ids.length = 0 ∨ (mkPermSet [g] true false).ids.length = 0) := by
    rintro (h0 | h0)
    · exact hHne (List.length_eq_zero.mp h0)
    · cases h0
  have hmul : PermSet.multiply s H (mkPermSet [g] true false) =
      (mkPermSet (regComps s.globalDegree s
        (setMultiplyPairs H.ids (mkPermSet [g] true false).ids)).1 false false,
       (regComps s.globalDegree s
        (setMultiplyPairs H.ids (mkPermSet [g] true false).ids)).2) := by
    unfold PermSet.multiply
    rw [if_neg hne0]
  have hids : (mkPermSet [g] true false).ids = [g] := rfl
  rw [hmul, hids, setMultiplyPairs_singleton]
  dsimp only
  have hperm := sortAndUnique_perm_of_nodup (r5 hHnd)
  have hsu : (mkPermSet (regComps s.globalDegree s
      (H.ids.map (fun a => (a, g)))).1 false false).ids =
      sortAndUnique (regComps s.globalDegree s (H.ids.map (fun a => (a, g)))).1 := rfl
  refine ⟨r1, ?_, ?_, ?_⟩
  · rw [hsu, hperm.length_eq, r2]
  · intro x hx
    rw [hsu, mem_sortAndUnique] at hx
    exact r3 x hx
  · intro h hh c hc heq
    rw [hsu, mem_sortAndUnique]
    exact r4 h hh c hc heq

theorem cosetLoop_cons (count0 : Nat) (H : PermSet) (gId : Nat) (rest : List Nat)
    (visited : Nat → Bool) (st : Repo) :
    cosetLoop count0 H (gId :: rest) visited st =
      (if visited gId = true then cosetLoop count0 H rest visited st
       else
        ((PermSet.multiply st H (mkPermSet [gId] true false)).1 ::
          (cosetLoop count0 H rest
            ((PermSet.multiply st H (mkPermSet [gId] true false)).1.ids.foldl
              (fun v c => if c < count0 then updB v c true else v) visited)
            (PermSet.multiply st H (mkPermSet [gId] true false)).2).1,
         (cosetLoop count0 H rest
            ((PermSet.multiply st H (mkPermSet [gId] true false)).1.ids.foldl
              (fun v c => if c < count0 then updB v c true else v) visited)
            (PermSet.multiply st H (mkPermSet [gId] true false)).2).2)) := rfl

theorem cosetLoop_spec (s : Repo) (hs : Wf s) (G H : PermSet)
    (hGv : ∀ g ∈ G.ids, g < s.count)
    (hGndAll : ∀ g ∈ G.ids, (s.get g).Nodup)
    (hHnd : H.ids.Nodup)
    (hHne : H.ids ≠ [])
    (hHv : ∀ h ∈ H.ids, h < s.count)
    (hprod : ∀ g ∈ G.ids, ∀ h ∈ H.ids, ∃ c ∈ G.ids,
      s.get c = compList s.globalDegree (s.get h) (s.get g))
    (hrefl : ∀ x ∈ G.ids, ∃ h ∈ H.ids,
      s.get x = compList s.globalDegree (s.get h) (s.get x))
    (hsymm : ∀ x ∈ G.ids, ∀ y ∈ G.ids,
      (∃ h ∈ H.ids, s.get y = compList s.globalDegree (s.get h) (s.get x)) →
      (∃ h ∈ H.ids, s.get x = compList s.globalDegree (s.get h) (s.get y)))
    (htrans : ∀ x ∈ G.ids, ∀ y ∈ G.ids, ∀ z ∈ G.ids,
      (∃ h ∈ H.ids, s.get y = compList s.globalDegree (s.get h) (s.get x)) →
      (∃ h ∈ H.ids, s.get z = compList s.globalDegree (s.get h) (s.get y)) →
      (∃ h ∈ H.ids, s.get z = compList s.globalDegree (s.get h) (s.get x))) :
    ∀ (rem : List Nat) (visited : Nat → Bool),
    (∀ x ∈ rem, x ∈ G.ids) →
    (∀ x, visited x = true → x ∈ G.ids) →
    (∀ x, visited x = true → ∀ y ∈ G.ids,
      (∃ h ∈ H.ids, s.get y = compList s.globalDegree (s.get h) (s.get x)) →
      visited y = true) →
    (cosetLoop s.count H rem visited s).2 = s ∧
    (∀ C ∈ (cosetLoop s.count H rem visited s).1,
      C.ids.length = H.ids.length ∧
      (∀ x ∈ C.ids, x ∈ G.ids ∧ visited x = false)) ∧
    (∀ g ∈ rem, visited g = false →
      ∃ C ∈ (cosetLoop s.count H rem visited s).1, g ∈ C.ids) ∧
    List.Pairwise (fun C D => ∀ x, x ∈ C.ids → x ∉ D.ids)
      (cosetLoop s.count H rem visited s).1 ∧
    (∀ g0 rem2, rem = g0 :: rem2 → visited g0 = false →
      ∃ C0 crest, (cosetLoop s.count H rem visited s).1 = C0 :: crest ∧ g0 ∈ C0.ids) := by
  intro rem
  induction rem with
  | nil =>
    intro visited _ _ _
    refine ⟨rfl, ?_, ?_, List.Pairwise.nil, ?_⟩
    · intro C hC
      exact absurd hC (List.not_mem_nil C)
    · intro g hg
      exact absurd hg (List.not_mem_nil g)
    · intro g0 rem2 heq
      cases heq
  | cons gId rest ih =>
    intro visited hremG hvisG hvisClosed
    rw [cosetLoop_cons]
    by_cases hvg : visited gId = true
    · rw [if_pos hvg]
      obtain ⟨j1, j2, j3, j4, j5⟩ := ih visited
        (fun x hx => hremG x (List.mem_cons_of_mem gId hx)) hvisG hvisClosed
      refine ⟨j1, j2, ?_, j4, ?_⟩
      · intro g hg hgf
        rcases List.mem_cons.mp hg with rfl | hgr
        · rw [hvg] at hgf
          cases hgf
        · exact j3 g hgr hgf
      · intro g0 rem2 heq hg0f
        have : g0 = gId := by
          injection heq with h1 _
          exact h1.symm
        rw [this, hvg] at hg0f
        cases hg0f
    · rw [if_neg hvg]
      have hgG : gId ∈ G.ids := hremG gId (List.mem_cons_self gId rest)
      have hgc : gId < s.count := hGv gId hgG
      have hgnd : (s.get gId).Nodup := hGndAll gId hgG
      have hall : ∀ h ∈ H.ids, h < s.count ∧
          ∃ c, c < s.count ∧ s.get c = compList s.globalDegree (s.get h) (s.get gId) := by
        intro h hh
        obtain ⟨c, hcG, hceq⟩ := hprod gId hgG h hh
        exact ⟨hHv h hh, c, hGv c hcG, hceq⟩
      obtain ⟨m1, m2, m3, m4⟩ := multiply_singleton_spec s hs H gId hgc hHne hHnd hgnd hall
      -- membership characterisation of the emitted coset
      have hchar : ∀ x, x ∈ (PermSet.multiply s H (mkPermSet [gId] true false)).1.ids ↔
          (x ∈ G.ids ∧ ∃ h ∈ H.ids,
            s.get x = compList s.globalDegree (s.get h) (s.get gId)) := by
        intro x
        constructor
        · intro hx
          obtain ⟨hxc, h, hh, hxeq⟩ := m3 x hx
          obtain ⟨c, hcG, hceq⟩ := hprod gId hgG h hh
          have : x = c := hs.get_inj hxc (hGv c hcG) (hxeq.trans hceq.symm)
          exact ⟨this ▸ hcG, h, hh, hxeq⟩
        · rintro ⟨hxG, h, hh, hxeq⟩
          exact m4 h hh x (hGv x hxG) hxeq
      have hfresh : ∀ x ∈ (PermSet.multiply s H (mkPermSet [gId] true false)).1.ids,
          visited x = false := by
        intro x hx
        obtain ⟨hxG, hrel⟩ := (hchar x).mp hx
        by_contra hvx
        have hvx2 : visited x = true := by
          rcases Bool.eq_false_or_eq_true (visited x) with h2 | h2
          · exact h2
          · exact absurd h2 hvx
        have hback := hsymm gId hgG x hxG hrel
        exact hvg (hvisClosed x hvx2 gId hgG hback)
      have hmark := foldl_mark_spec s.count
        (PermSet.multiply s H (mkPermSet [gId] true false)).1.ids visited
        (fun c hc => (m3 c hc).1)
      -- the recursive call runs on the unchanged store
      rw [m1]
      obtain ⟨j1, j2, j3, j4, j5⟩ := ih
        ((PermSet.multiply s H (mkPermSet [gId] true false)).1.ids.foldl
          (fun v c => if c < s.count then updB v c true else v) visited)
        (fun x hx => hremG x (List.mem_cons_of_mem gId hx))
        (by
          intro x hx
          rcases ((hmark x).mp hx) with h2 | h2
          · exact hvisG x h2
          · exact ((hchar x).mp h2).1)
        (by
          intro x hx y hyG hrel
          rw [hmark y]
          rcases ((hmark x).mp hx) with h2 | h2
          · exact Or.inl (hvisClosed x h2 y hyG hrel)
          · obtain ⟨hxG, hrelg⟩ := (hchar x).mp h2
            exact Or.inr ((hchar y).mpr ⟨hyG, htrans gId hgG x hxG y hyG hrelg hrel⟩))
      dsimp only
      refine ⟨j1, ?_, ?_, ?_, ?_⟩
      · intro C hC
        rcases List.mem_cons.mp hC with rfl | hCr
        · exact ⟨m2, fun x hx => ⟨((hchar x).mp hx).1, hfresh x hx⟩⟩
        · obtain ⟨hlen, hmem⟩ := j2 C hCr
          refine ⟨hlen, ?_⟩
          intro x hx
          obtain ⟨hxG, hxf⟩ := hmem x hx
          refine ⟨hxG, ?_⟩
          rcases Bool.eq_false_or_eq_true (visited x) with h2 | h2
          · exact absurd ((hmark x).mpr (Or.inl h2))
              (Bool.eq_false_iff.mp hxf)
          · exact h2
      · intro g hg hgf
        rcases List.mem_cons.mp hg with hgid | hgr
        · refine ⟨(PermSet.multiply s H (mkPermSet [gId] true false)).1,
            List.mem_cons_self _ _, ?_⟩
          rw [hgid]
          exact (hchar gId).mpr ⟨hgG, hrefl gId hgG⟩
        · by_cases hgin : g ∈ (PermSet.multiply s H (mkPermSet [gId] true false)).1.ids
          · exact ⟨(PermSet.multiply s H (mkPermSet [gId] true false)).1,
              List.mem_cons_self _ _, hgin⟩
          · have hgf2 : ((PermSet.multiply s H (mkPermSet [gId] true false)).1.ids.foldl
                (fun v c => if c < s.count then updB v c true else v) visited) g = false := by
              rcases Bool.eq_false_or_eq_true (((PermSet.multiply s H
                  (mkPermSet [gId] true false)).1.ids.foldl
                  (fun v c => if c < s.count then updB v c true else v) visited) g)
                with h2 | h2
              · rcases (hmark g).mp h2 with h3 | h3
                · rw [h3] at hgf
                  cases hgf
                · exact absurd h3 hgin
              · exact h2
            obtain ⟨C, hC, hgC⟩ := j3 g hgr hgf2
            exact ⟨C, List.mem_cons_of_mem _ hC, hgC⟩
      · rw [List.pairwise_cons]
        refine ⟨?_, j4⟩
        intro D hD x hxC hxD
        obtain ⟨_, hmem⟩ := j2 D hD
        have hfalse := (hmem x hxD).2
        have htrue := (hmark x).mpr (Or.inr hxC)
        rw [htrue] at hfalse
        cases hfalse
      · intro g0 rem2 heq _
        have hg0 : g0 = gId := by
          injection heq with h1 _
          exact h1.symm
        refine ⟨(PermSet.multiply s H (mkPermSet [gId] true false)).1, _, rfl, ?_⟩
        rw [hg0]
        exact (hchar gId).mpr ⟨hgG, hrefl gId hgG⟩

/-- C5: for a store-backed set `G` that is genuinely a group (its IDs are
interned genuine permutations, closed under image composition) and a subgroup
`H` of `G` (a subset closed under composition, with inverses and the identity),
`rightCosetDecomposition` succeeds without touching the store and returns
cosets that are pairwise disjoint, are contained in and jointly cover `G`,
each have exactly `|H|` elements, and start with the coset of the first
(smallest, as the IDs are ascending) element of `G`. -/
theorem C5_coset_partition (s : Repo) (G H : PermSet) (hs : Wf s)
    (hGv : ∀ g ∈ G.ids, g < s.count)
    (hGsorted : List.Sorted (fun a b => a < b) G.ids)
    (hHsorted : List.Sorted (fun a b => a < b) H.ids)
    (hGnd : ∀ g ∈ G.ids, (s.get g).Nodup)
    (hGmul : ∀ a ∈ G.ids, ∀ b ∈ G.ids, ∃ c ∈ G.ids,
      s.get c = compList s.globalDegree (s.get a) (s.get b))
    (hHG : ∀ h ∈ H.ids, h ∈ G.ids)
    (hHmul : ∀ a ∈ H.ids, ∀ b ∈ H.ids, ∃ c ∈ H.ids,
      s.get c = compList s.globalDegree (s.get a) (s.get b))
    (hHinv : ∀ a ∈ H.ids, ∃ b ∈ H.ids,
      compList s.globalDegree (s.get b) (s.get a) = List.range s.globalDegree)
    (hHid : s.identity ∈ H.ids) :
    ∃ cosets,
      PermSet.rightCosetDecomposition s G H = Except.ok (cosets, s) ∧
      (∀ C ∈ cosets, C.ids.length = H.ids.length) ∧
      (∀ C ∈ cosets, ∀ x ∈ C.ids, x ∈ G.ids) ∧
      (∀ g ∈ G.ids, ∃ C ∈ cosets, g ∈ C.ids) ∧
      List.Pairwise (fun C D => ∀ x, x ∈ C.ids → x ∉ D.ids) cosets ∧
      (∀ g0 rem2, G.ids = g0 :: rem2 →
        ∃ C0 crest, cosets = C0 :: crest ∧ g0 ∈ C0.ids) := by
  have hHv : ∀ h ∈ H.ids, h < s.count := fun h hh => hGv h (hHG h hh)
  have hHndids : H.ids.Nodup := hHsorted.nodup
  have hGndids : G.ids.Nodup := hGsorted.nodup
  have hHne : H.ids ≠ [] := fun he => absurd (he ▸ hHid) (List.not_mem_nil _)
  have hsize : ¬ G.ids.length < H.ids.length := by
    have hsub : H.ids.toFinset ⊆ G.ids.toFinset := by
      intro x hx
      exact List.mem_toFinset.mpr (hHG x (List.mem_toFinset.mp hx))
    have hcard := Finset.card_le_card hsub
    rw [List.toFinset_card_of_nodup hHndids, List.toFinset_card_of_nodup hGndids] at hcard
    omega
  have hrefl : ∀ x ∈ G.ids, ∃ h ∈ H.ids,
      s.get x = compList s.globalDegree (s.get h) (s.get x) := by
    intro x hx
    refine ⟨s.identity, hHid, ?_⟩
    rw [hs.identity_eq, hs.get_zero,
      compList_id_left (get_length s x) (fun k hk => hs.getD_lt (hGv x hx) hk)]
  have hsymm : ∀ x ∈ G.ids, ∀ y ∈ G.ids,
      (∃ h ∈ H.ids, s.get y = compList s.globalDegree (s.get h) (s.get x)) →
      (∃ h ∈ H.ids, s.get x = compList s.globalDegree (s.get h) (s.get y)) := by
    intro x hx y hy hrel
    obtain ⟨h, hh, hyeq⟩ := hrel
    obtain ⟨b, hb, hbinv⟩ := hHinv h hh
    refine ⟨b, hb, ?_⟩
    rw [hyeq, ← compList_assoc (fun k hk => hs.getD_lt (hGv x hx) hk), hbinv,
      compList_id_left (get_length s x) (fun k hk => hs.getD_lt (hGv x hx) hk)]
  have htrans : ∀ x ∈ G.ids, ∀ y ∈ G.ids, ∀ z ∈ G.ids,
      (∃ h ∈ H.ids, s.get y = compList s.globalDegree (s.get h) (s.get x)) →
      (∃ h ∈ H.ids, s.get z = compList s.globalDegree (s.get h) (s.get y)) →
      (∃ h ∈ H.ids, s.get z = compList s.globalDegree (s.get h) (s.get x)) := by
    intro x hx y _ z _ hr1 hr2
    obtain ⟨h₁, hh₁, hyeq⟩ := hr1
    obtain ⟨h₂, hh₂, hzeq⟩ := hr2
    obtain ⟨h₃, hh₃, h3eq⟩ := hHmul h₂ hh₂ h₁ hh₁
    refine ⟨h₃, hh₃, ?_⟩
    rw [hzeq, hyeq, ← compList_assoc (fun k hk => hs.getD_lt (hGv x hx) hk), ← h3eq]
  obtain ⟨l1, l2, l3, l4, l5⟩ := cosetLoop_spec s hs G H hGv hGnd hHndids hHne hHv
    (fun g hg h hh => hGmul h (hHG h hh) g hg) hrefl hsymm htrans G.ids (fun _ => false)
    (fun _ hx => hx) (fun x hx => by cases hx) (fun x hx => by cases hx)
  refine ⟨(cosetLoop s.count H G.ids (fun _ => false) s).1, ?_, ?_, ?_, ?_, l4, ?_⟩
  · unfold PermSet.rightCosetDecomposition
    rw [if_neg hsize,
      show cosetLoop s.count H G.ids (fun _ => false) s =
        ((cosetLoop s.count H G.ids (fun _ => false) s).1,
         (cosetLoop s.count H G.ids (fun _ => false) s).2) from rfl, l1]
  · intro C hC
    exact (l2 C hC).1
  · intro C hC x hx
    exact ((l2 C hC).2 x hx).1
  · intro g hg
    exact l3 g hg rfl
  · intro g0 rem2 heq
    exact l5 g0 rem2 heq rfl

theorem C5_coset_partition_witness :
    ((Wf (((mkRepo 2).register [1,0]).2) ∧
      (∀ g ∈ (mkPermSet [0,1] true true).ids, g < (((mkRepo 2).register [1,0]).2).count) ∧
      List.Sorted (fun a b => a < b) (mkPermSet [0,1] true true).ids ∧
      List.Sorted (fun a b => a < b) (mkPermSet [0] true true).ids ∧
      (∀ g ∈ (mkPermSet [0,1] true true).ids, ((((mkRepo 2).register [1,0]).2).get g).Nodup) ∧
      (∀ a ∈ (mkPermSet [0,1] true true).ids, ∀ b ∈ (mkPermSet [0,1] true true).ids,
        ∃ c ∈ (mkPermSet [0,1] true true).ids,
          (((mkRepo 2).register [1,0]).2).get c =
            compList ((((mkRepo 2).register [1,0]).2).globalDegree)
              ((((mkRepo 2).register [1,0]).2).get a) ((((mkRepo 2).register [1,0]).2).get b)) ∧
      (∀ h ∈ (mkPermSet [0] true true).ids, h ∈ (mkPermSet [0,1] true true).ids) ∧
      (∀ a ∈ (mkPermSet [0] true true).ids, ∀ b ∈ (mkPermSet [0] true true).ids,
        ∃ c ∈ (mkPermSet [0] true true).ids,
          (((mkRepo 2).register [1,0]).2).get c =
            compList ((((mkRepo 2).register [1,0]).2).globalDegree)
              ((((mkRepo 2).register [1,0]).2).get a) ((((mkRepo 2).register [1,0]).2).get b)) ∧
      (∀ a ∈ (mkPermSet [0] true true).ids, ∃ b ∈ (mkPermSet [0] true true).ids,
        compList ((((mkRepo 2).register [1,0]).2).globalDegree)
            ((((mkRepo 2).register [1,0]).2).get b) ((((mkRepo 2).register [1,0]).2).get a) =
          List.range ((((mkRepo 2).register [1,0]).2).globalDegree)) ∧
      ((((mkRepo 2).register [1,0]).2).identity ∈ (mkPermSet [0] true true).ids))) ∧
    (∃ cosets,
      PermSet.rightCosetDecomposition (((mkRepo 2).register [1,0]).2)
          (mkPermSet [0,1] true true) (mkPermSet [0] true true) =
        Except.ok (cosets, ((mkRepo 2).register [1,0]).2) ∧
      (∀ C ∈ cosets, C.ids.length = (mkPermSet [0] true true).ids.length) ∧
      (∀ C ∈ cosets, ∀ x ∈ C.ids, x ∈ (mkPermSet [0,1] true true).ids) ∧
      (∀ g ∈ (mkPermSet [0,1] true true).ids, ∃ C ∈ cosets, g ∈ C.ids) ∧
      List.Pairwise (fun C D => ∀ x, x ∈ C.ids → x ∉ D.ids) cosets ∧
      (∀ g0 rem2, (mkPermSet [0,1] true true).ids = g0 :: rem2 →
        ∃ C0 crest, cosets = C0 :: crest ∧ g0 ∈ C0.ids)) :=
  ⟨⟨by decide, by decide, by decide, by decide, by decide, by decide, by decide, by decide,
    by decide, by decide⟩,
    C5_coset_partition (((mkRepo 2).register [1,0]).2) (mkPermSet [0,1] true true)
      (mkPermSet [0] true true) (by decide) (by decide) (by decide) (by decide) (by decide)
      (by decide) (by decide) (by decide) (by decide) (by decide)⟩

theorem setUnion_nil_left (b : List Nat) : setUnion [] b = b := by
  simp [setUnion]

theorem setUnion_nil_right (a : List Nat) : setUnion a [] = a := by
  cases a <;> simp [setUnion]

theorem setUnion_cons_cons (va vb : Nat) (as bs : List Nat) :
    setUnion (va :: as) (vb :: bs) =
      (if va < vb then va :: setUnion as (vb :: bs)
       else if vb < va then vb :: setUnion (va :: as) bs
       else va :: setUnion as bs) := by
  simp [setUnion]

theorem setUnion_mem : ∀ (a b : List Nat) (x : Nat), x ∈ setUnion a b ↔ (x ∈ a ∨ x ∈ b) := by
  intro a
  induction a with
  | nil =>
    intro b x
    rw [setUnion_nil_left]
    simp
  | cons va as iha =>
    intro b
    induction b with
    | nil =>
      intro x
      rw [setUnion_nil_right]
      simp
    | cons vb bs ihb =>
      intro x
      rw [setUnion_cons_cons]
      by_cases h1 : va < vb
      · rw [if_pos h1]
        simp only [List.mem_cons, iha (vb :: bs) x, List.mem_cons]
        tauto
      · rw [if_neg h1]
        by_cases h2 : vb < va
        · rw [if_pos h2]
          simp only [List.mem_cons, ihb x, List.mem_cons]
          tauto
        · rw [if_neg h2]
          have hvv : va = vb := by omega
          subst hvv
          simp only [List.mem_cons, iha bs x]
          tauto

theorem setUnion_sorted : ∀ (a b : List Nat),
    List.Sorted (fun x y => x < y) a → List.Sorted (fun x y => x < y) b →
    List.Sorted (fun x y => x < y) (setUnion a b) := by
  intro a
  induction a with
  | nil =>
    intro b _ hb
    rw [setUnion_nil_left]
    exact hb
  | cons va as iha =>
    intro b
    induction b with
    | nil =>
      intro ha _
      rw [setUnion_nil_right]
      exact ha
    | cons vb bs ihb =>
      intro ha hb
      rw [List.sorted_cons] at ha hb
      obtain ⟨hva, has⟩ := ha
      obtain ⟨hvb, hbs⟩ := hb
      rw [setUnion_cons_cons]
      by_cases h1 : va < vb
      · rw [if_pos h1, List.sorted_cons]
        refine ⟨?_, iha (vb :: bs) has (by rw [List.sorted_cons]; exact ⟨hvb, hbs⟩)⟩
        intro y hy
        rw [setUnion_mem] at hy
        rcases hy with h | h
        · exact hva y h
        · rcases List.mem_cons.mp h with rfl | h2
          · exact h1
          · exact lt_trans h1 (hvb y h2)
      · rw [if_neg h1]
        by_cases h2 : vb < va
        · rw [if_pos h2, List.sorted_cons]
          refine ⟨?_, ihb (by rw [List.sorted_cons]; exact ⟨hva, has⟩) hbs⟩
          intro y hy
          rw [setUnion_mem] at hy
          rcases hy with h | h
          · rcases List.mem_cons.mp h with rfl | h3
            · exact h2
            · exact lt_trans h2 (hva y h3)
          · exact hvb y h
        · rw [if_neg h2, List.sorted_cons]
          have hvv : va = vb := by omega
          refine ⟨?_, iha bs has hbs⟩
          intro y hy
          rw [setUnion_mem] at hy
          rcases hy with h | h
          · exact hva y h
          · rw [hvv]
            exact hvb y h

theorem allLists_length (n : Nat) : ∀ k, (allLists n k).length = n ^ k := by
  intro k
  induction k with
  | zero => rfl
  | succ m ih =>
    show ((List.range n).flatMap (fun v => (allLists n m).map (fun t => v :: t))).length = _
    rw [List.length_flatMap]
    have h2 : (List.map (List.length ∘ fun v => List.map (fun t => v :: t) (allLists n m))
        (List.range n)) = List.map (fun _ => n ^ m) (List.range n) := by
      refine List.map_congr_left ?_
      intro a _
      show (List.map (fun t => a :: t) (allLists n m)).length = n ^ m
      rw [List.length_map, ih]
    rw [h2, List.map_const', List.sum_replicate, List.length_range, smul_eq_mul, Nat.pow_succ]
    ring

/-- The image-level closure actually generated by the engine: the identity,
and every right-extension of a generated image by a generator image. -/
inductive GenBy (N : Nat) (imgs : List (List Nat)) : List Nat → Prop
  | idm : GenBy N imgs (List.range N)
  | mul : ∀ A B, GenBy N imgs A → B ∈ imgs → GenBy N imgs (compList N A B)

/-- A "permutation image at degree N": length, range and injectivity. -/
def PermImg (N : Nat) (A : List Nat) : Prop :=
  A.length = N ∧ (∀ v ∈ A, v < N) ∧ A.Nodup

theorem nodup_of_getD_inj {l : List Nat} {N : Nat} (hlen : l.length = N)
    (hinj : ∀ k1 k2, k1 < N → k2 < N → l.getD k1 0 = l.getD k2 0 → k1 = k2) : l.Nodup := by
  rw [List.nodup_iff_injective_get]
  intro i j hij
  apply Fin.ext
  refine hinj i.val j.val (by rw [← hlen]; exact i.isLt) (by rw [← hlen]; exact j.isLt) ?_
  rw [List.getD_eq_getElem _ _ i.isLt, List.getD_eq_getElem _ _ j.isLt]
  rw [List.get_eq_getElem] at hij
  rw [List.get_eq_getElem] at hij
  exact hij

theorem permImg_range (N : Nat) : PermImg N (List.range N) :=
  ⟨by simp, fun v hv => List.mem_range.mp hv, List.nodup_range N⟩

theorem permImg_getD_lt {N : Nat} {A : List Nat} (hA : PermImg N A) {k : Nat} (hk : k < N) :
    A.getD k 0 < N := by
  obtain ⟨hlen, hv, _⟩ := hA
  refine hv _ ?_
  rw [List.getD_eq_getElem _ _ (by omega)]
  exact List.getElem_mem _

theorem permImg_comp {N : Nat} {A B : List Nat} (hA : PermImg N A) (hB : PermImg N B) :
    PermImg N (compList N A B) := by
  obtain ⟨hAl, hAv, hAnd⟩ := hA
  obtain ⟨hBl, hBv, hBnd⟩ := hB
  refine ⟨compList_length N A B, ?_, ?_⟩
  · intro v hv
    simp only [compList, List.mem_map, List.mem_range] at hv
    obtain ⟨k, hk, rfl⟩ := hv
    exact permImg_getD_lt ⟨hAl, hAv, hAnd⟩ (permImg_getD_lt ⟨hBl, hBv, hBnd⟩ hk)
  · refine nodup_of_getD_inj (compList_length N A B) ?_
    intro k1 k2 h1 h2 heq
    rw [compList_getD _ _ h1, compList_getD _ _ h2] at heq
    have hBeq : B.getD k1 0 = B.getD k2 0 :=
      nodup_getD_inj hAnd
        (by rw [hAl]; exact permImg_getD_lt ⟨hBl, hBv, hBnd⟩ h1)
        (by rw [hAl]; exact permImg_getD_lt ⟨hBl, hBv, hBnd⟩ h2) heq
    exact nodup_getD_inj hBnd (by rw [hBl]; exact h1) (by rw [hBl]; exact h2) hBeq

theorem genBy_perm {N : Nat} {imgs : List (List Nat)}
    (himgs : ∀ A ∈ imgs, PermImg N A) :
    ∀ {A}, GenBy N imgs A → PermImg N A := by
  intro A h
  induction h with
  | idm => exact permImg_range N
  | mul A B _ hB ihA => exact permImg_comp ihA (himgs B hB)

theorem genBy_of_mem {N : Nat} {imgs : List (List Nat)}
    (himgs : ∀ A ∈ imgs, PermImg N A) {A : List Nat} (hA : A ∈ imgs) :
    GenBy N imgs A := by
  have h := GenBy.mul (List.range N) A (GenBy.idm) hA
  rwa [compList_id_left (himgs A hA).1
    (fun k hk => permImg_getD_lt (himgs A hA) hk)] at h

theorem genBy_mul_closed {N : Nat} {imgs : List (List Nat)}
    (himgs : ∀ A ∈ imgs, PermImg N A) :
    ∀ {A B}, GenBy N imgs A → GenBy N imgs B → GenBy N imgs (compList N A B) := by
  intro A B hA hB
  induction hB with
  | idm =>
    rw [compList_id_right (genBy_perm himgs hA).1]
    exact hA
  | mul B g hBW hg ihB =>
    rw [← compList_assoc (fun k hk => permImg_getD_lt (himgs g hg) hk)]
    exact GenBy.mul _ _ ihB hg

theorem compList_right_cancel {N : Nat} {A X Y : List Nat} (hA : PermImg N A)
    (hXl : X.length = N) (hYl : Y.length = N)
    (h : compList N X A = compList N Y A) : X = Y := by
  obtain ⟨hAl, hAv, hAnd⟩ := hA
  have hsurj : ∀ j, j < N → ∃ k, k < N ∧ A.getD k 0 = j := by
    intro j hj
    have hmem : j ∈ A := nodup_mem hAnd hAl hAv j hj
    obtain ⟨k, hk, hkj⟩ := List.getElem_of_mem hmem
    refine ⟨k, by omega, ?_⟩
    rw [List.getD_eq_getElem _ _ hk]
    exact hkj
  refine getD_ext hXl hYl ?_
  intro j hj
  obtain ⟨k, hk, hkj⟩ := hsurj j hj
  have hc := congrArg (fun l => l.getD k 0) h
  dsimp only at hc
  rw [compList_getD _ _ hk, compList_getD _ _ hk, hkj] at hc
  exact hc

/-- Right powers of an image: `A^0 = id`, `A^(k+1) = A^k ∘ A`. -/
def powList (N : Nat) (A : List Nat) : Nat → List Nat
  | 0 => List.range N
  | k+1 => compList N (powList N A k) A

theorem powList_perm {N : Nat} {A : List Nat} (hA : PermImg N A) :
    ∀ k, PermImg N (powList N A k) := by
  intro k
  induction k with
  | zero => exact permImg_range N
  | succ m ih => exact permImg_comp ih hA

theorem genBy_pow {N : Nat} {imgs : List (List Nat)}
    (himgs : ∀ A ∈ imgs, PermImg N A) {A : List Nat} (hA : GenBy N imgs A) :
    ∀ k, GenBy N imgs (powList N A k) := by
  intro k
  induction k with
  | zero => exact GenBy.idm
  | succ m ih => exact genBy_mul_closed himgs ih hA

theorem powList_comm {N : Nat} {A : List Nat} (hA : PermImg N A) :
    ∀ k, compList N A (powList N A k) = powList N A (k + 1) := by
  intro k
  induction k with
  | zero =>
    show compList N A (List.range N) = compList N (List.range N) A
    rw [compList_id_right hA.1,
      compList_id_left hA.1 (fun k hk => permImg_getD_lt hA hk)]
  | succ m ih =>
    show compList N A (compList N (powList N A m) A) = _
    rw [← compList_assoc (fun k hk => permImg_getD_lt hA hk), ih]
    rfl

theorem powList_cancel {N : Nat} {A : List Nat} (hA : PermImg N A) :
    ∀ i j, i ≤ j → powList N A i = powList N A j →
    powList N A (j - i) = List.range N := by
  intro i
  induction i with
  | zero =>
    intro j _ h
    rw [Nat.sub_zero, ← h]
    rfl
  | succ m ih =>
    intro j hij h
    rcases j with _ | j2
    · omega
    · have hm : m ≤ j2 := by omega
      have hc : powList N A m = powList N A j2 :=
        compList_right_cancel hA (powList_perm hA m).1 (powList_perm hA j2).1 h
      have := ih j2 hm hc
      rw [Nat.succ_sub_succ]
      exact this

theorem permImg_exists_inverse {N : Nat} {imgs : List (List Nat)}
    (himgs : ∀ A ∈ imgs, PermImg N A) {A : List Nat}
    (hA : PermImg N A) (hW : GenBy N imgs A) :
    ∃ B, GenBy N imgs B ∧ compList N B A = List.range N ∧
      compList N A B = List.range N := by
  have hmaps : ∀ k ∈ Finset.range (N ^ N + 1),
      powList N A k ∈ (allLists N N).toFinset := by
    intro k _
    rw [List.mem_toFinset, mem_allLists]
    exact ⟨(powList_perm hA k).1, (powList_perm hA k).2.1⟩
  have hcard : ((allLists N N).toFinset).card < (Finset.range (N ^ N + 1)).card := by
    rw [Finset.card_range]
    have h1 := List.toFinset_card_le (allLists N N)
    rw [allLists_length] at h1
    omega
  obtain ⟨i, hi, j, hj, hne, heq⟩ :=
    Finset.exists_ne_map_eq_of_card_lt_of_maps_to hcard hmaps
  have hkey : ∃ m, 0 < m ∧ powList N A m = List.range N := by
    rcases Nat.lt_or_ge i j with hlt | hge
    · exact ⟨j - i, by omega, powList_cancel hA i j (by omega) heq⟩
    · have hlt2 : j < i := by omega
      exact ⟨i - j, by omega, powList_cancel hA j i (by omega) heq.symm⟩
  obtain ⟨m, hm0, hmid⟩ := hkey
  refine ⟨powList N A (m - 1), genBy_pow himgs hW (m - 1), ?_, ?_⟩
  · show compList N (powList N A (m - 1)) A = List.range N
    have : compList N (powList N A (m - 1)) A = powList N A (m - 1 + 1) := rfl
    rw [this, Nat.sub_add_cancel hm0]
    exact hmid
  · rw [powList_comm hA, Nat.sub_add_cancel hm0]
    exact hmid

theorem inverse_unique {N : Nat} {A B C : List Nat} (hA : PermImg N A)
    (hBl : B.length = N) (hCl : C.length = N)
    (hCv : ∀ k, k < N → C.getD k 0 < N)
    (h1 : compList N B A = List.range N)
    (h2 : compList N A C = List.range N) : B = C := by
  have e1 : B = compList N B (compList N A C) := by
    rw [h2, compList_id_right hBl]
  rw [e1, ← compList_assoc hCv, h1, compList_id_left hCl hCv]

/-- Store extension: everything the closure computation relies on is
monotone — well-formedness, fixed degree, fixed identity, growing count,
stable images of existing IDs. -/
structure Ext (s st : Repo) : Prop where
  wf : Wf st
  deg : st.globalDegree = s.globalDegree
  idf : st.identity = s.identity
  cnt : s.count ≤ st.count
  old : ∀ i, i < s.count → st.get i = s.get i

theorem ext_refl {s : Repo} (hs : Wf s) : Ext s s :=
  ⟨hs, rfl, rfl, le_refl _, fun _ _ => rfl⟩

theorem Ext.trans2 {s t u : Repo} (h1 : Ext s t) (h2 : Ext t u) : Ext s u :=
  ⟨h2.wf, h2.deg.trans h1.deg, h2.idf.trans h1.idf, le_trans h1.cnt h2.cnt,
   fun i hi => (h2.old i (lt_of_lt_of_le hi h1.cnt)).trans (h1.old i hi)⟩

/-- One product registration inside set `multiply`. -/
theorem register_product_ext (st : Repo) (hst : Wf st) (a b : Nat)
    (ha : a < st.count) (hb : b < st.count) :
    Ext st (st.register (compImage st st.globalDegree a b)).2 ∧
    (st.register (compImage st st.globalDegree a b)).1 <
      (st.register (compImage st st.globalDegree a b)).2.count ∧
    (st.register (compImage st st.globalDegree a b)).2.get
        (st.register (compImage st st.globalDegree a b)).1 =
      compList st.globalDegree (st.get a) (st.get b) := by
  have hlen : (compImage st st.globalDegree a b).length = st.globalDegree := by
    simp [compImage]
  have hv : ∀ v ∈ compImage st st.globalDegree a b,
      v < max st.globalDegree (compImage st st.globalDegree a b).length := by
    intro v hvm
    simp only [compImage, List.mem_map, List.mem_range] at hvm
    obtain ⟨k, hk, rfl⟩ := hvm
    have h1 : st.permBuffer (b * st.globalDegree + k) < st.globalDegree :=
      hst.perm_range' hb hk
    have h2 := hst.perm_range' ha h1
    omega
  obtain ⟨hW, hdeg, hid, hold, hlt, hres, hle, _⟩ :=
    register_spec st (compImage st st.globalDegree a b) hst hv
  have hmax : max st.globalDegree (compImage st st.globalDegree a b).length =
      st.globalDegree := by
    rw [hlen]
    omega
  rw [hmax] at hdeg hold hres
  refine ⟨⟨hW, hdeg, hid, hle, ?_⟩, hlt, ?_⟩
  · intro i hi
    rw [hold i hi, padTo_eq_self (get_length st i)]
  · rw [hres, padTo_eq_self hlen, compImage_eq_compList st hst hb]

theorem regComps_spec (s : Repo) (hs : Wf s) :
    ∀ (pairs : List (Nat × Nat)) (st : Repo), Ext s st →
    (∀ pr ∈ pairs, pr.1 < s.count ∧ pr.2 < s.count) →
    Ext st (regComps s.globalDegree st pairs).2 ∧
    (∀ x ∈ (regComps s.globalDegree st pairs).1,
      x < (regComps s.globalDegree st pairs).2.count ∧
      ∃ pr ∈ pairs, (regComps s.globalDegree st pairs).2.get x =
        compList s.globalDegree (s.get pr.1) (s.get pr.2)) ∧
    (∀ pr ∈ pairs, ∃ x ∈ (regComps s.globalDegree st pairs).1,
      (regComps s.globalDegree st pairs).2.get x =
        compList s.globalDegree (s.get pr.1) (s.get pr.2)) := by
  intro pairs
  induction pairs with
  | nil =>
    intro st hext _
    refine ⟨ext_refl hext.wf, ?_, ?_⟩
    · intro x hx
      exact absurd hx (List.not_mem_nil x)
    · intro pr hpr
      exact absurd hpr (List.not_mem_nil pr)
  | cons pr0 rest ih =>
    intro st hext hall
    obtain ⟨a, b⟩ := pr0
    obtain ⟨ha, hb⟩ := hall (a, b) (List.mem_cons_self _ _)
    have ha2 : a < st.count := lt_of_lt_of_le ha hext.cnt
    have hb2 : b < st.count := lt_of_lt_of_le hb hext.cnt
    obtain ⟨hx1, hx2, hx3⟩ := register_product_ext st hext.wf a b ha2 hb2
    have himg : (st.register (compImage st st.globalDegree a b)).2.get
        (st.register (compImage st st.globalDegree a b)).1 =
        compList s.globalDegree (s.get a) (s.get b) := by
      rw [hx3, hext.deg, hext.old a ha, hext.old b hb]
    have hcompN : compImage st s.globalDegree a b = compImage st st.globalDegree a b := by
      rw [hext.deg]
    have hstep : regComps s.globalDegree st ((a, b) :: rest) =
        ((st.register (compImage st s.globalDegree a b)).1 ::
          (regComps s.globalDegree (st.register (compImage st s.globalDegree a b)).2 rest).1,
         (regComps s.globalDegree (st.register (compImage st s.globalDegree a b)).2 rest).2) :=
      regComps_cons s.globalDegree st a b rest
    rw [hstep, hcompN]
    dsimp only
    obtain ⟨j1, j2, j3⟩ := ih (st.register (compImage st st.globalDegree a b)).2
      (hext.trans2 hx1)
      (fun pr2 hpr2 => hall pr2 (List.mem_cons_of_mem _ hpr2))
    refine ⟨hx1.trans2 j1, ?_, ?_⟩
    · intro x hx
      rcases List.mem_cons.mp hx with rfl | hxr
      · refine ⟨lt_of_lt_of_le hx2 j1.cnt, (a, b), List.mem_cons_self _ _, ?_⟩
        rw [j1.old _ hx2, himg]
      · obtain ⟨hxc, pr2, hpr2, heq2⟩ := j2 x hxr
        exact ⟨hxc, pr2, List.mem_cons_of_mem _ hpr2, heq2⟩
    · intro pr2 hpr2
      rcases List.mem_cons.mp hpr2 with rfl | hpr2r
      · refine ⟨(st.register (compImage st st.globalDegree a b)).1,
          List.mem_cons_self _ _, ?_⟩
        rw [j1.old _ hx2, himg]
      · obtain ⟨x, hxm, heq2⟩ := j3 pr2 hpr2r
        exact ⟨x, List.mem_cons_of_mem _ hxm, heq2⟩

theorem mem_setMultiplyPairs {idsA idsB : List Nat} {p q : Nat} :
    (p, q) ∈ setMultiplyPairs idsA idsB ↔ p ∈ idsA ∧ q ∈ idsB := by
  unfold setMultiplyPairs
  by_cases h : idsA.length ≤ idsB.length
  · rw [if_pos h]
    simp only [List.mem_flatMap, List.mem_map, Prod.mk.injEq]
    constructor
    · rintro ⟨a, ha, b, hb, h1, h2⟩
      exact ⟨h1 ▸ ha, h2 ▸ hb⟩
    · rintro ⟨hp, hq⟩
      exact ⟨p, hp, q, hq, rfl, rfl⟩
  · rw [if_neg h]
    simp only [List.mem_flatMap, List.mem_map, Prod.mk.injEq]
    constructor
    · rintro ⟨b, hb, a, ha, h1, h2⟩
      exact ⟨h1 ▸ ha, h2 ▸ hb⟩
    · rintro ⟨hp, hq⟩
      exact ⟨q, hq, p, hp, rfl, rfl⟩

/-- Set `multiply` in general: extends the store and interns exactly the
pairwise composition images. -/
theorem multiply_set_spec (s : Repo) (hs : Wf s) (A B : PermSet)
    (hAv : ∀ a ∈ A.ids, a < s.count) (hBv : ∀ b ∈ B.ids, b < s.count) :
    Ext s (PermSet.multiply s A B).2 ∧
    (∀ x ∈ (PermSet.multiply s A B).1.ids,
      x < (PermSet.multiply s A B).2.count ∧
      ∃ a ∈ A.ids, ∃ b ∈ B.ids, (PermSet.multiply s A B).2.get x =
        compList s.globalDegree (s.get a) (s.get b)) ∧
    (∀ a ∈ A.ids, ∀ b ∈ B.ids, ∃ x ∈ (PermSet.multiply s A B).1.ids,
      (PermSet.multiply s A B).2.get x =
        compList s.globalDegree (s.get a) (s.get b)) ∧
    List.Sorted (fun x y => x < y) (PermSet.multiply s A B).1.ids := by
  by_cases hempty : A.ids.length = 0 ∨ B.ids.length = 0
  · have he : PermSet.multiply s A B = (mkPermSet [] true false, s) := by
      unfold PermSet.multiply
      rw [if_pos hempty]
    rw [he]
    refine ⟨ext_refl hs, ?_, ?_, List.sorted_nil⟩
    · intro x hx
      exact absurd hx (List.not_mem_nil x)
    · intro a haa b hbb
      rcases hempty with h0 | h0
      · rw [List.length_eq_zero.mp h0] at haa
        exact absurd haa (List.not_mem_nil a)
      · rw [List.length_eq_zero.mp h0] at hbb
        exact absurd hbb (List.not_mem_nil b)
  · have he : PermSet.multiply s A B =
        (mkPermSet (regComps s.globalDegree s (setMultiplyPairs A.ids B.ids)).1 false false,
         (regComps s.globalDegree s (setMultiplyPairs A.ids B.ids)).2) := by
      unfold PermSet.multiply
      rw [if_neg hempty]
    rw [he]
    have hpairs : ∀ pr ∈ setMultiplyPairs A.ids B.ids, pr.1 < s.count ∧ pr.2 < s.count := by
      intro pr hpr
      obtain ⟨p, q⟩ := pr
      rw [mem_setMultiplyPairs] at hpr
      exact ⟨hAv p hpr.1, hBv q hpr.2⟩
    obtain ⟨j1, j2, j3⟩ := regComps_spec s hs (setMultiplyPairs A.ids B.ids) s
      (ext_refl hs) hpairs
    have hids : (mkPermSet (regComps s.globalDegree s
        (setMultiplyPairs A.ids B.ids)).1 false false).ids =
        sortAndUnique (regComps s.globalDegree s (setMultiplyPairs A.ids B.ids)).1 := rfl
    refine ⟨j1, ?_, ?_, ?_⟩
    · intro x hx
      rw [hids, mem_sortAndUnique] at hx
      obtain ⟨hxc, pr, hpr, heq⟩ := j2 x hx
      obtain ⟨p, q⟩ := pr
      rw [mem_setMultiplyPairs] at hpr
      exact ⟨hxc, p, hpr.1, q, hpr.2, heq⟩
    · intro a haa b hbb
      obtain ⟨x, hxm, heq⟩ := j3 (a, b) (mem_setMultiplyPairs.mpr ⟨haa, hbb⟩)
      refine ⟨x, ?_, heq⟩
      rw [hids, mem_sortAndUnique]
      exact hxm
    · rw [hids]
      exact sorted_sortAndUnique _

theorem invWriteLoop_eq (buf : Nat → Nat) (off : Nat) (tmp : Nat → Nat) :
    ∀ m k, k < m →
    (∀ k1 k2, k1 < m → k2 < m → buf (off + k1) = buf (off + k2) → k1 = k2) →
    invWriteLoop buf off tmp m (buf (off + k)) = k := by
  intro m
  induction m with
  | zero =>
    intro k hk _
    exact absurd hk (Nat.not_lt_zero k)
  | succ n ih =>
    intro k hk hinj
    show updN (invWriteLoop buf off tmp n) (buf (off + n)) n (buf (off + k)) = k
    unfold updN
    by_cases hkn : k = n
    · rw [if_pos (by rw [hkn])]
      omega
    · have hne : buf (off + k) ≠ buf (off + n) := fun h =>
        hkn (hinj k n (by omega) (by omega) h)
      rw [if_neg hne]
      exact ih k (by omega) (fun k1 k2 h1 h2 h3 => hinj k1 k2 (by omega) (by omega) h3)

theorem compList_eq_range {N : Nat} {A B : List Nat}
    (h : ∀ k, k < N → A.getD (B.getD k 0) 0 = k) :
    compList N A B = List.range N := by
  calc compList N A B = (List.range N).map (fun k => k) := map_range_congr h
    _ = List.range N := by simp

/-- One inverse registration inside set `inverse`, for a duplicate-free
image: the registered image is the genuine two-sided inverse, whatever the
incoming scratch contents. -/
theorem register_inverse_ext (st : Repo) (hst : Wf st) (a : Nat) (tmp : Nat → Nat)
    (ha : a < st.count) (hand : (st.get a).Nodup) :
    Ext st (st.register ((List.range st.globalDegree).map
      (invWriteLoop st.permBuffer (a * st.globalDegree) tmp st.globalDegree))).2 ∧
    (st.register ((List.range st.globalDegree).map
      (invWriteLoop st.permBuffer (a * st.globalDegree) tmp st.globalDegree))).1 <
      (st.register ((List.range st.globalDegree).map
        (invWriteLoop st.permBuffer (a * st.globalDegree) tmp st.globalDegree))).2.count ∧
    compList st.globalDegree
      ((st.register ((List.range st.globalDegree).map
          (invWriteLoop st.permBuffer (a * st.globalDegree) tmp st.globalDegree))).2.get
        (st.register ((List.range st.globalDegree).map
          (invWriteLoop st.permBuffer (a * st.globalDegree) tmp st.globalDegree))).1)
      (st.get a) = List.range st.globalDegree ∧
    compList st.globalDegree (st.get a)
      ((st.register ((List.range st.globalDegree).map
          (invWriteLoop st.permBuffer (a * st.globalDegree) tmp st.globalDegree))).2.get
        (st.register ((List.range st.globalDegree).map
          (invWriteLoop st.permBuffer (a * st.globalDegree) tmp st.globalDegree))).1) =
      List.range st.globalDegree := by
  have hinj : ∀ k1 k2, k1 < st.globalDegree → k2 < st.globalDegree →
      st.permBuffer (a * st.globalDegree + k1) = st.permBuffer (a * st.globalDegree + k2) →
      k1 = k2 := by
    intro k1 k2 h1 h2 h3
    rw [← get_getD h1, ← get_getD h2] at h3
    exact nodup_getD_inj hand (by rw [get_length]; exact h1)
      (by rw [get_length]; exact h2) h3
  have hsurj : ∀ j, j < st.globalDegree →
      ∃ k, k < st.globalDegree ∧ st.permBuffer (a * st.globalDegree + k) = j := by
    intro j hj
    have hmem : j ∈ st.get a := nodup_mem hand (get_length st a) (hst.get_vals ha) j hj
    obtain ⟨k, hk, hkj⟩ := List.getElem_of_mem hmem
    rw [get_length st a] at hk
    refine ⟨k, hk, ?_⟩
    rw [← get_getD hk, List.getD_eq_getElem _ _ (by rw [get_length st a]; exact hk)]
    exact hkj
  have htmpval : ∀ j, j < st.globalDegree →
      ∃ k, k < st.globalDegree ∧
        invWriteLoop st.permBuffer (a * st.globalDegree) tmp st.globalDegree j = k ∧
        st.permBuffer (a * st.globalDegree + k) = j := by
    intro j hj
    obtain ⟨k, hk, hkj⟩ := hsurj j hj
    refine ⟨k, hk, ?_, hkj⟩
    rw [← hkj]
    exact invWriteLoop_eq st.permBuffer (a * st.globalDegree) tmp st.globalDegree k hk hinj
  have hlen : ((List.range st.globalDegree).map
      (invWriteLoop st.permBuffer (a * st.globalDegree) tmp st.globalDegree)).length =
      st.globalDegree := by
    simp
  have hv : ∀ v ∈ (List.range st.globalDegree).map
      (invWriteLoop st.permBuffer (a * st.globalDegree) tmp st.globalDegree),
      v < max st.globalDegree ((List.range st.globalDegree).map
        (invWriteLoop st.permBuffer (a * st.globalDegree) tmp st.globalDegree)).length := by
    intro v hvm
    simp only [List.mem_map, List.mem_range] at hvm
    obtain ⟨j, hj, rfl⟩ := hvm
    obtain ⟨k, hk, hkeq, _⟩ := htmpval j hj
    rw [hkeq]
    omega
  obtain ⟨hW, hdeg, hid, hold, hlt, hres, hle, _⟩ :=
    register_spec st ((List.range st.globalDegree).map
      (invWriteLoop st.permBuffer (a * st.globalDegree) tmp st.globalDegree)) hst hv
  have hmax : max st.globalDegree ((List.range st.globalDegree).map
      (invWriteLoop st.permBuffer (a * st.globalDegree) tmp st.globalDegree)).length =
      st.globalDegree := by
    rw [hlen]
    omega
  rw [hmax] at hdeg hold hres
  rw [padTo_eq_self hlen] at hres
  have hgetD : ∀ j, j < st.globalDegree →
      ((st.register ((List.range st.globalDegree).map
        (invWriteLoop st.permBuffer (a * st.globalDegree) tmp st.globalDegree))).2.get
        (st.register ((List.range st.globalDegree).map
          (invWriteLoop st.permBuffer (a * st.globalDegree) tmp st.globalDegree))).1).getD j 0 =
      invWriteLoop st.permBuffer (a * st.globalDegree) tmp st.globalDegree j := by
    intro j hj
    rw [hres]
    exact getD_map_range _ hj
  refine ⟨⟨hW, hdeg, hid, hle, fun i hi => by
    rw [hold i hi, padTo_eq_self (get_length st i)]⟩, hlt, ?_, ?_⟩
  · refine compList_eq_range ?_
    intro k hk
    have hbk : (st.get a).getD k 0 < st.globalDegree := hst.getD_lt ha hk
    rw [hgetD _ hbk, get_getD hk]
    exact invWriteLoop_eq st.permBuffer (a * st.globalDegree) tmp st.globalDegree k hk hinj
  · refine compList_eq_range ?_
    intro j hj
    obtain ⟨k, hk, hkeq, hkj⟩ := htmpval j hj
    rw [hgetD _ hj, hkeq, get_getD hk, hkj]

theorem inverse_set_spec (s : Repo) (hs : Wf s) (A : PermSet) (tmp : Nat → Nat)
    (hAv : ∀ a ∈ A.ids, a < s.count ∧ (s.get a).Nodup) :
    Ext s (PermSet.inverse s tmp A).2.1 ∧
    (∀ x ∈ (PermSet.inverse s tmp A).1.ids,
      x < (PermSet.inverse s tmp A).2.1.count ∧
      ∃ a ∈ A.ids,
        compList s.globalDegree ((PermSet.inverse s tmp A).2.1.get x) (s.get a) =
          List.range s.globalDegree ∧
        compList s.globalDegree (s.get a) ((PermSet.inverse s tmp A).2.1.get x) =
          List.range s.globalDegree) := by
  have hmain : ∀ (ids : List Nat) (st : Repo) (tmp2 : Nat → Nat), Ext s st →
      (∀ a ∈ ids, a < s.count ∧ (s.get a).Nodup) →
      Ext st (regInvs s.globalDegree st tmp2 ids).2.1 ∧
      (∀ x ∈ (regInvs s.globalDegree st tmp2 ids).1,
        x < (regInvs s.globalDegree st tmp2 ids).2.1.count ∧
        ∃ a ∈ ids,
          compList s.globalDegree ((regInvs s.globalDegree st tmp2 ids).2.1.get x) (s.get a) =
            List.range s.globalDegree ∧
          compList s.globalDegree (s.get a) ((regInvs s.globalDegree st tmp2 ids).2.1.get x) =
            List.range s.globalDegree) := by
    intro ids
    induction ids with
    | nil =>
      intro st tmp2 hext _
      exact ⟨ext_refl hext.wf, fun x hx => absurd hx (List.not_mem_nil x)⟩
    | cons a rest ih =>
      intro st tmp2 hext hall
      obtain ⟨ha, hand⟩ := hall a (List.mem_cons_self a rest)
      have ha2 : a < st.count := lt_of_lt_of_le ha hext.cnt
      have hand2 : (st.get a).Nodup := by
        rw [hext.old a ha]
        exact hand
      obtain ⟨hx1, hx2, hx3, hx4⟩ := register_inverse_ext st hext.wf a tmp2 ha2 hand2
      have hstep2 : regInvs s.globalDegree st tmp2 (a :: rest) =
          ((st.register ((List.range st.globalDegree).map
              (invWriteLoop st.permBuffer (a * st.globalDegree) tmp2 st.globalDegree))).1 ::
            (regInvs s.globalDegree
              (st.register ((List.range st.globalDegree).map
                (invWriteLoop st.permBuffer (a * st.globalDegree) tmp2 st.globalDegree))).2
              (invWriteLoop st.permBuffer (a * st.globalDegree) tmp2 st.globalDegree) rest).1,
           (regInvs s.globalDegree
              (st.register ((List.range st.globalDegree).map
                (invWriteLoop st.permBuffer (a * st.globalDegree) tmp2 st.globalDegree))).2
              (invWriteLoop st.permBuffer (a * st.globalDegree) tmp2 st.globalDegree) rest).2) := by
        rw [hext.deg]
        rfl
      rw [hstep2]
      dsimp only
      obtain ⟨j1, j2⟩ := ih
        (st.register ((List.range st.globalDegree).map
          (invWriteLoop st.permBuffer (a * st.globalDegree) tmp2 st.globalDegree))).2
        (invWriteLoop st.permBuffer (a * st.globalDegree) tmp2 st.globalDegree)
        (hext.trans2 hx1)
        (fun a2 ha2m => hall a2 (List.mem_cons_of_mem a ha2m))
      refine ⟨hx1.trans2 j1, ?_⟩
      intro x hx
      rcases List.mem_cons.mp hx with rfl | hxr
      · refine ⟨lt_of_lt_of_le hx2 j1.cnt, a, List.mem_cons_self a rest, ?_, ?_⟩
        · rw [j1.old _ hx2, ← hext.old a ha, ← hext.deg]
          exact hx3
        · rw [j1.old _ hx2, ← hext.old a ha, ← hext.deg]
          exact hx4
      · obtain ⟨hxc, a2, ha2m, he1, he2⟩ := j2 x hxr
        exact ⟨hxc, a2, List.mem_cons_of_mem a ha2m, he1, he2⟩
  unfold PermSet.inverse
  by_cases hemp : A.ids.length = 0
  · rw [if_pos hemp]
    refine ⟨ext_refl hs, ?_⟩
    intro x hx
    exact absurd hx (List.not_mem_nil x)
  · rw [if_neg hemp]
    obtain ⟨j1, j2⟩ := hmain A.ids s tmp (ext_refl hs) hAv
    dsimp only
    refine ⟨j1, ?_⟩
    intro x hx
    rw [show (mkPermSet (regInvs s.globalDegree s tmp A.ids).1 false A.isGroup).ids =
      sortAndUnique (regInvs s.globalDegree s tmp A.ids).1 from rfl,
      mem_sortAndUnique] at hx
    exact j2 x hx

theorem subset_len_eq_mem {l1 l2 : List Nat} (h1 : l1.Nodup) (h2 : l2.Nodup)
    (hsub : ∀ x ∈ l1, x ∈ l2) (hlen : l2.length ≤ l1.length) : ∀ x ∈ l2, x ∈ l1 := by
  have hfsub : l1.toFinset ⊆ l2.toFinset := by
    intro x hx
    exact List.mem_toFinset.mpr (hsub x (List.mem_toFinset.mp hx))
  have hcard : l2.toFinset.card ≤ l1.toFinset.card := by
    rw [List.toFinset_card_of_nodup h1, List.toFinset_card_of_nodup h2]
    exact hlen
  have heq : l1.toFinset = l2.toFinset :=
    Finset.eq_of_subset_of_card_le hfsub hcard
  intro x hx
  exact List.mem_toFinset.mp (heq ▸ List.mem_toFinset.mpr hx)

/-- Distinct valid IDs denote distinct degree-`N` images, of which there are
at most `N ^ N`. -/
theorem ids_card_le (st : Repo) (hst : Wf st) (l : List Nat) (hnd : l.Nodup)
    (hv : ∀ x ∈ l, x < st.count) :
    l.length ≤ st.globalDegree ^ st.globalDegree := by
  have hmapnd : (l.map (fun x => st.get x)).Nodup := by
    rw [List.nodup_map_iff_inj_on hnd]
    intro x hx y hy hxy
    exact hst.get_inj (hv x hx) (hv y hy) hxy
  have hsub : (l.map (fun x => st.get x)).toFinset ⊆
      (allLists st.globalDegree st.globalDegree).toFinset := by
    intro Y hY
    rw [List.mem_toFinset] at hY ⊢
    rw [mem_allLists]
    obtain ⟨x, hx, rfl⟩ := List.mem_map.mp hY
    exact ⟨get_length st x, hst.get_vals (hv x hx)⟩
  have hcard := Finset.card_le_card hsub
  rw [List.toFinset_card_of_nodup hmapnd, List.length_map] at hcard
  calc l.length ≤ (allLists st.globalDegree st.globalDegree).toFinset.card := hcard
    _ ≤ (allLists st.globalDegree st.globalDegree).length := List.toFinset_card_le _
    _ = st.globalDegree ^ st.globalDegree := allLists_length _ _

theorem nodup_subset_length_le {l1 l2 : List Nat} (h1 : l1.Nodup)
    (hsub : ∀ x ∈ l1, x ∈ l2) : l1.length ≤ l2.length := by
  have hfsub : l1.toFinset ⊆ l2.toFinset := fun x hx =>
    List.mem_toFinset.mpr (hsub x (List.mem_toFinset.mp hx))
  have hc := Finset.card_le_card hfsub
  rw [List.toFinset_card_of_nodup h1] at hc
  exact le_trans hc (List.toFinset_card_le l2)

theorem closureLoop_cons_eq (S : PermSet) (fuel : Nat) (group : PermSet) (lastSize : Nat)
    (st : Repo) :
    closureLoop S (fuel+1) group lastSize st =
      (if group.ids.length = lastSize then (group, st)
       else closureLoop S fuel (group.union (PermSet.multiply st group S).1)
         group.ids.length (PermSet.multiply st group S).2) := rfl

theorem closureLoop_spec (s0 : Repo) (hs0 : Wf s0) (S : PermSet)
    (hSv : ∀ b ∈ S.ids, b < s0.count) :
    ∀ (fuel : Nat) (group : PermSet) (lastSize : Nat) (st : Repo),
    Ext s0 st →
    List.Sorted (fun x y => x < y) group.ids →
    (∀ x ∈ group.ids, x < st.count ∧
      GenBy s0.globalDegree (S.ids.map (fun b => s0.get b)) (st.get x)) →
    (group.ids.length = lastSize →
      ∀ a ∈ group.ids, ∀ b ∈ S.ids, ∃ c ∈ group.ids,
        st.get c = compList s0.globalDegree (st.get a) (s0.get b)) →
    lastSize ≤ group.ids.length →
    s0.globalDegree ^ s0.globalDegree + 1 ≤ fuel + lastSize →
    Ext st (closureLoop S fuel group lastSize st).2 ∧
    (∀ x ∈ group.ids, x ∈ (closureLoop S fuel group lastSize st).1.ids) ∧
    List.Sorted (fun x y => x < y) (closureLoop S fuel group lastSize st).1.ids ∧
    (∀ x ∈ (closureLoop S fuel group lastSize st).1.ids,
      x < (closureLoop S fuel group lastSize st).2.count ∧
      GenBy s0.globalDegree (S.ids.map (fun b => s0.get b))
        ((closureLoop S fuel group lastSize st).2.get x)) ∧
    (∀ a ∈ (closureLoop S fuel group lastSize st).1.ids, ∀ b ∈ S.ids,
      ∃ c ∈ (closureLoop S fuel group lastSize st).1.ids,
        (closureLoop S fuel group lastSize st).2.get c =
          compList s0.globalDegree ((closureLoop S fuel group lastSize st).2.get a)
            (s0.get b)) := by
  intro fuel
  induction fuel with
  | zero =>
    intro group lastSize st hext hsort hmem _ hle hfuel
    exfalso
    have hbound : group.ids.length ≤ s0.globalDegree ^ s0.globalDegree := by
      have hb := ids_card_le st hext.wf group.ids hsort.nodup (fun x hx => (hmem x hx).1)
      rw [hext.deg] at hb
      exact hb
    omega
  | succ fuel ih =>
    intro group lastSize st hext hsort hmem hclosed hle hfuel
    rw [closureLoop_cons_eq]
    by_cases hstop : group.ids.length = lastSize
    · rw [if_pos hstop]
      exact ⟨ext_refl hext.wf, fun x hx => hx, hsort, hmem, hclosed hstop⟩
    · rw [if_neg hstop]
      obtain ⟨m1, m2, m3, m4⟩ := multiply_set_spec st hext.wf group S
        (fun x hx => (hmem x hx).1) (fun b hb => lt_of_lt_of_le (hSv b hb) hext.cnt)
      have hunion_ids : (group.union (PermSet.multiply st group S).1).ids =
          setUnion group.ids (PermSet.multiply st group S).1.ids := rfl
      have hsort2 : List.Sorted (fun x y => x < y)
          (group.union (PermSet.multiply st group S).1).ids := by
        rw [hunion_ids]
        exact setUnion_sorted _ _ hsort m4
      have hmem2 : ∀ x ∈ (group.union (PermSet.multiply st group S).1).ids,
          x < (PermSet.multiply st group S).2.count ∧
          GenBy s0.globalDegree (S.ids.map (fun b => s0.get b))
            ((PermSet.multiply st group S).2.get x) := by
        intro x hx
        rw [hunion_ids, setUnion_mem] at hx
        rcases hx with hxg | hxp
        · obtain ⟨hxc, hxw⟩ := hmem x hxg
          refine ⟨lt_of_lt_of_le hxc m1.cnt, ?_⟩
          rw [m1.old x hxc]
          exact hxw
        · obtain ⟨hxc, a, hag, b, hbS, heq⟩ := m2 x hxp
          refine ⟨hxc, ?_⟩
          rw [heq, hext.deg, hext.old b (hSv b hbS)]
          exact GenBy.mul _ _ (hmem a hag).2
            (List.mem_map.mpr ⟨b, hbS, rfl⟩)
      have hsub : ∀ x ∈ group.ids, x ∈ (group.union (PermSet.multiply st group S).1).ids := by
        intro x hx
        rw [hunion_ids, setUnion_mem]
        exact Or.inl hx
      have hclosed2 : (group.union (PermSet.multiply st group S).1).ids.length =
          group.ids.length →
          ∀ a ∈ (group.union (PermSet.multiply st group S).1).ids, ∀ b ∈ S.ids,
          ∃ c ∈ (group.union (PermSet.multiply st group S).1).ids,
            (PermSet.multiply st group S).2.get c =
              compList s0.globalDegree ((PermSet.multiply st group S).2.get a)
                (s0.get b) := by
        intro heq a ha b hb
        have hback : ∀ y ∈ (group.union (PermSet.multiply st group S).1).ids,
            y ∈ group.ids :=
          subset_len_eq_mem hsort.nodup hsort2.nodup hsub (le_of_eq heq)
        have hag : a ∈ group.ids := hback a ha
        obtain ⟨x, hxp, hxeq⟩ := m3 a hag b hb
        refine ⟨x, ?_, ?_⟩
        · rw [hunion_ids, setUnion_mem]
          exact Or.inr hxp
        · rw [hxeq, hext.deg, hext.old b (hSv b hb), m1.old a (hmem a hag).1]
      have hle2 : group.ids.length ≤
          (group.union (PermSet.multiply st group S).1).ids.length :=
        nodup_subset_length_le hsort.nodup hsub
      have hfuel2 : s0.globalDegree ^ s0.globalDegree + 1 ≤ fuel + group.ids.length := by
        omega
      obtain ⟨j1, j2, j3, j4, j5⟩ := ih (group.union (PermSet.multiply st group S).1)
        group.ids.length (PermSet.multiply st group S).2 (hext.trans2 m1)
        hsort2 hmem2 hclosed2 hle2 hfuel2
      exact ⟨m1.trans2 j1, fun x hx => j2 x (hsub x hx), j3, j4, j5⟩

/-- C4: `generateGroup` on an array of interned genuine permutations returns
an `isGroup`-flagged set that contains the generators and the identity, whose
IDs are valid in the final store, that is closed under pairwise composition
and under (two-sided) inverses, and that is least among all ID sets containing
the generators and the identity that are closed under composition. -/
theorem C4_generateGroup_closure (s : Repo) (tmp : Nat → Nat) (arr : List Nat)
    (hs : Wf s) (harr : ∀ a ∈ arr, a < s.count)
    (hand : ∀ a ∈ arr, (s.get a).Nodup) :
    (generateGroupArr s tmp arr).1.isGroup = true ∧
    (∀ a ∈ arr, a ∈ (generateGroupArr s tmp arr).1.ids) ∧
    (generateGroupArr s tmp arr).2.1.identity ∈ (generateGroupArr s tmp arr).1.ids ∧
    (∀ x ∈ (generateGroupArr s tmp arr).1.ids,
      x < (generateGroupArr s tmp arr).2.1.count) ∧
    (∀ a ∈ (generateGroupArr s tmp arr).1.ids, ∀ b ∈ (generateGroupArr s tmp arr).1.ids,
      ∃ c ∈ (generateGroupArr s tmp arr).1.ids,
        (generateGroupArr s tmp arr).2.1.get c =
          compList s.globalDegree ((generateGroupArr s tmp arr).2.1.get a)
            ((generateGroupArr s tmp arr).2.1.get b)) ∧
    (∀ a ∈ (generateGroupArr s tmp arr).1.ids,
      ∃ b ∈ (generateGroupArr s tmp arr).1.ids,
        compList s.globalDegree ((generateGroupArr s tmp arr).2.1.get b)
          ((generateGroupArr s tmp arr).2.1.get a) = List.range s.globalDegree ∧
        compList s.globalDegree ((generateGroupArr s tmp arr).2.1.get a)
          ((generateGroupArr s tmp arr).2.1.get b) = List.range s.globalDegree) ∧
    (∀ T2 : List Nat, (∀ a ∈ arr, a ∈ T2) →
      (generateGroupArr s tmp arr).2.1.identity ∈ T2 →
      (∀ t ∈ T2, t < (generateGroupArr s tmp arr).2.1.count) →
      (∀ a ∈ T2, ∀ b ∈ T2, ∀ c, c < (generateGroupArr s tmp arr).2.1.count →
        (generateGroupArr s tmp arr).2.1.get c =
          compList s.globalDegree ((generateGroupArr s tmp arr).2.1.get a)
            ((generateGroupArr s tmp arr).2.1.get b) → c ∈ T2) →
      ∀ x ∈ (generateGroupArr s tmp arr).1.ids, x ∈ T2) := by
  have hgens_ids : (mkPermSet arr false false).ids = sortAndUnique arr := rfl
  have hgens_mem : ∀ x, x ∈ (mkPermSet arr false false).ids ↔ x ∈ arr := by
    intro x
    rw [hgens_ids]
    exact mem_sortAndUnique arr x
  have hSv : ∀ b ∈ (mkPermSet arr false false).ids, b < s.count := by
    intro b hb
    exact harr b ((hgens_mem b).mp hb)
  have himgs : ∀ A ∈ (mkPermSet arr false false).ids.map (fun b => s.get b),
      PermImg s.globalDegree A := by
    intro A hA
    obtain ⟨b, hb, rfl⟩ := List.mem_map.mp hA
    exact ⟨get_length s b, hs.get_vals (hSv b hb),
      hand b ((hgens_mem b).mp hb)⟩
  have hAv : ∀ a ∈ (mkPermSet arr false false).ids, a < s.count ∧ (s.get a).Nodup := by
    intro a ha
    exact ⟨hSv a ha, hand a ((hgens_mem a).mp ha)⟩
  obtain ⟨hext1, hinv⟩ := inverse_set_spec s hs (mkPermSet arr false false) tmp hAv
  have hid0 : (PermSet.inverse s tmp (mkPermSet arr false false)).2.1.identity = 0 := by
    rw [hext1.idf, hs.identity_eq]
  have hgroup0_ids : (((mkPermSet arr false false).union
      (PermSet.inverse s tmp (mkPermSet arr false false)).1).union
      (identityPermSet (PermSet.inverse s tmp (mkPermSet arr false false)).2.1)).ids =
      setUnion (setUnion (mkPermSet arr false false).ids
        (PermSet.inverse s tmp (mkPermSet arr false false)).1.ids)
        [(PermSet.inverse s tmp (mkPermSet arr false false)).2.1.identity] := rfl
  have hinv_sorted : List.Sorted (fun x y => x < y)
      (PermSet.inverse s tmp (mkPermSet arr false false)).1.ids := by
    unfold PermSet.inverse
    by_cases h : (mkPermSet arr false false).ids.length = 0
    · rw [if_pos h]
      exact List.sorted_nil
    · rw [if_neg h]
      exact sorted_sortAndUnique _
  have hgens_sorted : List.Sorted (fun x y => x < y) (mkPermSet arr false false).ids := by
    rw [hgens_ids]
    exact sorted_sortAndUnique arr
  have hsort0 : List.Sorted (fun x y => x < y) (((mkPermSet arr false false).union
      (PermSet.inverse s tmp (mkPermSet arr false false)).1).union
      (identityPermSet (PermSet.inverse s tmp (mkPermSet arr false false)).2.1)).ids := by
    rw [hgroup0_ids]
    exact setUnion_sorted _ _ (setUnion_sorted _ _ hgens_sorted hinv_sorted)
      (List.sorted_singleton _)
  have hmem0 : ∀ x ∈ (((mkPermSet arr false false).union
      (PermSet.inverse s tmp (mkPermSet arr false false)).1).union
      (identityPermSet (PermSet.inverse s tmp (mkPermSet arr false false)).2.1)).ids,
      x < (PermSet.inverse s tmp (mkPermSet arr false false)).2.1.count ∧
      GenBy s.globalDegree ((mkPermSet arr false false).ids.map (fun b => s.get b))
        ((PermSet.inverse s tmp (mkPermSet arr false false)).2.1.get x) := by
    intro x hx
    rw [hgroup0_ids, setUnion_mem] at hx
    rcases hx with hx2 | hx3
    · rw [setUnion_mem] at hx2
      rcases hx2 with hxg | hxi
      · refine ⟨lt_of_lt_of_le (hSv x hxg) hext1.cnt, ?_⟩
        rw [hext1.old x (hSv x hxg)]
        exact genBy_of_mem himgs (List.mem_map.mpr ⟨x, hxg, rfl⟩)
      · obtain ⟨hxc, a, ha, hL, hR⟩ := hinv x hxi
        refine ⟨hxc, ?_⟩
        have hAperm : PermImg s.globalDegree (s.get a) :=
          ⟨get_length s a, hs.get_vals (hSv a ha), hand a ((hgens_mem a).mp ha)⟩
        have hAW : GenBy s.globalDegree ((mkPermSet arr false false).ids.map
            (fun b => s.get b)) (s.get a) :=
          genBy_of_mem himgs (List.mem_map.mpr ⟨a, ha, rfl⟩)
        obtain ⟨B2, hB2W, hB2L, hB2R⟩ := permImg_exists_inverse himgs hAperm hAW
        have hBeq : (PermSet.inverse s tmp (mkPermSet arr false false)).2.1.get x = B2 := by
          refine inverse_unique hAperm ?_ (genBy_perm himgs hB2W).1
            (fun k hk => permImg_getD_lt (genBy_perm himgs hB2W) hk) hL hB2R
          rw [get_length, hext1.deg]
        rw [hBeq]
        exact hB2W
    · rw [List.mem_singleton] at hx3
      subst hx3
      rw [hid0]
      refine ⟨hext1.wf.count_pos, ?_⟩
      rw [hext1.wf.get_zero, hext1.deg]
      exact GenBy.idm
  have hid_mem0 : (0 : Nat) ∈ (((mkPermSet arr false false).union
      (PermSet.inverse s tmp (mkPermSet arr false false)).1).union
      (identityPermSet (PermSet.inverse s tmp (mkPermSet arr false false)).2.1)).ids := by
    rw [hgroup0_ids, setUnion_mem]
    refine Or.inr ?_
    rw [hid0]
    exact List.mem_singleton.mpr rfl
  have hclosed0 : (((mkPermSet arr false false).union
      (PermSet.inverse s tmp (mkPermSet arr false false)).1).union
      (identityPermSet (PermSet.inverse s tmp (mkPermSet arr false false)).2.1)).ids.length
      = 0 →
      ∀ a ∈ (((mkPermSet arr false false).union
        (PermSet.inverse s tmp (mkPermSet arr false false)).1).union
        (identityPermSet (PermSet.inverse s tmp (mkPermSet arr false false)).2.1)).ids,
      ∀ b ∈ (mkPermSet arr false false).ids,
      ∃ c ∈ (((mkPermSet arr false false).union
        (PermSet.inverse s tmp (mkPermSet arr false false)).1).union
        (identityPermSet (PermSet.inverse s tmp (mkPermSet arr false false)).2.1)).ids,
        (PermSet.inverse s tmp (mkPermSet arr false false)).2.1.get c =
          compList s.globalDegree
            ((PermSet.inverse s tmp (mkPermSet arr false false)).2.1.get a) (s.get b) := by
    intro h0
    exfalso
    rw [List.length_eq_zero] at h0
    rw [h0] at hid_mem0
    exact List.not_mem_nil 0 hid_mem0
  obtain ⟨j1, j2, j3, j4, j5⟩ := closureLoop_spec s hs (mkPermSet arr false false) hSv
    (s.globalDegree ^ s.globalDegree + 2)
    (((mkPermSet arr false false).union
      (PermSet.inverse s tmp (mkPermSet arr false false)).1).union
      (identityPermSet (PermSet.inverse s tmp (mkPermSet arr false false)).2.1))
    0 (PermSet.inverse s tmp (mkPermSet arr false false)).2.1
    hext1 hsort0 hmem0 hclosed0 (Nat.zero_le _) (by omega)
  have hextF := hext1.trans2 j1
  have hres_ids : (generateGroupArr s tmp arr).1.ids =
      (closureLoop (mkPermSet arr false false) (s.globalDegree ^ s.globalDegree + 2)
        (((mkPermSet arr false false).union
          (PermSet.inverse s tmp (mkPermSet arr false false)).1).union
          (identityPermSet (PermSet.inverse s tmp (mkPermSet arr false false)).2.1))
        0 (PermSet.inverse s tmp (mkPermSet arr false false)).2.1).1.ids := rfl
  have hres_st : (generateGroupArr s tmp arr).2.1 =
      (closureLoop (mkPermSet arr false false) (s.globalDegree ^ s.globalDegree + 2)
        (((mkPermSet arr false false).union
          (PermSet.inverse s tmp (mkPermSet arr false false)).1).union
          (identityPermSet (PermSet.inverse s tmp (mkPermSet arr false false)).2.1))
        0 (PermSet.inverse s tmp (mkPermSet arr false false)).2.1).2 := rfl
  have hcompl : ∀ I, GenBy s.globalDegree
      ((mkPermSet arr false false).ids.map (fun b => s.get b)) I →
      ∃ c ∈ (generateGroupArr s tmp arr).1.ids,
        (generateGroupArr s tmp arr).2.1.get c = I := by
    intro I hI
    induction hI with
    | idm =>
      refine ⟨0, ?_, ?_⟩
      · rw [hres_ids]
        exact j2 0 hid_mem0
      · rw [hres_st, hextF.wf.get_zero, hextF.deg]
    | mul A B hA hBm ihA =>
      obtain ⟨cA, hcA, hcAeq⟩ := ihA
      obtain ⟨b, hbS, rfl⟩ := List.mem_map.mp hBm
      rw [hres_ids] at hcA
      obtain ⟨c, hc, hceq⟩ := j5 cA hcA b hbS
      refine ⟨c, by rw [hres_ids]; exact hc, ?_⟩
      rw [hres_st, hceq, ← hres_st, hcAeq]
  have hmemF : ∀ x ∈ (generateGroupArr s tmp arr).1.ids,
      x < (generateGroupArr s tmp arr).2.1.count ∧
      GenBy s.globalDegree ((mkPermSet arr false false).ids.map (fun b => s.get b))
        ((generateGroupArr s tmp arr).2.1.get x) := by
    intro x hx
    rw [hres_ids] at hx
    obtain ⟨h1, h2⟩ := j4 x hx
    rw [hres_st]
    exact ⟨h1, h2⟩
  refine ⟨rfl, ?_, ?_, ?_, ?_, ?_, ?_⟩
  · intro a ha
    rw [hres_ids]
    refine j2 a ?_
    rw [hgroup0_ids, setUnion_mem, setUnion_mem]
    exact Or.inl (Or.inl ((hgens_mem a).mpr ha))
  · have : (generateGroupArr s tmp arr).2.1.identity = 0 := by
      rw [hres_st, j1.idf, hid0]
    rw [this, hres_ids]
    exact j2 0 hid_mem0
  · intro x hx
    exact (hmemF x hx).1
  · intro a ha b hb
    obtain ⟨hac, haW⟩ := hmemF a ha
    obtain ⟨hbc, hbW⟩ := hmemF b hb
    exact hcompl _ (genBy_mul_closed himgs haW hbW)
  · intro a ha
    obtain ⟨hac, haW⟩ := hmemF a ha
    have haP : PermImg s.globalDegree ((generateGroupArr s tmp arr).2.1.get a) :=
      genBy_perm himgs haW
    obtain ⟨B2, hB2W, hB2L, hB2R⟩ := permImg_exists_inverse himgs haP haW
    obtain ⟨c, hc, hceq⟩ := hcompl B2 hB2W
    refine ⟨c, hc, ?_, ?_⟩
    · rw [hceq]
      exact hB2L
    · rw [hceq]
      exact hB2R
  · intro T2 hTarr hTid hTv hTmul x hx
    have hTid0 : (0 : Nat) ∈ T2 := by
      have : (generateGroupArr s tmp arr).2.1.identity = 0 := by
        rw [hres_st, j1.idf, hid0]
      rw [← this]
      exact hTid
    have hTimg : ∀ I, GenBy s.globalDegree
        ((mkPermSet arr false false).ids.map (fun b => s.get b)) I →
        ∀ c, c < (generateGroupArr s tmp arr).2.1.count →
        (generateGroupArr s tmp arr).2.1.get c = I → c ∈ T2 := by
      intro I hI
      induction hI with
      | idm =>
        intro c hc hceq
        have hidg : (generateGroupArr s tmp arr).2.1.get 0 =
            List.range s.globalDegree := by
          rw [hres_st, hextF.wf.get_zero, hextF.deg]
        have hc0 : c = 0 := by
          rw [hres_st] at hc hceq
          refine hextF.wf.get_inj hc hextF.wf.count_pos ?_
          rw [hceq, hextF.wf.get_zero, hextF.deg]
        rw [hc0]
        exact hTid0
      | mul A B hA hBm ihA =>
        intro c hc hceq
        obtain ⟨b, hbS, rfl⟩ := List.mem_map.mp hBm
        obtain ⟨cA, hcAmem, hcAeq⟩ := hcompl A hA
        have hcAT : cA ∈ T2 := ihA cA ((hmemF cA hcAmem).1) hcAeq
        have hbT : b ∈ T2 := hTarr b ((hgens_mem b).mp hbS)
        refine hTmul cA hcAT b hbT c hc ?_
        rw [hceq, hcAeq]
        have hgb : (generateGroupArr s tmp arr).2.1.get b = s.get b := by
          rw [hres_st]
          exact hextF.old b (hSv b hbS)
        rw [hgb]
    obtain ⟨hxc, hxW⟩ := hmemF x hx
    exact hTimg _ hxW x hxc rfl

theorem C4_generateGroup_closure_witness :
    ((Wf (((mkRepo 2).register [1,0]).2) ∧
      (∀ a ∈ ([1] : List Nat), a < (((mkRepo 2).register [1,0]).2).count) ∧
      (∀ a ∈ ([1] : List Nat), ((((mkRepo 2).register [1,0]).2).get a).Nodup))) ∧
  (
      (generateGroupArr (((mkRepo 2).register [1,0]).2) (fun _ => 0) ([1] : List Nat)).1.isGroup = true ∧
      (∀ a ∈ ([1] : List Nat), a ∈ (generateGroupArr (((mkRepo 2).register [1,0]).2) (fun _ => 0) ([1] : List Nat)).1.ids) ∧
      (generateGroupArr (((mkRepo 2).register [1,0]).2) (fun _ => 0) ([1] : List Nat)).2.1.identity ∈ (generateGroupArr (((mkRepo 2).register [1,0]).2) (fun _ => 0) ([1] : List Nat)).1.ids ∧
      (∀ x ∈ (generateGroupArr (((mkRepo 2).register [1,0]).2) (fun _ => 0) ([1] : List Nat)).1.ids,
        x < (generateGroupArr (((mkRepo 2).register [1,0]).2) (fun _ => 0) ([1] : List Nat)).2.1.count) ∧
      (∀ a ∈ (generateGroupArr (((mkRepo 2).register [1,0]).2) (fun _ => 0) ([1] : List Nat)).1.ids, ∀ b ∈ (generateGroupArr (((mkRepo 2).register [1,0]).2) (fun _ => 0) ([1] : List Nat)).1.ids,
        ∃ c ∈ (generateGroupArr (((mkRepo 2).register [1,0]).2) (fun _ => 0) ([1] : List Nat)).1.ids,
          (generateGroupArr (((mkRepo 2).register [1,0]).2) (fun _ => 0) ([1] : List Nat)).2.1.get c =
            compList (((mkRepo 2).register [1,0]).2).globalDegree ((generateGroupArr (((mkRepo 2).register [1,0]).2) (fun _ => 0) ([1] : List Nat)).2.1.get a)
              ((generateGroupArr (((mkRepo 2).register [1,0]).2) (fun _ => 0) ([1] : List Nat)).2.1.get b)) ∧
      (∀ a ∈ (generateGroupArr (((mkRepo 2).register [1,0]).2) (fun _ => 0) ([1] : List Nat)).1.ids,
        ∃ b ∈ (generateGroupArr (((mkRepo 2).register [1,0]).2) (fun _ => 0) ([1] : List Nat)).1.ids,
          compList (((mkRepo 2).register [1,0]).2).globalDegree ((generateGroupArr (((mkRepo 2).register [1,0]).2) (fun _ => 0) ([1] : List Nat)).2.1.get b)
            ((generateGroupArr (((mkRepo 2).register [1,0]).2) (fun _ => 0) ([1] : List Nat)).2.1.get a) = List.range (((mkRepo 2).register [1,0]).2).globalDegree ∧
          compList (((mkRepo 2).register [1,0]).2).globalDegree ((generateGroupArr (((mkRepo 2).register [1,0]).2) (fun _ => 0) ([1] : List Nat)).2.1.get a)
            ((generateGroupArr (((mkRepo 2).register [1,0]).2) (fun _ => 0) ([1] : List Nat)).2.1.get b) = List.range (((mkRepo 2).register [1,0]).2).globalDegree) ∧
      (∀ T2 : List Nat, (∀ a ∈ ([1] : List Nat), a ∈ T2) →
        (generateGroupArr (((mkRepo 2).register [1,0]).2) (fun _ => 0) ([1] : List Nat)).2.1.identity ∈ T2 →
        (∀ t ∈ T2, t < (generateGroupArr (((mkRepo 2).register [1,0]).2) (fun _ => 0) ([1] : List Nat)).2.1.count) →
        (∀ a ∈ T2, ∀ b ∈ T2, ∀ c, c < (generateGroupArr (((mkRepo 2).register [1,0]).2) (fun _ => 0) ([1] : List Nat)).2.1.count →
          (generateGroupArr (((mkRepo 2).register [1,0]).2) (fun _ => 0) ([1] : List Nat)).2.1.get c =
            compList (((mkRepo 2).register [1,0]).2).globalDegree ((generateGroupArr (((mkRepo 2).register [1,0]).2) (fun _ => 0) ([1] : List Nat)).2.1.get a)
              ((generateGroupArr (((mkRepo 2).register [1,0]).2) (fun _ => 0) ([1] : List Nat)).2.1.get b) → c ∈ T2) →
        ∀ x ∈ (generateGroupArr (((mkRepo 2).register [1,0]).2) (fun _ => 0) ([1] : List Nat)).1.ids, x ∈ T2)) :=
  ⟨⟨by decide, by decide, by decide⟩,
    C4_generateGroup_closure (((mkRepo 2).register [1,0]).2) (fun _ => 0) [1]
      (by decide) (by decide) (by decide)⟩

/-- Modelled from the spec: the Schreier–Sims handle used by
`getQuotientStructure` (class `SchreierSimsAlgorithm` of schreier-sims.js,
which is not among the staged sources).  It exposes the group order, a
membership test, and the generator IDs; membership is modelled on the
permutation image so that it is insensitive to the IDs registered while the
enumeration runs. -/
structure SSA where
  order : Nat
  containsF : List Nat → Bool
  gens : List Nat

/-- Inner scan of the BFS: does `cand` fall in the coset of any existing
representative (`candidate * existing⁻¹ ∈ N`)?  Stops at the first hit. -/
def qsFindCoset (ssaN : SSA) (cand : Nat) : Repo → List Nat → Bool × Repo
  | st, [] => (false, st)
  | st, ex :: rest =>
    let pi := st.inverse ex
    let pc := pi.2.multiply cand pi.1
    if ssaN.containsF (pc.2.get pc.1) then (true, pc.2)
    else qsFindCoset ssaN cand pc.2 rest

/-- The generator loop of one BFS round: extend the current representative by
each generator, pushing genuinely new cosets (or throwing on overflow). -/
def qsGenLoop (ssaN : SSA) (k currRep : Nat) :
    List Nat → Repo → List Nat → Except String (List Nat × Repo)
  | [], st, reps => Except.ok (reps, st)
  | gen :: rest, st, reps =>
    let pc := st.multiply currRep gen
    let pf := qsFindCoset ssaN pc.1 pc.2 reps
    if pf.1 then qsGenLoop ssaN k currRep rest pf.2 reps
    else
      if k ≤ reps.length then Except.error "Coset Enumeration Overflow"
      else qsGenLoop ssaN k currRep rest pf.2 (reps ++ [pc.1])

/-- The BFS coset enumeration (`while head < cosetReps.length`); the fuel
`k + 2` dominates the loop count, since the list never exceeds `k` entries and
the head advances every round. -/
def qsBFS (ssaN : SSA) (gGens : List Nat) (k : Nat) :
    Nat → Repo → List Nat → Nat → Except String (List Nat × Repo)
  | 0, st, reps, _ => Except.ok (reps, st)
  | fuel+1, st, reps, head =>
    if head < reps.length then
      match qsGenLoop ssaN k (reps.getD head 0) gGens st reps with
      | Except.error e => Except.error e
      | Except.ok (reps2, st2) => qsBFS ssaN gGens k fuel st2 reps2 (head + 1)
    else Except.ok (reps, st)

/-- Index search for the quotient action: which coset does `result` lie in? -/
def qtFindIdx (ssaN : SSA) (result : Nat) : Repo → Nat → List Nat → Option Nat × Repo
  | st, _, [] => (none, st)
  | st, i, ex :: rest =>
    let pi := st.inverse ex
    let pc := pi.2.multiply result pi.1
    if ssaN.containsF (pc.2.get pc.1) then (some i, pc.2)
    else qtFindIdx ssaN result pc.2 (i + 1) rest

/-- One row of the quotient action table (`tempArr` for one generator). -/
def qtRow (ssaN : SSA) (gen : Nat) (reps : List Nat) :
    List Nat → Repo → Except String (List Nat × Repo)
  | [], st => Except.ok ([], st)
  | rep :: rrest, st =>
    let pc := st.multiply rep gen
    let pf := qtFindIdx ssaN pc.1 pc.2 0 reps
    match pf.1 with
    | none => Except.error "Coset Closure Error"
    | some idx =>
      match qtRow ssaN gen reps rrest pf.2 with
      | Except.error e => Except.error e
      | Except.ok (row, st2) => Except.ok (idx :: row, st2)

/-- Register one quotient permutation per generator. -/
def qtBuild (ssaN : SSA) (reps : List Nat) :
    List Nat → Repo → Except String (List Nat × Repo)
  | [], st => Except.ok ([], st)
  | gen :: rest, st =>
    match qtRow ssaN gen reps reps st with
    | Except.error e => Except.error e
    | Except.ok (row, st2) =>
      let pr := st2.register row
      match qtBuild ssaN reps rest pr.2 with
      | Except.error e => Except.error e
      | Except.ok (qids, st3) => Except.ok (pr.1 :: qids, st3)

/-- `getQuotientStructure(groupG, normalN, maxIndex)`; the result packages the
`QuotientGroupMap` fields (quotient group, representative table, index) with
the final store.  JS divides `BigInt`s, so `ssaN.order = 0` throws there;
the theorems below assume a positive order. -/
def getQuotientStructure (st : Repo) (tmp : Nat → Nat) (ssaG ssaN : SSA)
    (maxIndex : Nat) : Except String (PermSet × List Nat × Nat × Repo) :=
  if ssaG.order % ssaN.order ≠ 0 then Except.error "N must divide G"
  else
    let indexK := ssaG.order / ssaN.order
    if maxIndex < indexK then
      Except.error "Quotient index too large for explicit construction."
    else
      match qsBFS ssaN ssaG.gens indexK (indexK + 2) st [st.identity] 0 with
      | Except.error e => Except.error e
      | Except.ok (reps, st2) =>
        match qtBuild ssaN reps ssaG.gens st2 with
        | Except.error e => Except.error e
        | Except.ok (qids, st3) =>
          let pr := generateGroup st3 tmp (mkPermSet qids false false)
          Except.ok (pr.1, reps, indexK, pr.2.1)

theorem qsGenLoop_reps (ssaN : SSA) (k currRep : Nat) :
    ∀ (gl : List Nat) (st : Repo) (reps : List Nat) (res : List Nat × Repo),
    qsGenLoop ssaN k currRep gl st reps = Except.ok res →
    ∃ ext, res.1 = reps ++ ext := by
  intro gl
  induction gl with
  | nil =>
    intro st reps res h
    refine ⟨[], ?_⟩
    rw [List.append_nil]
    exact (congrArg Prod.fst (Except.ok.inj h)).symm
  | cons gen rest ih =>
    intro st reps res h
    unfold qsGenLoop at h
    by_cases hf : (qsFindCoset ssaN (st.multiply currRep gen).1
        (st.multiply currRep gen).2 reps).1 = true
    · rw [if_pos hf] at h
      exact ih _ _ _ h
    · rw [if_neg hf] at h
      by_cases hk : k ≤ reps.length
      · rw [if_pos hk] at h
        cases h
      · rw [if_neg hk] at h
        obtain ⟨ext, hext⟩ := ih _ _ _ h
        refine ⟨(st.multiply currRep gen).1 :: ext, ?_⟩
        rw [hext, List.append_assoc]
        rfl

theorem qsBFS_reps (ssaN : SSA) (gGens : List Nat) (k : Nat) :
    ∀ (fuel : Nat) (st : Repo) (reps : List Nat) (head : Nat) (res : List Nat × Repo),
    qsBFS ssaN gGens k fuel st reps head = Except.ok res →
    ∃ ext, res.1 = reps ++ ext := by
  intro fuel
  induction fuel with
  | zero =>
    intro st reps head res h
    refine ⟨[], ?_⟩
    rw [List.append_nil]
    exact (congrArg Prod.fst (Except.ok.inj h)).symm
  | succ fuel ih =>
    intro st reps head res h
    unfold qsBFS at h
    by_cases hh : head < reps.length
    · rw [if_pos hh] at h
      rcases hgl : qsGenLoop ssaN k (reps.getD head 0) gGens st reps with e | pr2
      · rw [hgl] at h
        cases h
      · rw [hgl] at h
        obtain ⟨ext1, hext1⟩ := qsGenLoop_reps ssaN k (reps.getD head 0) gGens st reps pr2 hgl
        obtain ⟨ext2, hext2⟩ := ih pr2.2 pr2.1 (head + 1) res h
        refine ⟨ext1 ++ ext2, ?_⟩
        rw [hext2, hext1, List.append_assoc]
    · rw [if_neg hh] at h
      refine ⟨[], ?_⟩
      rw [List.append_nil]
      exact (congrArg Prod.fst (Except.ok.inj h)).symm

/-- C7: `getQuotientStructure` errors when the order of `N` does not divide
the order of `G`; errors when the index `[G:N]` exceeds `maxIndex`; and on
success the representative table has the identity ID at coset index 0. -/
theorem C7_quotient_structure (st : Repo) (tmp : Nat → Nat) (ssaG ssaN : SSA)
    (maxIndex : Nat) (hN : 0 < ssaN.order) :
    (¬ ssaN.order ∣ ssaG.order →
      ∃ e, getQuotientStructure st tmp ssaG ssaN maxIndex = Except.error e) ∧
    (ssaN.order ∣ ssaG.order → maxIndex < ssaG.order / ssaN.order →
      ∃ e, getQuotientStructure st tmp ssaG ssaN maxIndex = Except.error e) ∧
    (∀ q reps idx st2,
      getQuotientStructure st tmp ssaG ssaN maxIndex = Except.ok (q, reps, idx, st2) →
      reps.head? = some st.identity) := by
  refine ⟨?_, ?_, ?_⟩
  · intro hdvd
    have hmod : ssaG.order % ssaN.order ≠ 0 := by
      intro h0
      exact hdvd (Nat.dvd_of_mod_eq_zero h0)
    refine ⟨"N must divide G", ?_⟩
    unfold getQuotientStructure
    rw [if_pos hmod]
  · intro hdvd hidx
    have hmod : ¬ ssaG.order % ssaN.order ≠ 0 := by
      push_neg
      exact Nat.mod_eq_zero_of_dvd hdvd
    refine ⟨"Quotient index too large for explicit construction.", ?_⟩
    unfold getQuotientStructure
    rw [if_neg hmod, if_pos hidx]
  · intro q reps idx st2 h
    unfold getQuotientStructure at h
    by_cases hmod : ssaG.order % ssaN.order ≠ 0
    · rw [if_pos hmod] at h
      cases h
    · rw [if_neg hmod] at h
      by_cases hidx : maxIndex < ssaG.order / ssaN.order
      · rw [if_pos hidx] at h
        cases h
      · rw [if_neg hidx] at h
        rcases hb : qsBFS ssaN ssaG.gens (ssaG.order / ssaN.order)
            (ssaG.order / ssaN.order + 2) st [st.identity] 0 with e | ⟨reps1, stb⟩
        · rw [hb] at h
          cases h
        · rw [hb] at h
          dsimp only at h
          obtain ⟨ext, hext⟩ := qsBFS_reps ssaN ssaG.gens (ssaG.order / ssaN.order)
            (ssaG.order / ssaN.order + 2) st [st.identity] 0 (reps1, stb) hb
          rcases hq : qtBuild ssaN reps1 ssaG.gens stb with e | ⟨qids, st3⟩
          · rw [hq] at h
            cases h
          · rw [hq] at h
            dsimp only at h
            have hinj := Except.ok.inj h
            have hreps : reps = reps1 := (congrArg (fun r => r.2.1) hinj).symm
            rw [hreps]
            dsimp only at hext
            rw [hext]
            rfl

theorem C7_quotient_structure_witness :
    0 < (SSA.mk 1 (fun l => l = [0, 1]) []).order ∧
    ((¬ (SSA.mk 1 (fun l => l = [0, 1]) []).order ∣
        (SSA.mk 2 (fun _ => true) [1]).order →
      ∃ e, getQuotientStructure (((mkRepo 2).register [1,0]).2) (fun _ => 0)
        (SSA.mk 2 (fun _ => true) [1]) (SSA.mk 1 (fun l => l = [0, 1]) []) 2000 =
        Except.error e) ∧
    ((SSA.mk 1 (fun l => l = [0, 1]) []).order ∣ (SSA.mk 2 (fun _ => true) [1]).order →
      2000 < (SSA.mk 2 (fun _ => true) [1]).order /
        (SSA.mk 1 (fun l => l = [0, 1]) []).order →
      ∃ e, getQuotientStructure (((mkRepo 2).register [1,0]).2) (fun _ => 0)
        (SSA.mk 2 (fun _ => true) [1]) (SSA.mk 1 (fun l => l = [0, 1]) []) 2000 =
        Except.error e) ∧
    (∀ q reps idx st2,
      getQuotientStructure (((mkRepo 2).register [1,0]).2) (fun _ => 0)
        (SSA.mk 2 (fun _ => true) [1]) (SSA.mk 1 (fun l => l = [0, 1]) []) 2000 =
        Except.ok (q, reps, idx, st2) →
      reps.head? = some (((mkRepo 2).register [1,0]).2).identity)) :=
  ⟨by decide,
    C7_quotient_structure (((mkRepo 2).register [1,0]).2) (fun _ => 0)
      (SSA.mk 2 (fun _ => true) [1]) (SSA.mk 1 (fun l => l = [0, 1]) []) 2000 (by decide)⟩

/-! ## Cycle notation (parseCycles / decomposeToCycles of the notation module) -/

def isSpaceChar (c : Char) : Bool :=
  c = ' ' || c = Char.ofNat 9 || c = Char.ofNat 10 || c = Char.ofNat 13

def isSepChar (c : Char) : Bool := isSpaceChar c || c = ','

/-- The global regex scan `str.match(/\(([^)]+)\)/g)`, with each match
already stripped of its parentheses (the `replace(/[()]/g, ...)` step):
a `(`, a maximal nonempty run of non-`)` characters, and a closing `)`. -/
def scanCycles : Nat → List Char → List (List Char)
  | 0, _ => []
  | _+1, [] => []
  | fuel+1, c :: rest =>
    if c = '(' then
      let inner := rest.takeWhile (fun d => d ≠ ')')
      if inner.length = 0 then scanCycles fuel rest
      else if inner.length < rest.length then
        inner :: scanCycles fuel (rest.drop (inner.length + 1))
      else []
    else scanCycles fuel rest

def trimChars (l : List Char) : List Char :=
  ((l.dropWhile (fun c => isSpaceChar c)).reverse.dropWhile
    (fun c => isSpaceChar c)).reverse

/-- `split(/[\s,]+/)`: tokens between separator runs, with a leading empty
token when the string starts with separators and a trailing empty token when
it ends with them. -/
def splitToks : Nat → List Char → List (List Char)
  | 0, _ => [[]]
  | _+1, [] => [[]]
  | fuel+1, c :: cs =>
    let tok := (c :: cs).takeWhile (fun d => !(isSepChar d))
    let rest := (c :: cs).drop tok.length
    let rest2 := rest.dropWhile (fun d => isSepChar d)
    if rest.isEmpty then [tok]
    else if rest2.isEmpty then [tok, []]
    else tok :: splitToks fuel rest2

def digitsToNat (l : List Char) : Nat :=
  l.foldl (fun acc c => acc * 10 + (c.toNat - 48)) 0

/-- `Number(tok)` on the integer fragment: the empty string is 0, digit
strings are their value, anything else is NaN (`none`). -/
def parseNum (l : List Char) : Option Nat :=
  if l.isEmpty then some 0
  else if l.all (fun c => c.isDigit) then some (digitsToNat l) else none

/-- The `forEach` application of one parsed cycle onto the permutation
buffer: `perm[cycle[i]-1] = cycle[(i+1)%len]-1`, skipping out-of-degree
references. -/
def applyCycle (deg : Nat) (cyc : List Nat) (p : Nat → Nat) : Nat → Nat :=
  if cyc.length < 2 then p
  else (List.range cyc.length).foldl (fun p2 i =>
    let current := cyc.getD i 0 - 1
    let next := cyc.getD ((i + 1) % cyc.length) 0 - 1
    if deg ≤ current ∨ deg ≤ next then p2
    else updN p2 current next) p

/-- `parseCycles(str, degree)`. -/
def parseCycles (str : List Char) (degree : Nat) : Except String (List Nat) :=
  let cycleStrings := scanCycles (str.length + 1) str
  let cyclesO := cycleStrings.map (fun s2 =>
    (splitToks (s2.length + 1) (trimChars s2)).map parseNum)
  if cyclesO.any (fun cyc => cyc.any (fun e => e.getD 0 = 0)) then
    Except.error "Invalid cycle notation: cycles must contain positive integers."
  else
    let cycles := cyclesO.map (fun cyc => cyc.map (fun e => e.getD 0))
    let deg := if degree = 0 then (cycles.flatMap (fun c => c)).foldr max 0 else degree
    Except.ok ((List.range deg).map
      (cycles.foldl (fun p cyc => applyCycle deg cyc p) (fun i => i)))

/-- The `while (visited[curr] === 0)` walk of `decomposeToCycles`,
collecting 1-based points. -/
def collectCycle (p : Nat → Nat) : Nat → (Nat → Bool) → Nat → List Nat × (Nat → Bool)
  | 0, visited, _ => ([], visited)
  | fuel+1, visited, curr =>
    if visited curr then ([], visited)
    else
      let pr := collectCycle p fuel (updB visited curr true) (p curr)
      ((curr + 1) :: pr.1, pr.2)

/-- The outer `for (i = 0; i < n; i++)` loop of `decomposeToCycles`. -/
def decompAll (p : Nat → Nat) : List Nat → Nat → (Nat → Bool) → List (List Nat)
  | [], _, _ => []
  | i :: rest, fuel, visited =>
    if visited i then decompAll p rest fuel visited
    else if p i = i then decompAll p rest fuel (updB visited i true)
    else
      let pr := collectCycle p fuel visited i
      if 1 < pr.1.length then pr.1 :: decompAll p rest fuel pr.2
      else decompAll p rest fuel pr.2

def natToCharsAux : Nat → Nat → List Char
  | 0, _ => []
  | fuel+1, n =>
    if n = 0 then []
    else natToCharsAux fuel (n / 10) ++ [Char.ofNat (48 + n % 10)]

def natToChars (n : Nat) : List Char :=
  if n = 0 then [Char.ofNat 48] else natToCharsAux (n + 1) n

def joinSep (sep : Char) : List (List Char) → List Char
  | [] => []
  | [x] => x
  | x :: xs => x ++ sep :: joinSep sep xs

/-- `decomposeToCycles(perm)` on a raw array: `"()"` for the identity, else
the concatenation of `"(a b c)"` cycle strings. -/
def decomposeToCycles (perm : List Nat) : List Char :=
  let n := perm.length
  let cycles := decompAll (fun i => perm.getD i 0) (List.range n) (n + 1) (fun _ => false)
  match cycles with
  | [] => ['(', ')']
  | cs => (cs.map (fun cyc =>
      ('(' :: joinSep ' ' (cyc.map natToChars)) ++ [')'])).flatten

theorem C8_counterexample :
    decomposeToCycles [0] = ['(', ')'] ∧
    parseCycles (decomposeToCycles [0]) 0 = Except.ok [] ∧
    (Except.ok [] : Except String (List Nat)) ≠ Except.ok [0] :=
  ⟨by decide, by rfl, fun h => List.noConfusion (Except.ok.inj h)⟩

theorem filter_updB_card {n : Nat} {visited : Nat → Bool} {c : Nat} (hc : c < n)
    (hv : visited c = false) :
    ((Finset.range n).filter (fun x => updB visited c true x = true)).card =
      ((Finset.range n).filter (fun x => visited x = true)).card + 1 := by
  have he : (Finset.range n).filter (fun x => updB visited c true x = true) =
      insert c ((Finset.range n).filter (fun x => visited x = true)) := by
    ext x
    simp only [Finset.mem_filter, Finset.mem_insert, Finset.mem_range, updB]
    constructor
    · rintro ⟨hx, hx2⟩
      by_cases hxc : x = c
      · exact Or.inl hxc
      · rw [if_neg hxc] at hx2
        exact Or.inr ⟨hx, hx2⟩
    · rintro (rfl | ⟨hx, hx2⟩)
      · exact ⟨hc, by rw [if_pos rfl]⟩
      · refine ⟨hx, ?_⟩
        by_cases hxc : x = c
        · rw [if_pos hxc]
        · rw [if_neg hxc]; exact hx2
  rw [he, Finset.card_insert_of_not_mem]
  simp only [Finset.mem_filter, Finset.mem_range, not_and]
  intro _
  rw [hv]
  exact Bool.false_ne_true

theorem collectCycle_walk (q : Nat → Nat) (n : Nat)
    (hqv : ∀ x, x < n → q x < n) :
    ∀ fuel (visited : Nat → Bool) (curr : Nat),
    curr < n →
    (∀ x, visited x = true → x < n) →
    n + 1 ≤ ((Finset.range n).filter (fun x => visited x = true)).card + fuel →
    (∀ x, (collectCycle q fuel visited curr).2 x = true ↔
        (visited x = true ∨ (x + 1) ∈ (collectCycle q fuel visited curr).1)) ∧
    ((collectCycle q fuel visited curr).1 = [] ↔ visited curr = true) ∧
    ((collectCycle q fuel visited curr).1 ≠ [] →
        (collectCycle q fuel visited curr).1.getD 0 0 = curr + 1) ∧
    (∀ m ∈ (collectCycle q fuel visited curr).1,
        1 ≤ m ∧ m - 1 < n ∧ visited (m - 1) = false) ∧
    (∀ i, i + 1 < (collectCycle q fuel visited curr).1.length →
        q ((collectCycle q fuel visited curr).1.getD i 0 - 1) =
          (collectCycle q fuel visited curr).1.getD (i + 1) 0 - 1) ∧
    ((collectCycle q fuel visited curr).1 ≠ [] →
        (collectCycle q fuel visited curr).2
          (q ((collectCycle q fuel visited curr).1.getD
            ((collectCycle q fuel visited curr).1.length - 1) 0 - 1)) = true) ∧
    (collectCycle q fuel visited curr).1.Nodup := by
  intro fuel
  induction fuel with
  | zero =>
    intro visited curr hcur hvb hcard
    exfalso
    have hle : ((Finset.range n).filter (fun x => visited x = true)).card ≤ n := by
      calc ((Finset.range n).filter (fun x => visited x = true)).card
          ≤ (Finset.range n).card := Finset.card_filter_le _ _
        _ = n := Finset.card_range n
    omega
  | succ fuel ih =>
    intro visited curr hcur hvb hcard
    by_cases hv : visited curr = true
    · have he : collectCycle q (fuel + 1) visited curr = ([], visited) := by
        show (if visited curr then ([], visited) else _) = _
        rw [if_pos hv]
      rw [he]
      dsimp only
      refine ⟨fun x => ?_, ?_, ?_, ?_, ?_, ?_, List.nodup_nil⟩
      · simp
      · simpa using hv
      · intro h; exact absurd rfl h
      · intro m hm; exact absurd hm (List.not_mem_nil m)
      · intro i hi; simp at hi
      · intro h; exact absurd rfl h
    · have hvf : visited curr = false := by
        cases h : visited curr
        · rfl
        · exact absurd h hv
      have he : collectCycle q (fuel + 1) visited curr =
          ((curr + 1) :: (collectCycle q fuel (updB visited curr true) (q curr)).1,
            (collectCycle q fuel (updB visited curr true) (q curr)).2) := by
        show (if visited curr then ([], visited) else _) = _
        rw [if_neg hv]
      have hvb2 : ∀ x, updB visited curr true x = true → x < n := by
        intro x hx
        by_cases hxc : x = curr
        · omega
        · exact hvb x (by rwa [updB, if_neg hxc] at hx)
      have hcard2 : n + 1 ≤
          ((Finset.range n).filter (fun x => updB visited curr true x = true)).card + fuel := by
        rw [filter_updB_card hcur hvf]
        omega
      obtain ⟨ihiff, ihemp, ihhead, ihmem, ihchain, ihterm, ihnd⟩ :=
        ih (updB visited curr true) (q curr) (hqv curr hcur) hvb2 hcard2
      set pr := collectCycle q fuel (updB visited curr true) (q curr) with hpr
      rw [he]
      dsimp only
      refine ⟨?_, ?_, ?_, ?_, ?_, ?_, ?_⟩
      · intro x
        rw [ihiff x]
        constructor
        · rintro (hx | hx)
          · by_cases hxc : x = curr
            · subst hxc
              exact Or.inr (List.mem_cons_self _ _)
            · rw [updB, if_neg hxc] at hx
              exact Or.inl hx
          · exact Or.inr (List.mem_cons_of_mem _ hx)
        · rintro (hx | hx)
          · by_cases hxc : x = curr
            · exact Or.inl (by rw [updB, if_pos hxc])
            · exact Or.inl (by rw [updB, if_neg hxc]; exact hx)
          · rcases List.mem_cons.mp hx with hx1 | hx2
            · have : x = curr := by omega
              exact Or.inl (by rw [updB, if_pos this])
            · exact Or.inr hx2
      · constructor
        · intro h; exact absurd h (List.cons_ne_nil _ _)
        · intro h; rw [hvf] at h; exact Bool.noConfusion h
      · intro _
        rfl
      · intro m hm
        rcases List.mem_cons.mp hm with hm1 | hm2
        · subst hm1
          exact ⟨by omega, by omega, by simpa using hvf⟩
        · obtain ⟨h1, h2, h3⟩ := ihmem m hm2
          refine ⟨h1, h2, ?_⟩
          by_cases hmc : m - 1 = curr
          · rw [updB, if_pos hmc] at h3
            exact absurd h3 (by simp)
          · rwa [updB, if_neg hmc] at h3
      · intro i hi
        cases i with
        | zero =>
          simp only [List.length_cons] at hi
          have hne : pr.1 ≠ [] := by
            intro h
            rw [h] at hi
            simp at hi
          have hh := ihhead hne
          rw [List.getD_cons_zero, List.getD_cons_succ]
          rw [hh]
          simp only [Nat.add_sub_cancel]
        | succ i =>
          simp only [List.length_cons] at hi
          rw [List.getD_cons_succ, List.getD_cons_succ]
          exact ihchain i (by omega)
      · intro _
        by_cases hne : pr.1 = []
        · have hg : ((curr + 1) :: pr.1).getD (((curr + 1) :: pr.1).length - 1) 0 = curr + 1 := by
            rw [hne]
            rfl
          rw [hg]
          have h2 : curr + 1 - 1 = curr := by omega
          rw [h2]
          exact (ihiff (q curr)).mpr (Or.inl (ihemp.mp hne))
        · have hg : ((curr + 1) :: pr.1).getD (((curr + 1) :: pr.1).length - 1) 0 =
              pr.1.getD (pr.1.length - 1) 0 := by
            rw [List.length_cons]
            have h2 : pr.1.length + 1 - 1 = (pr.1.length - 1) + 1 := by
              have := List.length_pos.mpr hne
              omega
            rw [h2, List.getD_cons_succ]
          rw [hg]
          exact ihterm hne
      · refine List.nodup_cons.mpr ⟨?_, ihnd⟩
        intro hmem2
        obtain ⟨_, _, h3⟩ := ihmem _ hmem2
        have : curr + 1 - 1 = curr := by omega
        rw [this, updB, if_pos rfl] at h3
        exact absurd h3 (by simp)

theorem collectCycle_spec (q : Nat → Nat) (n : Nat)
    (hqv : ∀ x, x < n → q x < n)
    (hinj : ∀ x y, x < n → y < n → q x = q y → x = y)
    (fuel : Nat) (visited : Nat → Bool) (start : Nat)
    (hst : start < n) (hsv : visited start = false)
    (hbc : ∀ y, y < n → visited (q y) = true → visited y = true)
    (hvb : ∀ x, visited x = true → x < n)
    (hcard : n + 1 ≤ ((Finset.range n).filter (fun x => visited x = true)).card + fuel) :
    (∀ x, (collectCycle q fuel visited start).2 x = true ↔
        (visited x = true ∨ (x + 1) ∈ (collectCycle q fuel visited start).1)) ∧
    (collectCycle q fuel visited start).1 ≠ [] ∧
    (collectCycle q fuel visited start).1.getD 0 0 = start + 1 ∧
    (∀ m ∈ (collectCycle q fuel visited start).1,
        1 ≤ m ∧ m - 1 < n ∧ visited (m - 1) = false) ∧
    (collectCycle q fuel visited start).1.Nodup ∧
    (∀ i, i < (collectCycle q fuel visited start).1.length →
        q ((collectCycle q fuel visited start).1.getD i 0 - 1) =
          (collectCycle q fuel visited start).1.getD
            ((i + 1) % (collectCycle q fuel visited start).1.length) 0 - 1) := by
  obtain ⟨hiff, hemp, hhead, hmem, hchain, hterm, hnd⟩ :=
    collectCycle_walk q n hqv fuel visited start hst hvb hcard
  set cs := (collectCycle q fuel visited start).1 with hcs
  have hne : cs ≠ [] := by
    intro h
    have h2 := hemp.mp h
    rw [hsv] at h2
    exact Bool.noConfusion h2
  have hlenpos : 0 < cs.length := List.length_pos.mpr hne
  have hwrap : q (cs.getD (cs.length - 1) 0 - 1) = start := by
    have ht := hterm hne
    set L := cs.getD (cs.length - 1) 0 - 1 with hL
    have hLmem : cs.getD (cs.length - 1) 0 ∈ cs := by
      rw [List.getD_eq_getElem _ _ (by omega)]
      exact List.getElem_mem _
    obtain ⟨hL1, hL2, hL3⟩ := hmem _ hLmem
    rcases (hiff (q L)).mp ht with hcase | hcase
    · exact absurd (hbc L hL2 hcase) (by rw [hL3]; simp)
    · obtain ⟨j, hj, hjeq⟩ := List.mem_iff_getElem.mp hcase
      have hjeq2 : cs.getD j 0 = q L + 1 := by
        rw [List.getD_eq_getElem _ _ hj]
        exact hjeq
      cases j with
      | zero =>
        rw [hhead hne] at hjeq2
        omega
      | succ j =>
        exfalso
        have hc := hchain j (by omega)
        have hjm : cs.getD j 0 ∈ cs := by
          rw [List.getD_eq_getElem _ _ (by omega)]
          exact List.getElem_mem _
        obtain ⟨hj1, hj2, _⟩ := hmem _ hjm
        have h5 : q (cs.getD j 0 - 1) = q L := by
          rw [hc, hjeq2]
          omega
        have heq : cs.getD j 0 - 1 = L := hinj _ _ hj2 hL2 h5
        have heq2 : cs.getD j 0 = cs.getD (cs.length - 1) 0 := by omega
        have hj3 := nodup_getD_inj hnd (show j < cs.length by omega)
          (show cs.length - 1 < cs.length by omega) heq2
        omega
  refine ⟨hiff, hne, hhead hne, hmem, hnd, ?_⟩
  intro i hi
  by_cases hilast : i + 1 < cs.length
  · rw [Nat.mod_eq_of_lt hilast]
    exact hchain i hilast
  · have hieq : i = cs.length - 1 := by omega
    subst hieq
    have hm0 : (cs.length - 1 + 1) % cs.length = 0 := by
      have h1 : cs.length - 1 + 1 = cs.length := by omega
      rw [h1, Nat.mod_self]
    rw [hm0, hhead hne, hwrap]
    omega

theorem decompAll_spec (q : Nat → Nat) (n : Nat)
    (hqv : ∀ x, x < n → q x < n)
    (hinj : ∀ x y, x < n → y < n → q x = q y → x = y) :
    ∀ (idxs : List Nat) (visited : Nat → Bool),
    (∀ i ∈ idxs, i < n) →
    (∀ y, y < n → visited (q y) = true → visited y = true) →
    (∀ x, visited x = true → x < n) →
    (∀ cyc ∈ decompAll q idxs (n + 1) visited,
        2 ≤ cyc.length ∧
        (∀ m ∈ cyc, 1 ≤ m ∧ m - 1 < n) ∧
        (∀ i, i < cyc.length →
            q (cyc.getD i 0 - 1) = cyc.getD ((i + 1) % cyc.length) 0 - 1)) ∧
    (∀ j ∈ idxs, visited j = false → q j ≠ j →
        ∃ cyc ∈ decompAll q idxs (n + 1) visited, (j + 1) ∈ cyc) := by
  intro idxs
  induction idxs with
  | nil =>
    intro visited _ _ _
    constructor
    · intro cyc hcyc
      exact absurd hcyc (List.not_mem_nil cyc)
    · intro j hj
      exact absurd hj (List.not_mem_nil j)
  | cons i rest ih =>
    intro visited hib hbc hvb
    have hin : i < n := hib i (List.mem_cons_self _ _)
    by_cases hvi : visited i = true
    · have he : decompAll q (i :: rest) (n + 1) visited =
          decompAll q rest (n + 1) visited := by
        show (if visited i then _ else _) = _
        rw [if_pos hvi]
      obtain ⟨iha, ihb⟩ := ih visited (fun x hx => hib x (List.mem_cons_of_mem _ hx)) hbc hvb
      rw [he]
      refine ⟨iha, ?_⟩
      intro j hj hjv hjq
      rcases List.mem_cons.mp hj with rfl | hj2
      · rw [hjv] at hvi
        exact absurd hvi (by simp)
      · exact ihb j hj2 hjv hjq
    · have hvif : visited i = false := by
        cases h : visited i
        · rfl
        · exact absurd h hvi
      by_cases hfix : q i = i
      · have he : decompAll q (i :: rest) (n + 1) visited =
            decompAll q rest (n + 1) (updB visited i true) := by
          show (if visited i then _ else _) = _
          rw [if_neg hvi, if_pos hfix]
        have hbc2 : ∀ y, y < n → updB visited i true (q y) = true →
            updB visited i true y = true := by
          intro y hy hqy
          by_cases hqyi : q y = i
          · have : y = i := hinj y i hy hin (by rw [hqyi, hfix])
            rw [updB, if_pos this]
          · rw [updB, if_neg hqyi] at hqy
            have := hbc y hy hqy
            by_cases hyi : y = i
            · rw [updB, if_pos hyi]
            · rw [updB, if_neg hyi]
              exact this
        have hvb2 : ∀ x, updB visited i true x = true → x < n := by
          intro x hx
          by_cases hxi : x = i
          · omega
          · exact hvb x (by rwa [updB, if_neg hxi] at hx)
        obtain ⟨iha, ihb⟩ := ih (updB visited i true)
          (fun x hx => hib x (List.mem_cons_of_mem _ hx)) hbc2 hvb2
        rw [he]
        refine ⟨iha, ?_⟩
        intro j hj hjv hjq
        rcases List.mem_cons.mp hj with rfl | hj2
        · exact absurd hfix hjq
        · refine ihb j hj2 ?_ hjq
          by_cases hji : j = i
          · subst hji
            exact absurd hfix hjq
          · rw [updB, if_neg hji]
            exact hjv
      · -- moved point: collect a cycle
        obtain ⟨hiff, hne, hhead, hmem, hnd, hlink⟩ :=
          collectCycle_spec q n hqv hinj (n + 1) visited i hin hvif hbc hvb (by omega)
        set cs := (collectCycle q (n + 1) visited i).1 with hcs
        have hlenpos : 0 < cs.length := List.length_pos.mpr hne
        have h21 : 1 < cs.length := by
          rcases Nat.lt_or_ge 1 cs.length with h | h
          · exact h
          · exfalso
            have hl1 : cs.length = 1 := by omega
            have := hlink 0 (by omega)
            rw [hl1] at this
            simp only [Nat.mod_self] at this
            rw [hhead] at this
            have : q i = i := by
              have h2 : i + 1 - 1 = i := by omega
              rw [h2] at this
              exact this
            exact absurd this hfix
        have he : decompAll q (i :: rest) (n + 1) visited =
            cs :: decompAll q rest (n + 1) (collectCycle q (n + 1) visited i).2 := by
          show (if visited i then _
            else if q i = i then _
            else if 1 < (collectCycle q (n + 1) visited i).1.length
              then (collectCycle q (n + 1) visited i).1 :: _ else _) = _
          rw [if_neg hvi, if_neg hfix, if_pos h21]
        -- predecessor index inside the cycle
        have hpred : ∀ j, j < cs.length →
            ∃ jp, jp < cs.length ∧ q (cs.getD jp 0 - 1) = cs.getD j 0 - 1 := by
          intro j hj
          cases j with
          | zero =>
            refine ⟨cs.length - 1, by omega, ?_⟩
            have := hlink (cs.length - 1) (by omega)
            have hm0 : (cs.length - 1 + 1) % cs.length = 0 := by
              have h1 : cs.length - 1 + 1 = cs.length := by omega
              rw [h1, Nat.mod_self]
            rwa [hm0] at this
          | succ j =>
            refine ⟨j, by omega, ?_⟩
            have := hlink j (by omega)
            rwa [Nat.mod_eq_of_lt (by omega : j + 1 < cs.length)] at this
        have hgetDmem : ∀ j, j < cs.length → cs.getD j 0 ∈ cs := by
          intro j hj
          rw [List.getD_eq_getElem _ _ hj]
          exact List.getElem_mem _
        have hbc2 : ∀ y, y < n → (collectCycle q (n + 1) visited i).2 (q y) = true →
            (collectCycle q (n + 1) visited i).2 y = true := by
          intro y hy hqy
          rcases (hiff (q y)).mp hqy with hc | hc
          · exact (hiff y).mpr (Or.inl (hbc y hy hc))
          · obtain ⟨j, hj, hjeq⟩ := List.mem_iff_getElem.mp hc
            have hjeq2 : cs.getD j 0 = q y + 1 := by
              rw [List.getD_eq_getElem _ _ hj]
              exact hjeq
            obtain ⟨jp, hjp, hjpeq⟩ := hpred j hj
            obtain ⟨hp1, hp2, _⟩ := hmem _ (hgetDmem jp hjp)
            have h5 : q (cs.getD jp 0 - 1) = q y := by
              rw [hjpeq, hjeq2]
              omega
            have h6 : cs.getD jp 0 - 1 = y := hinj _ _ hp2 hy h5
            refine (hiff y).mpr (Or.inr ?_)
            have h7 : y + 1 = cs.getD jp 0 := by omega
            rw [h7]
            exact hgetDmem jp hjp
        have hvb2 : ∀ x, (collectCycle q (n + 1) visited i).2 x = true → x < n := by
          intro x hx
          rcases (hiff x).mp hx with hc | hc
          · exact hvb x hc
          · obtain ⟨_, h2, _⟩ := hmem _ hc
            omega
        obtain ⟨iha, ihb⟩ := ih (collectCycle q (n + 1) visited i).2
          (fun x hx => hib x (List.mem_cons_of_mem _ hx)) hbc2 hvb2
        rw [he]
        constructor
        · intro cyc hcyc
          rcases List.mem_cons.mp hcyc with rfl | hcyc2
          · exact ⟨by omega, fun m hm => ⟨(hmem m hm).1, (hmem m hm).2.1⟩, hlink⟩
          · exact iha cyc hcyc2
        · intro j hj hjv hjq
          rcases List.mem_cons.mp hj with rfl | hj2
          · refine ⟨cs, List.mem_cons_self _ _, ?_⟩
            rw [← hhead]
            exact hgetDmem 0 (by omega)
          · by_cases hpj : (collectCycle q (n + 1) visited i).2 j = true
            · rcases (hiff j).mp hpj with hc | hc
              · rw [hjv] at hc
                exact absurd hc (by simp)
              · exact ⟨cs, List.mem_cons_self _ _, hc⟩
            · have hpjf : (collectCycle q (n + 1) visited i).2 j = false := by
                cases h : (collectCycle q (n + 1) visited i).2 j
                · rfl
                · exact absurd h hpj
              obtain ⟨cyc, hcyc, hmemj⟩ := ihb j hj2 hpjf hjq
              exact ⟨cyc, List.mem_cons_of_mem _ hcyc, hmemj⟩

theorem applyCycle_fold_spec (deg : Nat) (q : Nat → Nat) (cyc : List Nat)
    (hmem : ∀ m ∈ cyc, 1 ≤ m ∧ m - 1 < deg ∧ q (m - 1) < deg)
    (hlink : ∀ i, i < cyc.length →
        q (cyc.getD i 0 - 1) = cyc.getD ((i + 1) % cyc.length) 0 - 1) :
    ∀ (L : List Nat) (f : Nat → Nat), (∀ i ∈ L, i < cyc.length) →
    (∀ x, (L.foldl (fun p2 i =>
        if deg ≤ cyc.getD i 0 - 1 ∨ deg ≤ cyc.getD ((i + 1) % cyc.length) 0 - 1 then p2
        else updN p2 (cyc.getD i 0 - 1) (cyc.getD ((i + 1) % cyc.length) 0 - 1)) f) x = f x ∨
      (L.foldl (fun p2 i =>
        if deg ≤ cyc.getD i 0 - 1 ∨ deg ≤ cyc.getD ((i + 1) % cyc.length) 0 - 1 then p2
        else updN p2 (cyc.getD i 0 - 1) (cyc.getD ((i + 1) % cyc.length) 0 - 1)) f) x = q x) ∧
    (∀ x, f x = q x → (L.foldl (fun p2 i =>
        if deg ≤ cyc.getD i 0 - 1 ∨ deg ≤ cyc.getD ((i + 1) % cyc.length) 0 - 1 then p2
        else updN p2 (cyc.getD i 0 - 1) (cyc.getD ((i + 1) % cyc.length) 0 - 1)) f) x = q x) ∧
    (∀ i ∈ L, (L.foldl (fun p2 i =>
        if deg ≤ cyc.getD i 0 - 1 ∨ deg ≤ cyc.getD ((i + 1) % cyc.length) 0 - 1 then p2
        else updN p2 (cyc.getD i 0 - 1) (cyc.getD ((i + 1) % cyc.length) 0 - 1)) f)
        (cyc.getD i 0 - 1) = q (cyc.getD i 0 - 1)) := by
  intro L
  induction L with
  | nil =>
    intro f _
    refine ⟨fun x => Or.inl rfl, fun x hx => hx, ?_⟩
    intro i hi
    exact absurd hi (List.not_mem_nil i)
  | cons i L ihL =>
    intro f hLb
    have hi : i < cyc.length := hLb i (List.mem_cons_self _ _)
    have himem : cyc.getD i 0 ∈ cyc := by
      rw [List.getD_eq_getElem _ _ hi]
      exact List.getElem_mem _
    obtain ⟨hm1, hm2, hm3⟩ := hmem _ himem
    have hnexteq : cyc.getD ((i + 1) % cyc.length) 0 - 1 = q (cyc.getD i 0 - 1) :=
      (hlink i hi).symm
    have hcond : ¬ (deg ≤ cyc.getD i 0 - 1 ∨ deg ≤ cyc.getD ((i + 1) % cyc.length) 0 - 1) := by
      rw [hnexteq]
      push_neg
      exact ⟨hm2, hm3⟩
    have hstep : (List.foldl (fun p2 i =>
        if deg ≤ cyc.getD i 0 - 1 ∨ deg ≤ cyc.getD ((i + 1) % cyc.length) 0 - 1 then p2
        else updN p2 (cyc.getD i 0 - 1) (cyc.getD ((i + 1) % cyc.length) 0 - 1)) f (i :: L)) =
        (List.foldl (fun p2 i =>
        if deg ≤ cyc.getD i 0 - 1 ∨ deg ≤ cyc.getD ((i + 1) % cyc.length) 0 - 1 then p2
        else updN p2 (cyc.getD i 0 - 1) (cyc.getD ((i + 1) % cyc.length) 0 - 1))
          (updN f (cyc.getD i 0 - 1) (q (cyc.getD i 0 - 1))) L) := by
      rw [List.foldl_cons, if_neg hcond, hnexteq]
    set g := updN f (cyc.getD i 0 - 1) (q (cyc.getD i 0 - 1)) with hg
    have hga : ∀ x, g x = f x ∨ g x = q x := by
      intro x
      by_cases hx : x = cyc.getD i 0 - 1
      · refine Or.inr ?_
        rw [hg, updN, if_pos hx, hx]
      · refine Or.inl ?_
        rw [hg, updN, if_neg hx]
    have hgb : ∀ x, f x = q x → g x = q x := by
      intro x hx
      by_cases hxc : x = cyc.getD i 0 - 1
      · rw [hg, updN, if_pos hxc, hxc]
      · rw [hg, updN, if_neg hxc]
        exact hx
    have hgc : g (cyc.getD i 0 - 1) = q (cyc.getD i 0 - 1) := by
      rw [hg, updN, if_pos rfl]
    obtain ⟨ih1, ih2, ih3⟩ := ihL g (fun x hx => hLb x (List.mem_cons_of_mem _ hx))
    refine ⟨?_, ?_, ?_⟩
    · intro x
      rw [hstep]
      rcases ih1 x with hx | hx
      · rcases hga x with hy | hy
        · exact Or.inl (by rw [hx, hy])
        · exact Or.inr (by rw [hx, hy])
      · exact Or.inr hx
    · intro x hx
      rw [hstep]
      exact ih2 x (hgb x hx)
    · intro j hj
      rcases List.mem_cons.mp hj with rfl | hj2
      · rw [hstep]
        exact ih2 _ hgc
      · rw [hstep]
        exact ih3 j hj2

theorem applyAll_spec (deg : Nat) (q : Nat → Nat) :
    ∀ (CS : List (List Nat)) (f : Nat → Nat),
    (∀ cyc ∈ CS, 2 ≤ cyc.length ∧ (∀ m ∈ cyc, 1 ≤ m ∧ m - 1 < deg ∧ q (m - 1) < deg) ∧
        (∀ i, i < cyc.length →
            q (cyc.getD i 0 - 1) = cyc.getD ((i + 1) % cyc.length) 0 - 1)) →
    (∀ x, (CS.foldl (fun p cyc => applyCycle deg cyc p) f) x = f x ∨
        (CS.foldl (fun p cyc => applyCycle deg cyc p) f) x = q x) ∧
    (∀ x, f x = q x → (CS.foldl (fun p cyc => applyCycle deg cyc p) f) x = q x) ∧
    (∀ cyc ∈ CS, ∀ m ∈ cyc,
        (CS.foldl (fun p cyc => applyCycle deg cyc p) f) (m - 1) = q (m - 1)) := by
  intro CS
  induction CS with
  | nil =>
    intro f _
    refine ⟨fun x => Or.inl rfl, fun x hx => hx, ?_⟩
    intro cyc hcyc
    exact absurd hcyc (List.not_mem_nil cyc)
  | cons cyc CS ihCS =>
    intro f hprops
    obtain ⟨hlen2, hmem, hlink⟩ := hprops cyc (List.mem_cons_self _ _)
    have happ : applyCycle deg cyc f = (List.range cyc.length).foldl (fun p2 i =>
        if deg ≤ cyc.getD i 0 - 1 ∨ deg ≤ cyc.getD ((i + 1) % cyc.length) 0 - 1 then p2
        else updN p2 (cyc.getD i 0 - 1) (cyc.getD ((i + 1) % cyc.length) 0 - 1)) f := by
      show (if cyc.length < 2 then f else _) = _
      rw [if_neg (by omega)]
    obtain ⟨in1, in2, in3⟩ := applyCycle_fold_spec deg q cyc hmem hlink (List.range cyc.length) f
      (fun i hi => List.mem_range.mp hi)
    rw [← happ] at in1 in2 in3
    set g := applyCycle deg cyc f with hgdef
    have hstep : (cyc :: CS).foldl (fun p cyc => applyCycle deg cyc p) f =
        CS.foldl (fun p cyc => applyCycle deg cyc p) g := by
      rw [List.foldl_cons]
    obtain ⟨ih1, ih2, ih3⟩ := ihCS g (fun c hc => hprops c (List.mem_cons_of_mem _ hc))
    refine ⟨?_, ?_, ?_⟩
    · intro x
      rw [hstep]
      rcases ih1 x with hx | hx
      · rcases in1 x with hy | hy
        · exact Or.inl (by rw [hx, hy])
        · exact Or.inr (by rw [hx, hy])
      · exact Or.inr hx
    · intro x hx
      rw [hstep]
      exact ih2 x (in2 x hx)
    · intro c hc m hm
      rcases List.mem_cons.mp hc with rfl | hc2
      · rw [hstep]
        refine ih2 _ ?_
        obtain ⟨j, hj, hjeq⟩ := List.mem_iff_getElem.mp hm
        have hjeq2 : c.getD j 0 = m := by
          rw [List.getD_eq_getElem _ _ hj]
          exact hjeq
        rw [← hjeq2]
        exact in3 j (List.mem_range.mpr hj)
      · rw [hstep]
        exact ih3 c hc2 m hm


/-- Character facts for rendered digits. -/
theorem goodDigit_ofNat (d : Nat) (hd : d < 10) :
    (Char.ofNat (48 + d)).isDigit = true ∧ isSpaceChar (Char.ofNat (48 + d)) = false ∧
      isSepChar (Char.ofNat (48 + d)) = false ∧
      Char.ofNat (48 + d) ≠ '(' ∧ Char.ofNat (48 + d) ≠ ')' := by
  interval_cases d <;> exact ⟨by decide, by decide, by decide, by decide, by decide⟩

theorem natToCharsAux_chars : ∀ fuel n, ∀ c ∈ natToCharsAux fuel n,
    c.isDigit = true ∧ isSpaceChar c = false ∧ isSepChar c = false ∧
      c ≠ '(' ∧ c ≠ ')' := by
  intro fuel
  induction fuel with
  | zero =>
    intro n c hc
    exact absurd hc (List.not_mem_nil c)
  | succ fuel ih =>
    intro n c hc
    by_cases hn : n = 0
    · rw [show natToCharsAux (fuel + 1) n = [] by
        show (if n = 0 then _ else _) = _
        rw [if_pos hn]] at hc
      exact absurd hc (List.not_mem_nil c)
    · rw [show natToCharsAux (fuel + 1) n =
          natToCharsAux fuel (n / 10) ++ [Char.ofNat (48 + n % 10)] by
        show (if n = 0 then _ else _) = _
        rw [if_neg hn]] at hc
      rcases List.mem_append.mp hc with hc1 | hc2
      · exact ih (n / 10) c hc1
      · have : c = Char.ofNat (48 + n % 10) := by
          rcases List.mem_singleton.mp hc2 with rfl
          rfl
        rw [this]
        exact goodDigit_ofNat (n % 10) (Nat.mod_lt n (by omega))

theorem natToChars_chars (n : Nat) : ∀ c ∈ natToChars n,
    c.isDigit = true ∧ isSpaceChar c = false ∧ isSepChar c = false ∧
      c ≠ '(' ∧ c ≠ ')' := by
  intro c hc
  unfold natToChars at hc
  by_cases hn : n = 0
  · rw [if_pos hn] at hc
    rcases List.mem_singleton.mp hc with rfl
    exact ⟨by decide, by decide, by decide, by decide, by decide⟩
  · rw [if_neg hn] at hc
    exact natToCharsAux_chars (n + 1) n c hc

theorem natToCharsAux_ne_nil (fuel n : Nat) (hf : 0 < fuel) (hn : n ≠ 0) :
    natToCharsAux fuel n ≠ [] := by
  cases fuel with
  | zero => omega
  | succ fuel =>
    rw [show natToCharsAux (fuel + 1) n =
        natToCharsAux fuel (n / 10) ++ [Char.ofNat (48 + n % 10)] by
      show (if n = 0 then _ else _) = _
      rw [if_neg hn]]
    simp

theorem natToChars_ne_nil (n : Nat) : natToChars n ≠ [] := by
  unfold natToChars
  by_cases hn : n = 0
  · rw [if_pos hn]
    simp
  · rw [if_neg hn]
    exact natToCharsAux_ne_nil (n + 1) n (by omega) hn

theorem digitsToNat_append (A : List Char) (c : Char) :
    digitsToNat (A ++ [c]) = digitsToNat A * 10 + (c.toNat - 48) := by
  unfold digitsToNat
  rw [List.foldl_append]
  rfl

theorem digitsToNat_natToCharsAux : ∀ fuel n, n < fuel →
    digitsToNat (natToCharsAux fuel n) = n := by
  intro fuel
  induction fuel with
  | zero =>
    intro n hn
    omega
  | succ fuel ih =>
    intro n hn
    by_cases h0 : n = 0
    · rw [show natToCharsAux (fuel + 1) n = [] by
        show (if n = 0 then _ else _) = _
        rw [if_pos h0]]
      rw [h0]
      rfl
    · rw [show natToCharsAux (fuel + 1) n =
          natToCharsAux fuel (n / 10) ++ [Char.ofNat (48 + n % 10)] by
        show (if n = 0 then _ else _) = _
        rw [if_neg h0]]
      rw [digitsToNat_append]
      have hlt : n / 10 < fuel := by
        have h1 : n / 10 < n := Nat.div_lt_self (by omega) (by omega)
        omega
      rw [ih (n / 10) hlt]
      have hv : (Char.ofNat (48 + n % 10)).toNat = 48 + n % 10 := by
        have hm : n % 10 < 10 := Nat.mod_lt n (by omega)
        interval_cases h : n % 10 <;> decide
      rw [hv]
      have := Nat.div_add_mod n 10
      omega

theorem parseNum_natToChars (m : Nat) : parseNum (natToChars m) = some m := by
  by_cases hm : m = 0
  · rw [hm]
    decide
  · unfold parseNum
    rw [if_neg (by
      have := natToChars_ne_nil m
      cases h : natToChars m
      · exact absurd h this
      · simp)]
    rw [if_pos (by
      rw [List.all_eq_true]
      intro c hc
      exact (natToChars_chars m c hc).1)]
    unfold natToChars
    rw [if_neg hm]
    rw [digitsToNat_natToCharsAux (m + 1) m (by omega)]

theorem takeWhile_all {f : Char → Bool} :
    ∀ (x : List Char), (∀ c ∈ x, f c = true) → x.takeWhile f = x := by
  intro x
  induction x with
  | nil => intro _; rfl
  | cons a t ih =>
    intro h
    rw [List.takeWhile_cons, if_pos (h a (List.mem_cons_self _ _)),
      ih (fun c hc => h c (List.mem_cons_of_mem _ hc))]

theorem takeWhile_all_append {f : Char → Bool} :
    ∀ (x : List Char) (s : Char) (r : List Char),
    (∀ c ∈ x, f c = true) → f s = false → ((x ++ s :: r).takeWhile f) = x := by
  intro x
  induction x with
  | nil =>
    intro s r _ hs
    rw [List.nil_append, List.takeWhile_cons, if_neg (by rw [hs]; exact Bool.false_ne_true)]
  | cons a t ih =>
    intro s r hx hs
    rw [List.cons_append, List.takeWhile_cons, if_pos (hx a (List.mem_cons_self _ _)),
      ih s r (fun c hc => hx c (List.mem_cons_of_mem _ hc)) hs]

theorem dropWhile_eq_self_of_head {f : Char → Bool} (l : List Char)
    (h : ∀ c, l.head? = some c → f c = false) : l.dropWhile f = l := by
  cases l with
  | nil => rfl
  | cons a t =>
    refine List.dropWhile_cons_of_neg ?_
    rw [h a rfl]
    exact Bool.false_ne_true

theorem trimChars_eq_self (l : List Char)
    (h1 : ∀ c, l.head? = some c → isSpaceChar c = false)
    (h2 : ∀ c, l.getLast? = some c → isSpaceChar c = false) : trimChars l = l := by
  unfold trimChars
  rw [dropWhile_eq_self_of_head l h1]
  rw [dropWhile_eq_self_of_head l.reverse (by
    intro c hc
    rw [List.head?_reverse] at hc
    exact h2 c hc)]
  exact List.reverse_reverse l

theorem joinSep_head (sep : Char) (y : List Char) (ys : List (List Char)) (hy : y ≠ []) :
    ∃ d t, joinSep sep (y :: ys) = d :: t ∧ d ∈ y := by
  cases y with
  | nil => exact absurd rfl hy
  | cons a y2 =>
    cases ys with
    | nil => exact ⟨a, y2, rfl, List.mem_cons_self _ _⟩
    | cons z zs =>
      refine ⟨a, y2 ++ sep :: joinSep sep (z :: zs), ?_, List.mem_cons_self _ _⟩
      rfl

theorem joinSep_getLast (sep : Char) :
    ∀ (toks : List (List Char)), toks ≠ [] → (∀ t ∈ toks, t ≠ []) →
    ∃ d, (joinSep sep toks).getLast? = some d ∧ ∃ t ∈ toks, d ∈ t := by
  intro toks
  induction toks with
  | nil => intro h _; exact absurd rfl h
  | cons x xs ih =>
    intro _ hne
    cases xs with
    | nil =>
      have hx : x ≠ [] := hne x (List.mem_cons_self _ _)
      refine ⟨x.getLast hx, ?_, x, List.mem_cons_self _ _, List.getLast_mem hx⟩
      show x.getLast? = some (x.getLast hx)
      exact List.getLast?_eq_getLast x hx
    | cons y ys =>
      obtain ⟨d, hd, t, ht, hdt⟩ := ih (List.cons_ne_nil y ys)
        (fun t ht => hne t (List.mem_cons_of_mem _ ht))
      refine ⟨d, ?_, t, List.mem_cons_of_mem _ ht, hdt⟩
      show (x ++ sep :: joinSep sep (y :: ys)).getLast? = some d
      rw [List.getLast?_append_cons]
      obtain ⟨e, u, heu, _⟩ := joinSep_head sep y ys (hne y (by
        exact List.mem_cons_of_mem _ (List.mem_cons_self _ _)))
      rw [heu] at hd
      rw [heu]
      exact hd

theorem splitToks_joinSep :
    ∀ (toks : List (List Char)), toks ≠ [] →
    (∀ t ∈ toks, t ≠ [] ∧ ∀ c ∈ t, isSepChar c = false) →
    ∀ fuel, (joinSep ' ' toks).length < fuel →
    splitToks fuel (joinSep ' ' toks) = toks := by
  intro toks
  induction toks with
  | nil => intro h; exact absurd rfl h
  | cons x xs ih =>
    intro _ hprops fuel hfuel
    obtain ⟨hxne, hxsep⟩ := hprops x (List.mem_cons_self _ _)
    cases xs with
    | nil =>
      show splitToks fuel x = [x]
      cases x with
      | nil => exact absurd rfl hxne
      | cons a t =>
        cases fuel with
        | zero =>
          exfalso
          simp at hfuel
        | succ fuel =>
          have htake : (a :: t).takeWhile (fun d => !(isSepChar d)) = a :: t := by
            refine takeWhile_all _ ?_
            intro c hc
            rw [hxsep c hc]
            rfl
          simp only [splitToks]
          rw [htake, List.drop_length]
          rfl
    | cons y ys =>
      have hJ : joinSep ' ' (x :: y :: ys) = x ++ ' ' :: joinSep ' ' (y :: ys) := rfl
      obtain ⟨hyne, _⟩ := hprops y (List.mem_cons_of_mem _ (List.mem_cons_self _ _))
      obtain ⟨d, J2, hdJ, hdy⟩ := joinSep_head ' ' y ys hyne
      have hdns : isSepChar d = false := (hprops y
        (List.mem_cons_of_mem _ (List.mem_cons_self _ _))).2 d hdy
      cases x with
      | nil => exact absurd rfl hxne
      | cons a t =>
        cases fuel with
        | zero =>
          exfalso
          simp at hfuel
        | succ fuel =>
          rw [hJ, List.cons_append]
          have htake : (a :: (t ++ ' ' :: joinSep ' ' (y :: ys))).takeWhile
              (fun d => !(isSepChar d)) = a :: t := by
            rw [show a :: (t ++ ' ' :: joinSep ' ' (y :: ys)) =
              (a :: t) ++ ' ' :: joinSep ' ' (y :: ys) from rfl]
            refine takeWhile_all_append _ _ _ ?_ ?_
            · intro c hc
              rw [hxsep c hc]
              rfl
            · decide
          have hdropeq : (a :: (t ++ ' ' :: joinSep ' ' (y :: ys))).drop (a :: t).length =
              ' ' :: joinSep ' ' (y :: ys) := by
            rw [show a :: (t ++ ' ' :: joinSep ' ' (y :: ys)) =
              (a :: t) ++ ' ' :: joinSep ' ' (y :: ys) from rfl]
            exact List.drop_left _ _
          have hdrop : (' ' :: joinSep ' ' (y :: ys)).dropWhile (fun d => isSepChar d) =
              joinSep ' ' (y :: ys) := by
            rw [List.dropWhile_cons_of_pos (by decide)]
            refine dropWhile_eq_self_of_head _ ?_
            intro c hc
            rw [hdJ] at hc
            have : c = d := by
              rw [List.head?] at hc
              exact (Option.some.inj hc).symm
            rw [this]
            exact hdns
          have hJne : (joinSep ' ' (y :: ys)).isEmpty = false := by
            rw [hdJ]
            rfl
          simp only [splitToks]
          rw [htake, hdropeq]
          rw [if_neg (by simp)]
          rw [hdrop]
          rw [if_neg (by rw [hJne]; exact Bool.false_ne_true)]
          have hlen : (joinSep ' ' (y :: ys)).length < fuel := by
            rw [hJ] at hfuel
            simp only [List.length_append, List.length_cons] at hfuel
            omega
          rw [ih (List.cons_ne_nil y ys)
            (fun t2 ht2 => hprops t2 (List.mem_cons_of_mem _ ht2)) fuel hlen]

theorem scanCycles_render :
    ∀ (cycles : List (List Char)),
    (∀ cyc ∈ cycles, cyc ≠ [] ∧ ∀ c ∈ cyc, c ≠ '(' ∧ c ≠ ')') →
    ∀ fuel, ((cycles.map (fun cyc => ('(' :: cyc) ++ [')'])).flatten).length < fuel →
    scanCycles fuel ((cycles.map (fun cyc => ('(' :: cyc) ++ [')'])).flatten) = cycles := by
  intro cycles
  induction cycles with
  | nil =>
    intro _ fuel hfuel
    cases fuel with
    | zero => simp at hfuel
    | succ fuel => rfl
  | cons cyc rest ih =>
    intro hprops fuel hfuel
    obtain ⟨hne, hchars⟩ := hprops cyc (List.mem_cons_self _ _)
    have hflat : ((cyc :: rest).map (fun cyc => ('(' :: cyc) ++ [')'])).flatten =
        '(' :: (cyc ++ ')' :: (rest.map (fun cyc => ('(' :: cyc) ++ [')'])).flatten) := by
      rw [List.map_cons, List.flatten_cons]
      simp
    rw [hflat]
    rw [hflat] at hfuel
    cases fuel with
    | zero =>
      exfalso
      simp at hfuel
    | succ fuel =>
      rw [show scanCycles (fuel + 1)
          ('(' :: (cyc ++ ')' :: (rest.map (fun cyc => ('(' :: cyc) ++ [')'])).flatten)) =
          (if (('(' : Char) = '(') then
            (if ((cyc ++ ')' :: (rest.map (fun cyc => ('(' :: cyc) ++ [')'])).flatten).takeWhile
                (fun d => d ≠ ')')).length = 0 then
              scanCycles fuel (cyc ++ ')' :: (rest.map (fun cyc => ('(' :: cyc) ++ [')'])).flatten)
            else if ((cyc ++ ')' :: (rest.map (fun cyc => ('(' :: cyc) ++ [')'])).flatten).takeWhile
                (fun d => d ≠ ')')).length <
                (cyc ++ ')' :: (rest.map (fun cyc => ('(' :: cyc) ++ [')'])).flatten).length then
              ((cyc ++ ')' :: (rest.map (fun cyc => ('(' :: cyc) ++ [')'])).flatten).takeWhile
                (fun d => d ≠ ')')) ::
                scanCycles fuel ((cyc ++ ')' ::
                  (rest.map (fun cyc => ('(' :: cyc) ++ [')'])).flatten).drop
                  (((cyc ++ ')' :: (rest.map (fun cyc => ('(' :: cyc) ++ [')'])).flatten).takeWhile
                    (fun d => d ≠ ')')).length + 1))
            else [])
          else scanCycles fuel
            (cyc ++ ')' :: (rest.map (fun cyc => ('(' :: cyc) ++ [')'])).flatten)) from rfl]
      rw [if_pos rfl]
      have htake : (cyc ++ ')' :: (rest.map (fun cyc => ('(' :: cyc) ++ [')'])).flatten).takeWhile
          (fun d => d ≠ ')') = cyc := by
        refine takeWhile_all_append _ _ _ ?_ ?_
        · intro c hc
          rw [decide_eq_true ((hchars c hc).2)]
        · decide
      rw [htake]
      rw [if_neg (by
        have : 0 < cyc.length := List.length_pos.mpr hne
        omega)]
      rw [if_pos (by
        rw [List.length_append, List.length_cons]
        omega)]
      have hdrop : (cyc ++ ')' :: (rest.map (fun cyc => ('(' :: cyc) ++ [')'])).flatten).drop
          (cyc.length + 1) = (rest.map (fun cyc => ('(' :: cyc) ++ [')'])).flatten := by
        rw [show cyc ++ ')' :: (rest.map (fun cyc => ('(' :: cyc) ++ [')'])).flatten =
          (cyc ++ [')']) ++ (rest.map (fun cyc => ('(' :: cyc) ++ [')'])).flatten by
          rw [List.append_assoc]
          rfl]
        rw [show cyc.length + 1 = (cyc ++ [')']).length by
          rw [List.length_append]
          rfl]
        exact List.drop_left _ _
      rw [hdrop]
      rw [ih (fun c hc => hprops c (List.mem_cons_of_mem _ hc)) fuel (by
        rw [List.length_cons, List.length_append, List.length_cons] at hfuel
        omega)]

theorem joinSep_chars (sep : Char) :
    ∀ (toks : List (List Char)), ∀ c ∈ joinSep sep toks, c = sep ∨ ∃ t ∈ toks, c ∈ t := by
  intro toks
  induction toks with
  | nil => intro c hc; exact absurd hc (List.not_mem_nil c)
  | cons x xs ih =>
    intro c hc
    cases xs with
    | nil => exact Or.inr ⟨x, List.mem_cons_self _ _, hc⟩
    | cons y ys =>
      rw [show joinSep sep (x :: y :: ys) = x ++ sep :: joinSep sep (y :: ys) from rfl] at hc
      rcases List.mem_append.mp hc with h1 | h2
      · exact Or.inr ⟨x, List.mem_cons_self _ _, h1⟩
      · rcases List.mem_cons.mp h2 with rfl | h3
        · exact Or.inl rfl
        · rcases ih c h3 with h4 | ⟨t, ht, hct⟩
          · exact Or.inl h4
          · exact Or.inr ⟨t, List.mem_cons_of_mem _ ht, hct⟩

theorem parseCycles_parens (n : Nat) (hn : n ≠ 0) :
    parseCycles ['(', ')'] n = Except.ok (List.range n) := by
  show Except.ok ((List.range (if n = 0 then 0 else n)).map (fun i => i)) = _
  rw [if_neg hn, List.map_id']

/-- C8 (amended): parse/format round-trip on arrays, with the degree passed
explicitly. For every permutation array p (a bijection on 0..n-1),
parseCycles(decomposeToCycles(p), p.length) returns an array equal to p. The
claim as stated (parseCycles with the default degree 0) fails: the inferred
degree is the maximal moved point + 1, so trailing fixed points are dropped —
in particular the identity array [0] round-trips to [] (see
C8_counterexample). -/
theorem C8_roundtrip_amended (p : List Nat) (hp : PermImg p.length p) :
    parseCycles (decomposeToCycles p) p.length = Except.ok p := by
  obtain ⟨hlen, hval, hnd⟩ := hp
  have hqv : ∀ x, x < p.length → p.getD x 0 < p.length := by
    intro x hx
    refine hval _ ?_
    rw [List.getD_eq_getElem _ _ hx]
    exact List.getElem_mem _
  have hinj : ∀ x y, x < p.length → y < p.length →
      p.getD x 0 = p.getD y 0 → x = y := by
    intro x y hx hy hxy
    exact nodup_getD_inj hnd hx hy hxy
  obtain ⟨iha, ihb⟩ := decompAll_spec (fun i => p.getD i 0) p.length hqv hinj
    (List.range p.length) (fun _ => false)
    (fun i hi => List.mem_range.mp hi)
    (fun y hy hqy => Bool.noConfusion hqy)
    (fun x hx => Bool.noConfusion hx)
  rcases hCS : decompAll (fun i => p.getD i 0) (List.range p.length) (p.length + 1)
      (fun _ => false) with _ | ⟨c0, cs2⟩
  · have hdec : decomposeToCycles p = ['(', ')'] := by
      simp only [decomposeToCycles]
      rw [hCS]
    rw [hdec]
    rw [hCS] at ihb
    by_cases hn0 : p.length = 0
    · have hpnil : p = [] := List.length_eq_zero.mp hn0
      subst hpnil
      rfl
    · rw [parseCycles_parens p.length hn0]
      refine congrArg Except.ok ?_
      have hfix : ∀ j, j < p.length → p.getD j 0 = j := by
        intro j hj
        by_contra hne
        obtain ⟨cyc, hcyc, _⟩ := ihb j (List.mem_range.mpr hj) rfl hne
        exact absurd hcyc (List.not_mem_nil cyc)
      have h1 : (List.range p.length).map (fun k => p.getD k 0) = p := map_range_getD_self rfl
      rw [List.map_congr_left (fun j hj => hfix j (List.mem_range.mp hj))] at h1
      exact (List.map_id' _).symm.trans h1
  · rw [hCS] at iha ihb
    have hc0 := iha c0 (List.mem_cons_self _ _)
    have hn0 : p.length ≠ 0 := by
      obtain ⟨hl2, hmem, _⟩ := hc0
      have hm0 : c0.getD 0 0 ∈ c0 := by
        rw [List.getD_eq_getElem _ _ (by omega)]
        exact List.getElem_mem _
      obtain ⟨_, h2⟩ := hmem _ hm0
      omega
    have hdec : decomposeToCycles p =
        ((c0 :: cs2).map (fun cyc =>
          ('(' :: joinSep ' ' (cyc.map natToChars)) ++ [')'])).flatten := by
      simp only [decomposeToCycles]
      rw [hCS]
    have hrender : ((c0 :: cs2).map (fun cyc =>
          ('(' :: joinSep ' ' (cyc.map natToChars)) ++ [')'])).flatten =
        (((c0 :: cs2).map (fun cyc => joinSep ' ' (cyc.map natToChars))).map
          (fun inner => ('(' :: inner) ++ [')'])).flatten := by
      rw [List.map_map]
      rfl
    have htokprops : ∀ cyc, cyc ∈ c0 :: cs2 →
        ∀ t ∈ cyc.map natToChars, t ≠ [] ∧ ∀ c ∈ t, isSepChar c = false := by
      intro cyc hcyc t ht
      obtain ⟨m, hm, rfl⟩ := List.mem_map.mp ht
      exact ⟨natToChars_ne_nil m, fun c hc => (natToChars_chars m c hc).2.2.1⟩
    have htoksne : ∀ cyc, cyc ∈ c0 :: cs2 → cyc.map natToChars ≠ [] := by
      intro cyc hcyc h
      obtain ⟨hl2, _, _⟩ := iha cyc hcyc
      have h2 := congrArg List.length h
      rw [List.length_map] at h2
      simp only [List.length_nil] at h2
      omega
    have hinner : ∀ cyc, cyc ∈ c0 :: cs2 →
        (splitToks ((joinSep ' ' (cyc.map natToChars)).length + 1)
          (trimChars (joinSep ' ' (cyc.map natToChars)))).map parseNum = cyc.map some := by
      intro cyc hcyc
      have htrim : trimChars (joinSep ' ' (cyc.map natToChars)) =
          joinSep ' ' (cyc.map natToChars) := by
        refine trimChars_eq_self _ ?_ ?_
        · intro c hc
          rcases hml : cyc.map natToChars with _ | ⟨t, ts⟩
          · exact absurd hml (htoksne cyc hcyc)
          · have htne : t ≠ [] := (htokprops cyc hcyc t (by rw [hml]; exact List.mem_cons_self _ _)).1
            obtain ⟨d, t2, hdJ, hdmem⟩ := joinSep_head ' ' t ts htne
            rw [hml, hdJ, List.head?_cons] at hc
            have hcd : d = c := Option.some.inj hc
            obtain ⟨m, hm, hteq⟩ := List.mem_map.mp (show t ∈ cyc.map natToChars by
              rw [hml]; exact List.mem_cons_self _ _)
            rw [← hcd]
            rw [← hteq] at hdmem
            exact (natToChars_chars m d hdmem).2.1
        · intro c hc
          obtain ⟨d, hd, t, ht, hdt⟩ := joinSep_getLast ' ' (cyc.map natToChars)
            (htoksne cyc hcyc) (fun t ht => (htokprops cyc hcyc t ht).1)
          rw [hd] at hc
          have hcd : d = c := Option.some.inj hc
          obtain ⟨m, hm, hteq⟩ := List.mem_map.mp ht
          rw [← hcd]
          rw [← hteq] at hdt
          exact (natToChars_chars m d hdt).2.1
      have hsplit : splitToks ((joinSep ' ' (cyc.map natToChars)).length + 1)
          (joinSep ' ' (cyc.map natToChars)) = cyc.map natToChars :=
        splitToks_joinSep (cyc.map natToChars) (htoksne cyc hcyc) (htokprops cyc hcyc) _ (by omega)
      rw [htrim, hsplit, List.map_map]
      refine List.map_congr_left ?_
      intro m _
      exact parseNum_natToChars m
    have hinnerprops : ∀ inner ∈ (c0 :: cs2).map (fun cyc => joinSep ' ' (cyc.map natToChars)),
        inner ≠ [] ∧ ∀ c ∈ inner, c ≠ '(' ∧ c ≠ ')' := by
      intro inner hinner
      obtain ⟨cyc, hcyc, rfl⟩ := List.mem_map.mp hinner
      constructor
      · rcases hml : cyc.map natToChars with _ | ⟨t, ts⟩
        · exact absurd hml (htoksne cyc hcyc)
        · have htne : t ≠ [] := (htokprops cyc hcyc t (by rw [hml]; exact List.mem_cons_self _ _)).1
          obtain ⟨d, t2, hdJ, _⟩ := joinSep_head ' ' t ts htne
          rw [hdJ]
          exact List.cons_ne_nil d t2
      · intro c hc
        rcases joinSep_chars ' ' _ c hc with rfl | ⟨t, ht, hct⟩
        · exact ⟨by decide, by decide⟩
        · obtain ⟨m, hm, rfl⟩ := List.mem_map.mp ht
          exact ⟨(natToChars_chars m c hct).2.2.2.1, (natToChars_chars m c hct).2.2.2.2⟩
    have hscan : scanCycles (((((c0 :: cs2).map (fun cyc => joinSep ' ' (cyc.map natToChars))).map
          (fun inner => ('(' :: inner) ++ [')'])).flatten).length + 1)
        ((((c0 :: cs2).map (fun cyc => joinSep ' ' (cyc.map natToChars))).map
          (fun inner => ('(' :: inner) ++ [')'])).flatten) =
        (c0 :: cs2).map (fun cyc => joinSep ' ' (cyc.map natToChars)) :=
      scanCycles_render _ hinnerprops _ (by omega)
    rw [hdec, hrender]
    simp only [parseCycles]
    rw [hscan]
    have hcyclesO : ((c0 :: cs2).map (fun cyc => joinSep ' ' (cyc.map natToChars))).map
        (fun s2 => (splitToks (s2.length + 1) (trimChars s2)).map parseNum)
        = (c0 :: cs2).map (fun cyc => cyc.map some) := by
      rw [List.map_map]
      refine List.map_congr_left ?_
      intro cyc hcyc
      exact hinner cyc hcyc
    rw [hcyclesO]
    have hany : ((c0 :: cs2).map (fun cyc => cyc.map some)).any
        (fun cyc => cyc.any (fun e => e.getD 0 = 0)) = false := by
      rw [List.any_eq_false]
      intro x hx
      obtain ⟨cyc, hcyc, rfl⟩ := List.mem_map.mp hx
      rw [Bool.not_eq_true, List.any_eq_false]
      intro e he
      obtain ⟨m, hm, rfl⟩ := List.mem_map.mp he
      obtain ⟨hm1, _⟩ := (iha cyc hcyc).2.1 m hm
      simp only [Option.getD_some, decide_eq_true_eq]
      omega
    rw [if_neg (by rw [hany]; exact Bool.false_ne_true)]
    have hcycles : ((c0 :: cs2).map (fun cyc => cyc.map some)).map
        (fun cyc => cyc.map (fun e => e.getD 0)) = c0 :: cs2 := by
      rw [List.map_map]
      refine (List.map_congr_left ?_).trans (List.map_id' _)
      intro cyc _
      show (cyc.map some).map (fun e => e.getD 0) = cyc
      rw [List.map_map]
      refine (List.map_congr_left ?_).trans (List.map_id' _)
      intro m _
      rfl
    rw [hcycles]
    rw [if_neg hn0]
    obtain ⟨hA1, hA2, hA3⟩ := applyAll_spec p.length (fun i => p.getD i 0) (c0 :: cs2) (fun i => i)
      (by
        intro cyc hcyc
        obtain ⟨h1, h2, h3⟩ := iha cyc hcyc
        refine ⟨h1, ?_, h3⟩
        intro m hm
        obtain ⟨hm1, hm2⟩ := h2 m hm
        exact ⟨hm1, hm2, hqv _ hm2⟩)
    refine congrArg Except.ok ?_
    have hF : ∀ j, j < p.length →
        ((c0 :: cs2).foldl (fun p2 cyc => applyCycle p.length cyc p2) (fun i => i)) j =
          p.getD j 0 := by
      intro j hj
      by_cases hmv : p.getD j 0 = j
      · rcases hA1 j with h | h
        · rw [h, hmv]
        · exact h
      · obtain ⟨cyc, hcyc, hjmem⟩ := ihb j (List.mem_range.mpr hj) rfl hmv
        have h3 := hA3 cyc hcyc _ hjmem
        have hj1 : j + 1 - 1 = j := by omega
        rw [hj1] at h3
        exact h3
    have h2 : (List.range p.length).map
        ((c0 :: cs2).foldl (fun p2 cyc => applyCycle p.length cyc p2) (fun i => i))
        = (List.range p.length).map (fun k => p.getD k 0) :=
      List.map_congr_left (fun j hj => hF j (List.mem_range.mp hj))
    rw [h2]
    exact map_range_getD_self rfl

theorem C8_roundtrip_amended_witness :
    parseCycles (decomposeToCycles [1, 2, 0]) (List.length [1, 2, 0]) = Except.ok [1, 2, 0] :=
  C8_roundtrip_amended [1, 2, 0] ⟨rfl, by decide, by decide⟩

end GroupsJs
